import Mathlib

/-!
# Scaled forward algorithm of `src/forward_algorithms.cpp`

A shallow embedding of the three exported functions `forward_cpp_h`,
`forward_cpp_g` and `forward_cpp_p`, and theorems about them.

The C++ code works on Armadillo containers (`arma::mat`, `arma::rowvec`,
`arma::cube`) and on `double`.  The embedding keeps the scalar type `α`
abstract: the functions only use `+`, `*`, `/`, the literal zero of an empty
sum, and `log`, which is passed as an argument.  The theorems instantiate `α`
with `ℝ` (exact arithmetic, `log = Real.log`), with `FVal` (exact arithmetic
extended by the special values `+inf`, `-inf`, `NaN` of `double`) or with `Dbl`
(the arithmetic of `double` itself: IEEE 754 binary64 with rounding to nearest,
underflow, overflow and the special values).

Armadillo containers carry their dimensions at run time; element access,
`row`, `slice`, `%` and `*` check indices and sizes and throw
`std::logic_error` when the check fails (the library default, no
`ARMA_NO_DEBUG` is defined in the source file).  The embedding models a
container as its dimensions together with an element function on `Nat`
indices, and a throwing operation as a function into `Except ArmaError`.
-/

namespace Lcpp

/-! ## Containers -/

/-- The two kinds of `std::logic_error` raised by Armadillo's run-time checks. -/
inductive ArmaError where
  | index_out_of_bounds
  | size_mismatch
  deriving DecidableEq

/-- An `arma::rowvec`: its length and its entries (read at indices below `n_elem`). -/
structure Rowvec (α : Type) where
  n_elem : Nat
  elem : Nat → α

/-- An `arma::mat`: `elem i j` is the entry in row `i`, column `j`. -/
structure Mat (α : Type) where
  n_rows : Nat
  n_cols : Nat
  elem : Nat → Nat → α

/-- An `arma::cube`: `elem i j k` is the entry in row `i`, column `j` of slice `k`. -/
structure Cube (α : Type) where
  n_rows : Nat
  n_cols : Nat
  n_slices : Nat
  elem : Nat → Nat → Nat → α

/-- A `std::vector<int>`: its size and the contents of its buffer.  `operator[]`
performs no bounds check, so `data` is total: at an index not below `size` it
stands for whatever the read past the end of the buffer yields. -/
structure StdVector where
  size : Nat
  data : Nat → Int

/-- Every word of the buffer is a value of the 32-bit type `int`. -/
def StdVector.IntValued (v : StdVector) : Prop :=
  ∀ i, -2 ^ 31 ≤ v.data i ∧ v.data i < 2 ^ 31

variable {α : Type}

/-- The sum of `f 0, ..., f (n-1)` (zero when `n = 0`). -/
def sumTo [Zero α] [Add α] (n : Nat) (f : Nat → α) : α :=
  ((List.range n).map f).sum

/-- Computes `sum(v)` of a row vector.  Armadillo accumulates the entries in an
order of its own; in arithmetic without rounding the order does not change the
result (also with the special values of `FVal`), and in `double` it does not
change the sum of a vector of two entries, which is the rounded sum of the two
(the runs evaluated in `Dbl` below have `N = 2`). -/
def Rowvec.sum [Zero α] [Add α] (v : Rowvec α) : α :=
  sumTo v.n_elem v.elem

/-- Computes `v / s`, the division of every entry by a scalar. -/
def Rowvec.divScalar [Div α] (v : Rowvec α) (s : α) : Rowvec α :=
  ⟨v.n_elem, fun j => v.elem j / s⟩

/-- Computes `a % b`, the element-wise product; the sizes must agree. -/
def Rowvec.schur [Mul α] (a b : Rowvec α) : Except ArmaError (Rowvec α) :=
  if a.n_elem = b.n_elem then
    .ok ⟨a.n_elem, fun j => a.elem j * b.elem j⟩
  else
    .error .size_mismatch

/-- Computes `v * M`, the product of a row vector with a matrix; the length of
`v` must be the number of rows of `M`.  Every product and every sum is an
operation of its own (in `double`: rounded on its own, no fused multiply-add). -/
def Rowvec.mulMat [Zero α] [Add α] [Mul α] (v : Rowvec α) (M : Mat α) :
    Except ArmaError (Rowvec α) :=
  if v.n_elem = M.n_rows then
    .ok ⟨M.n_cols, fun j => sumTo v.n_elem (fun k => v.elem k * M.elem k j)⟩
  else
    .error .size_mismatch

/-- Computes `M.row(i)`; the index must be below `n_rows`. -/
def Mat.row (M : Mat α) (i : Nat) : Except ArmaError (Rowvec α) :=
  if i < M.n_rows then
    .ok ⟨M.n_cols, fun j => M.elem i j⟩
  else
    .error .index_out_of_bounds

/-- Computes `C.slice(k)`; the index must be below `n_slices`. -/
def Cube.slice (C : Cube α) (k : Nat) : Except ArmaError (Mat α) :=
  if k < C.n_slices then
    .ok ⟨C.n_rows, C.n_cols, fun i j => C.elem i j k⟩
  else
    .error .index_out_of_bounds

/-- The conversion of an `int` to the unsigned 64-bit index type `arma::uword`
that takes place when `tod[i]` is passed to `Cube::slice`. -/
def toUword (t : Int) : Nat :=
  (t % 2 ^ 64).toNat

/-! ## The functions -/

/-- The local variables `foo`, `sumfoo`, `l`, `phi` of the three functions. -/
structure Locals (α : Type) where
  foo : Rowvec α
  sumfoo : α
  l : α
  phi : Rowvec α

/-- The loop `for (unsigned int i = i0; ...; i++) body`, run for `k`
iterations starting at index `i0`; an exception thrown by the body ends it. -/
def forLoop {σ : Type} (body : Nat → σ → Except ArmaError σ) :
    Nat → Nat → σ → Except ArmaError σ
  | 0, _, s => .ok s
  | k + 1, i, s =>
    match body i s with
    | .ok s1 => forLoop body k (i + 1) s1
    | .error e => .error e

/-- Lines 14 to 17, the same in the three functions:
`foo = delta % allprobs.row(0); sumfoo = sum(foo); l = log(sumfoo);
phi = foo/sumfoo`.  (The vector `foo(N)` declared before is overwritten, size
included, by the first assignment.) -/
def forward_init [Zero α] [Add α] [Mul α] [Div α] (log : α → α)
    (allprobs : Mat α) (delta : Rowvec α) : Except ArmaError (Locals α) :=
  match allprobs.row 0 with
  | .error e => .error e
  | .ok row0 =>
    match delta.schur row0 with
    | .error e => .error e
    | .ok foo =>
      let sumfoo := foo.sum
      let l := log sumfoo
      let phi := foo.divScalar sumfoo
      .ok ⟨foo, sumfoo, l, phi⟩

/-- The statements of a loop body once the transition matrix `G` of the step
is at hand: `foo = (phi*G) % allprobs.row(i); sumfoo = sum(foo);
l = l + log(sumfoo); phi = foo/sumfoo`.  C++ does not fix the order in which the
operands of `%` are evaluated, so which of several failing checks raises the
exception is a choice of the embedding; no theorem below depends on it. -/
def forward_step [Zero α] [Add α] [Mul α] [Div α] (log : α → α)
    (allprobs : Mat α) (G : Mat α) (i : Nat) (s : Locals α) :
    Except ArmaError (Locals α) :=
  match s.phi.mulMat G with
  | .error e => .error e
  | .ok phiG =>
    match allprobs.row i with
    | .error e => .error e
    | .ok row =>
      match phiG.schur row with
      | .error e => .error e
      | .ok foo =>
        let sumfoo := foo.sum
        let l := s.l + log sumfoo
        let phi := foo.divScalar sumfoo
        .ok ⟨foo, sumfoo, l, phi⟩

/-- The loop body of `forward_cpp_h` (lines 19 to 22). -/
def forward_cpp_h_body [Zero α] [Add α] [Mul α] [Div α] (log : α → α)
    (allprobs : Mat α) (Gamma : Mat α) (i : Nat) (s : Locals α) :
    Except ArmaError (Locals α) :=
  forward_step log allprobs Gamma i s

/-- The loop body of `forward_cpp_g` (lines 39 to 42), with `Gamma.slice(i-1)`. -/
def forward_cpp_g_body [Zero α] [Add α] [Mul α] [Div α] (log : α → α)
    (allprobs : Mat α) (Gamma : Cube α) (i : Nat) (s : Locals α) :
    Except ArmaError (Locals α) :=
  match Gamma.slice (i - 1) with
  | .error e => .error e
  | .ok G => forward_step log allprobs G i s

/-- The loop body of `forward_cpp_p` (lines 59 to 62), with
`Gamma.slice(tod[i])`: `tod[i]` is read without a bounds check and converted
to the unsigned index type. -/
def forward_cpp_p_body [Zero α] [Add α] [Mul α] [Div α] (log : α → α)
    (allprobs : Mat α) (Gamma : Cube α) (tod : StdVector) (i : Nat)
    (s : Locals α) : Except ArmaError (Locals α) :=
  match Gamma.slice (toUword (tod.data i)) with
  | .error e => .error e
  | .ok G => forward_step log allprobs G i s

/-- The local variables of `forward_cpp_h` after `k` iterations of its loop. -/
def forward_cpp_h_locals [Zero α] [Add α] [Mul α] [Div α] (log : α → α)
    (allprobs : Mat α) (delta : Rowvec α) (Gamma : Mat α) (k : Nat) :
    Except ArmaError (Locals α) :=
  match forward_init log allprobs delta with
  | .error e => .error e
  | .ok s0 => forLoop (forward_cpp_h_body log allprobs Gamma) k 1 s0

/-- The local variables of `forward_cpp_g` after `k` iterations of its loop. -/
def forward_cpp_g_locals [Zero α] [Add α] [Mul α] [Div α] (log : α → α)
    (allprobs : Mat α) (delta : Rowvec α) (Gamma : Cube α) (k : Nat) :
    Except ArmaError (Locals α) :=
  match forward_init log allprobs delta with
  | .error e => .error e
  | .ok s0 => forLoop (forward_cpp_g_body log allprobs Gamma) k 1 s0

/-- The local variables of `forward_cpp_p` after `k` iterations of its loop. -/
def forward_cpp_p_locals [Zero α] [Add α] [Mul α] [Div α] (log : α → α)
    (allprobs : Mat α) (delta : Rowvec α) (Gamma : Cube α) (tod : StdVector)
    (k : Nat) : Except ArmaError (Locals α) :=
  match forward_init log allprobs delta with
  | .error e => .error e
  | .ok s0 => forLoop (forward_cpp_p_body log allprobs Gamma tod) k 1 s0

/-- The function `forward_cpp_h` (lines 8 to 25): the loop runs for
`i = 1, ..., nObs-1`, that is `nObs - 1` times, and `l` is returned.  The
conversions of `n_rows` to `int nObs` and of `nObs` to `unsigned int` in the
loop test are the identity: a matrix passed from R has fewer than `2^31`
rows. -/
def forward_cpp_h [Zero α] [Add α] [Mul α] [Div α] (log : α → α)
    (allprobs : Mat α) (delta : Rowvec α) (Gamma : Mat α) : Except ArmaError α :=
  let nObs := allprobs.n_rows
  match forward_cpp_h_locals log allprobs delta Gamma (nObs - 1) with
  | .error e => .error e
  | .ok s => .ok s.l

/-- The function `forward_cpp_g` (lines 28 to 45). -/
def forward_cpp_g [Zero α] [Add α] [Mul α] [Div α] (log : α → α)
    (allprobs : Mat α) (delta : Rowvec α) (Gamma : Cube α) : Except ArmaError α :=
  let nObs := allprobs.n_rows
  match forward_cpp_g_locals log allprobs delta Gamma (nObs - 1) with
  | .error e => .error e
  | .ok s => .ok s.l

/-- The function `forward_cpp_p` (lines 48 to 65). -/
def forward_cpp_p [Zero α] [Add α] [Mul α] [Div α] (log : α → α)
    (allprobs : Mat α) (delta : Rowvec α) (Gamma : Cube α) (tod : StdVector) :
    Except ArmaError α :=
  let nObs := allprobs.n_rows
  match forward_cpp_p_locals log allprobs delta Gamma tod (nObs - 1) with
  | .error e => .error e
  | .ok s => .ok s.l

/-! ## Auxiliary definitions used in the statements and proofs -/

/-- A loop body that obtains the transition matrix of step `i` from a selector
`sel` and then runs the statements of the step; the three loop bodies are
instances of it. -/
def sel_body [Zero α] [Add α] [Mul α] [Div α] (log : α → α) (allprobs : Mat α)
    (sel : Nat → Except ArmaError (Mat α)) (i : Nat) (s : Locals α) :
    Except ArmaError (Locals α) :=
  match sel i with
  | .error e => .error e
  | .ok G => forward_step log allprobs G i s

/-- The locals after `k` iterations of the loop over `sel_body`, from the
initial locals. -/
def sel_locals [Zero α] [Add α] [Mul α] [Div α] (log : α → α) (allprobs : Mat α)
    (delta : Rowvec α) (sel : Nat → Except ArmaError (Mat α)) (k : Nat) :
    Except ArmaError (Locals α) :=
  match forward_init log allprobs delta with
  | .error e => .error e
  | .ok s0 => forLoop (sel_body log allprobs sel) k 1 s0

/-- The local variables after lines 14 to 17 when no check fails. -/
def initPure [Zero α] [Add α] [Mul α] [Div α] (log : α → α) (allprobs : Mat α)
    (delta : Rowvec α) : Locals α :=
  let foo : Rowvec α := ⟨delta.n_elem, fun j => delta.elem j * allprobs.elem 0 j⟩
  ⟨foo, foo.sum, log foo.sum, foo.divScalar foo.sum⟩

/-- The local variables after the statements of step `i` when no check fails. -/
def stepPure [Zero α] [Add α] [Mul α] [Div α] (log : α → α) (allprobs : Mat α)
    (G : Mat α) (i : Nat) (s : Locals α) : Locals α :=
  let foo : Rowvec α :=
    ⟨G.n_cols, fun j => sumTo s.phi.n_elem (fun k => s.phi.elem k * G.elem k j) *
      allprobs.elem i j⟩
  ⟨foo, foo.sum, s.l + log foo.sum, foo.divScalar foo.sum⟩

/-- The local variables after `t` steps when no check fails, the matrix of
step `i` being `Gs i`. -/
def statePure [Zero α] [Add α] [Mul α] [Div α] (log : α → α) (allprobs : Mat α)
    (delta : Rowvec α) (Gs : Nat → Mat α) : Nat → Locals α
  | 0 => initPure log allprobs delta
  | t + 1 => stepPure log allprobs (Gs (t + 1)) (t + 1) (statePure log allprobs delta Gs t)

/-- The first `m` slices of a cube (`Gamma.head_slices(m)` in Armadillo). -/
def Cube.head_slices (C : Cube α) (m : Nat) : Cube α :=
  ⟨C.n_rows, C.n_cols, m, C.elem⟩

/-- The slice `k` of a cube without the bounds check. -/
def Cube.sliceAt (C : Cube α) (k : Nat) : Mat α :=
  ⟨C.n_rows, C.n_cols, fun i j => C.elem i j k⟩

/-- Every entry of the vector is non-negative. -/
def Rowvec.Nonneg [Zero α] [LE α] (v : Rowvec α) : Prop :=
  ∀ j, j < v.n_elem → 0 ≤ v.elem j

/-- Every entry of the matrix is non-negative. -/
def Mat.Nonneg [Zero α] [LE α] (M : Mat α) : Prop :=
  ∀ i j, i < M.n_rows → j < M.n_cols → 0 ≤ M.elem i j

/-- Every entry of every slice of the cube is non-negative. -/
def Cube.Nonneg [Zero α] [LE α] (C : Cube α) : Prop :=
  ∀ i j k, i < C.n_rows → j < C.n_cols → k < C.n_slices → 0 ≤ C.elem i j k

/-- The locals are as a step leaves them: `sumfoo` is the sum of `foo` and `phi`
is `foo/sumfoo`. -/
def Locals.Normalised [Zero α] [Add α] [Div α] (s : Locals α) : Prop :=
  s.sumfoo = s.foo.sum ∧ s.phi = s.foo.divScalar s.sumfoo

/-! ### Exact arithmetic extended by the special values of `double` -/

/-- A value of the type `double`, rounding left aside: a number of the ordered
field `β` (the reals in the theorems) or one of the special values `+inf`,
`-inf`, `NaN`.  The operations below follow IEEE 754 on the special values;
rounding, overflow and the sign of zero are not modelled (every zero is `+0`,
which is what non-negative inputs produce).  The arithmetic of `double` with
rounding is `Dbl` below. -/
inductive FVal (β : Type) where
  | fin (x : β)
  | pinf
  | ninf
  | nan

/-- Addition of `double`: `NaN` propagates and `inf + (-inf)` is `NaN`. -/
def FVal.add {β : Type} [LinearOrderedField β] : FVal β → FVal β → FVal β
  | .nan, _ => .nan
  | _, .nan => .nan
  | .fin a, .fin b => .fin (a + b)
  | .fin _, .pinf => .pinf
  | .fin _, .ninf => .ninf
  | .pinf, .fin _ => .pinf
  | .ninf, .fin _ => .ninf
  | .pinf, .pinf => .pinf
  | .ninf, .ninf => .ninf
  | .pinf, .ninf => .nan
  | .ninf, .pinf => .nan

/-- The infinity with the sign of `b` times the sign `pos`; `NaN` for `b = 0`. -/
def FVal.infTimes {β : Type} [LinearOrderedField β] (pos : Bool) (b : β) : FVal β :=
  if b = 0 then .nan
  else if (0 < b) = pos then .pinf
  else .ninf

/-- Multiplication of `double`: `NaN` propagates and `inf * 0` is `NaN`. -/
def FVal.mul {β : Type} [LinearOrderedField β] : FVal β → FVal β → FVal β
  | .nan, _ => .nan
  | _, .nan => .nan
  | .fin a, .fin b => .fin (a * b)
  | .fin a, .pinf => FVal.infTimes true a
  | .fin a, .ninf => FVal.infTimes false a
  | .pinf, .fin b => FVal.infTimes true b
  | .ninf, .fin b => FVal.infTimes false b
  | .pinf, .pinf => .pinf
  | .ninf, .ninf => .pinf
  | .pinf, .ninf => .ninf
  | .ninf, .pinf => .ninf

/-- Division of `double`: `NaN` propagates, `0/0` and `inf/inf` are `NaN`, `x/0`
is the infinity with the sign of `x`. -/
def FVal.div {β : Type} [LinearOrderedField β] : FVal β → FVal β → FVal β
  | .nan, _ => .nan
  | _, .nan => .nan
  | .fin a, .fin b =>
    if b = 0 then
      if a = 0 then .nan else if 0 < a then .pinf else .ninf
    else .fin (a / b)
  | .fin _, .pinf => .fin 0
  | .fin _, .ninf => .fin 0
  | .pinf, .fin b => if 0 ≤ b then .pinf else .ninf
  | .ninf, .fin b => if 0 ≤ b then .ninf else .pinf
  | .pinf, .pinf => .nan
  | .ninf, .ninf => .nan
  | .pinf, .ninf => .nan
  | .ninf, .pinf => .nan

/-- The function `log` of `double`, given the logarithm of positive numbers:
`log(0) = -inf`, `log` of a negative number, of `-inf` or of `NaN` is `NaN`. -/
def FVal.log {β : Type} [LinearOrderedField β] (log : β → β) : FVal β → FVal β
  | .fin x => if x < 0 then .nan else if x = 0 then .ninf else .fin (log x)
  | .pinf => .pinf
  | .ninf => .nan
  | .nan => .nan

instance {β : Type} [LinearOrderedField β] : Zero (FVal β) := ⟨.fin 0⟩

instance {β : Type} [LinearOrderedField β] : Add (FVal β) := ⟨FVal.add⟩

instance {β : Type} [LinearOrderedField β] : Mul (FVal β) := ⟨FVal.mul⟩

instance {β : Type} [LinearOrderedField β] : Div (FVal β) := ⟨FVal.div⟩

/-- The number a finite value stands for (0 for the special values). -/
def FVal.toField {β : Type} [LinearOrderedField β] : FVal β → β
  | .fin x => x
  | _ => 0

/-- The value is `NaN` or a non-negative number. -/
def FVal.NonnegOrNan {β : Type} [LinearOrderedField β] (x : FVal β) : Prop :=
  x = .nan ∨ ∃ r, 0 ≤ r ∧ x = .fin r

/-- The vector with `f` applied to every entry. -/
def Rowvec.map {β : Type} (f : α → β) (v : Rowvec α) : Rowvec β :=
  ⟨v.n_elem, fun j => f (v.elem j)⟩

/-- The matrix with `f` applied to every entry. -/
def Mat.map {β : Type} (f : α → β) (M : Mat α) : Mat β :=
  ⟨M.n_rows, M.n_cols, fun i j => f (M.elem i j)⟩

/-- The cube with `f` applied to every entry. -/
def Cube.map {β : Type} (f : α → β) (C : Cube α) : Cube β :=
  ⟨C.n_rows, C.n_cols, C.n_slices, fun i j k => f (C.elem i j k)⟩

/-- The locals with `f` applied to every scalar. -/
def Locals.map {β : Type} (f : α → β) (s : Locals α) : Locals β :=
  ⟨s.foo.map f, f s.sumfoo, f s.l, s.phi.map f⟩

/-! ### Properties of the inputs -/

/-- The vector is a probability distribution: non-negative entries of sum 1. -/
def Rowvec.IsDistribution [Zero α] [Add α] [One α] [LE α] (v : Rowvec α) : Prop :=
  v.Nonneg ∧ v.sum = 1

/-- The matrix is row-stochastic: non-negative entries, every row of sum 1. -/
def Mat.RowStochastic [Zero α] [Add α] [One α] [LE α] (M : Mat α) : Prop :=
  M.Nonneg ∧ ∀ i, i < M.n_rows → sumTo M.n_cols (fun j => M.elem i j) = 1

/-- Every slice of the cube is row-stochastic. -/
def Cube.RowStochastic [Zero α] [Add α] [One α] [LE α] (C : Cube α) : Prop :=
  ∀ k, k < C.n_slices → (C.sliceAt k).RowStochastic

/-- Row `t` of the matrix is all-zero. -/
def Mat.ZeroRow [Zero α] (M : Mat α) (t : Nat) : Prop :=
  ∀ j, j < M.n_cols → M.elem t j = 0

/-- Every entry of row `t` of the matrix is positive. -/
def Mat.PositiveRow [Zero α] [LT α] (M : Mat α) (t : Nat) : Prop :=
  ∀ j, j < M.n_cols → 0 < M.elem t j

/-! ### The unscaled likelihood of the specification -/

/-- The entries of a matrix that lie in an `n × m` block, as a Mathlib matrix. -/
def Mat.toMatrix (M : Mat α) (n m : Nat) : Matrix (Fin n) (Fin m) α :=
  fun i j => M.elem i j

/-- The first `n` entries of a row vector. -/
def Rowvec.toFun (v : Rowvec α) (n : Nat) : Fin n → α :=
  fun j => v.elem j

/-- Row `t` of a matrix, as a function on its column indices. -/
def Mat.rowFun (M : Mat α) (t : Nat) : Fin M.n_cols → α :=
  fun j => M.elem t j

/-- The row vector `delta * diag(allprobs[0]) * G_1 * diag(allprobs[1]) * ... *
G_t * diag(allprobs[t])` of the specification, without any rescaling; `Gs i` is
the transition matrix applied when moving into observation `i`. -/
def likelihoodVec [Semiring α] (allprobs : Mat α) (delta : Rowvec α)
    (Gs : Nat → Mat α) : Nat → Fin allprobs.n_cols → α
  | 0 => Matrix.vecMul (delta.toFun allprobs.n_cols) (Matrix.diagonal (allprobs.rowFun 0))
  | t + 1 =>
    Matrix.vecMul
      (Matrix.vecMul (likelihoodVec allprobs delta Gs t)
        ((Gs (t + 1)).toMatrix allprobs.n_cols allprobs.n_cols))
      (Matrix.diagonal (allprobs.rowFun (t + 1)))

/-- The unscaled likelihood `L = delta * diag(allprobs[0]) * G_1 *
diag(allprobs[1]) * ... * G_(nObs-1) * diag(allprobs[nObs-1]) * 1` of the
specification. -/
def likelihood [Semiring α] (allprobs : Mat α) (delta : Rowvec α)
    (Gs : Nat → Mat α) : α :=
  Matrix.dotProduct (likelihoodVec allprobs delta Gs (allprobs.n_rows - 1)) 1

/-- The locals of a run that has met a zero normaliser: `phi` is not empty and
its first entry is `NaN`. -/
def Locals.Dead {β : Type} (s : Locals (FVal β)) : Prop :=
  0 < s.phi.n_elem ∧ s.phi.elem 0 = .nan

/-- The weight of the state path `s_0, ..., s_n` in the specification:
`delta[s_0] * allprobs[0,s_0] * prod_(t=1..n) G_t[s_(t-1),s_t] * allprobs[t,s_t]`. -/
def pathWeight [CommSemiring α] (allprobs : Mat α) (delta : Rowvec α) (Gs : Nat → Mat α)
    (n : Nat) (s : Fin (n + 1) → Fin allprobs.n_cols) : α :=
  delta.elem (s 0) * allprobs.elem 0 (s 0) *
    ∏ t : Fin n, (Gs (t + 1)).elem (s t.castSucc) (s t.succ) *
      allprobs.elem (t + 1) (s t.succ)

/-- The unscaled likelihood of the specification as the sum of the weights of
all state paths `s_0, ..., s_(nObs-1)`. -/
def pathLikelihood [CommSemiring α] (allprobs : Mat α) (delta : Rowvec α)
    (Gs : Nat → Mat α) : α :=
  ∑ s : Fin (allprobs.n_rows - 1 + 1) → Fin allprobs.n_cols,
    pathWeight allprobs delta Gs (allprobs.n_rows - 1) s

/-! ### Example data -/

/-- The observation likelihoods `[[0.6,0.4],[0.5,0.5],[0.3,0.7]]`. -/
def exAllprobs [DivisionRing α] : Mat α :=
  ⟨3, 2, fun i j =>
    match i, j with
    | 0, 0 => 6 / 10
    | 0, 1 => 4 / 10
    | 1, 0 => 5 / 10
    | 1, 1 => 5 / 10
    | 2, 0 => 3 / 10
    | 2, 1 => 7 / 10
    | _, _ => 0⟩

/-- The first row of `exAllprobs` as a matrix of one observation. -/
def exAllprobs1 [DivisionRing α] : Mat α :=
  ⟨1, 2, exAllprobs.elem⟩

/-- The initial distribution `[0.5,0.5]`. -/
def exDelta [DivisionRing α] : Rowvec α :=
  ⟨2, fun _ => 1 / 2⟩

/-- The transition matrix `[[0.9,0.1],[0.2,0.8]]`. -/
def exGamma [DivisionRing α] : Mat α :=
  ⟨2, 2, fun i j =>
    match i, j with
    | 0, 0 => 9 / 10
    | 0, 1 => 1 / 10
    | 1, 0 => 2 / 10
    | 1, 1 => 8 / 10
    | _, _ => 0⟩

/-- The stack of `n` slices, each of them `exGamma`. -/
def exStack [DivisionRing α] (n : Nat) : Cube α :=
  ⟨2, 2, n, fun i j _ => exGamma.elem i j⟩

/-- The label sequence `[0,0,0]`. -/
def exTodZero : StdVector :=
  ⟨3, fun _ => 0⟩

/-- The label sequence `[-1,0,1]`, that is `tod[i] = i-1`, in a buffer whose
words past the end are 0. -/
def exTodPred : StdVector :=
  ⟨3, fun i => if i < 3 then (i : Int) - 1 else 0⟩

/-- A pool of two matrices: slice 0 is `exGamma`, slice 1 is the identity. -/
def exPool [DivisionRing α] : Cube α :=
  ⟨2, 2, 2, fun i j k =>
    match k with
    | 0 => exGamma.elem i j
    | _ => if i = j then 1 else 0⟩

/-- The label sequence `[1,0,1]`. -/
def exTodPeriodic : StdVector :=
  ⟨3, fun i => if i = 1 then 0 else 1⟩

/-- A label sequence of length 1 in a buffer whose words past the end are 0. -/
def exTodShort : StdVector :=
  ⟨1, fun _ => 0⟩

/-- The label sequence `[99,0,0]`: as `exTodZero` but for `tod[0]`, which is not
a valid index of any pool used here. -/
def exTodOther : StdVector :=
  ⟨3, fun i => if i = 0 then 99 else 0⟩

/-- A value of the type `double` (IEEE 754 binary64).  Every finite double is
an integer multiple of the least positive double `2^(-1074)`: `fin m` is the
number `m * 2^(-1074)`.  The doubles are the `fin m` with `|m| < 2^53`
(subnormal numbers and the first binade of normal numbers, spacing 1) or
`|m| = k * 2^g` with `2^52 <= k < 2^53` and `g <= 2045` (spacing `2^g`), and the
three special values.  The sign of zero is not modelled: every zero is `+0`,
which is what the operations yield on non-negative operands. -/
inductive Dbl where
  | fin (m : Int)
  | pinf
  | ninf
  | nan
  deriving DecidableEq

/-- The exponent `g` of the spacing `2^g` of the doubles around a number whose
integer part, in units of `2^(-1074)`, is `n`: the least `g` with
`n / 2^g < 2^53`.  The first argument bounds the number of halvings. -/
def Dbl.spacing : Nat → Nat → Nat
  | 0, _ => 0
  | fuel + 1, n => if n < 2 ^ 53 then 0 else Dbl.spacing fuel (n / 2) + 1

/-- Rounding to nearest, ties to even, without a bound on the exponent: the
multiple of the spacing `2^g` nearest to the rational number `p / q >= 0`, both
in units of `2^(-1074)`.  The quotients that arise from doubles are below
`2^4200`, so 4200 halvings suffice to find the spacing. -/
def Dbl.roundNat (p q : Nat) : Nat :=
  let g := Dbl.spacing 4200 (p / q)
  let d := q * 2 ^ g
  let m := p / d
  let r := p % d
  if d < 2 * r ∨ (2 * r = d ∧ m % 2 = 1) then (m + 1) * 2 ^ g else m * 2 ^ g

/-- The double of the given sign and magnitude (in units of `2^(-1074)`); a
magnitude of `2^2098` units, that is of `2^1024`, or more overflows to an
infinity. -/
def Dbl.ofMag (neg : Bool) (m : Nat) : Dbl :=
  if 2 ^ 2098 ≤ m then (if neg then .ninf else .pinf)
  else .fin (if neg then -(m : Int) else (m : Int))

/-- The correctly rounded double of the number of the given sign and magnitude
`p / q` (in units of `2^(-1074)`): what every arithmetic operation of IEEE 754
returns for its exact result, in the default rounding mode. -/
def Dbl.round (neg : Bool) (p q : Nat) : Dbl :=
  Dbl.ofMag neg (Dbl.roundNat p q)

/-- Addition of `double`: the exact sum, rounded; `NaN` propagates and
`inf + (-inf)` is `NaN`. -/
def Dbl.add : Dbl → Dbl → Dbl
  | .nan, _ => .nan
  | _, .nan => .nan
  | .fin a, .fin b => Dbl.round (decide (a + b < 0)) (a + b).natAbs 1
  | .fin _, .pinf => .pinf
  | .fin _, .ninf => .ninf
  | .pinf, .fin _ => .pinf
  | .ninf, .fin _ => .ninf
  | .pinf, .pinf => .pinf
  | .ninf, .ninf => .ninf
  | .pinf, .ninf => .nan
  | .ninf, .pinf => .nan

/-- The infinity with the sign of `b` times the sign `pos`; `NaN` for `b = 0`. -/
def Dbl.infTimes (pos : Bool) (b : Int) : Dbl :=
  if b = 0 then .nan
  else if decide (0 < b) = pos then .pinf
  else .ninf

/-- Multiplication of `double`: the exact product `a * b * 2^(-2148)`, that is
`a * b / 2^1074` units, rounded; `NaN` propagates and `inf * 0` is `NaN`. -/
def Dbl.mul : Dbl → Dbl → Dbl
  | .nan, _ => .nan
  | _, .nan => .nan
  | .fin a, .fin b =>
    Dbl.round (xor (decide (a < 0)) (decide (b < 0))) (a.natAbs * b.natAbs) (2 ^ 1074)
  | .fin a, .pinf => Dbl.infTimes true a
  | .fin a, .ninf => Dbl.infTimes false a
  | .pinf, .fin b => Dbl.infTimes true b
  | .ninf, .fin b => Dbl.infTimes false b
  | .pinf, .pinf => .pinf
  | .ninf, .ninf => .pinf
  | .pinf, .ninf => .ninf
  | .ninf, .pinf => .ninf

/-- Division of `double`: the exact quotient `a / b`, that is `a * 2^1074 / b`
units, rounded; `NaN` propagates, `0/0` and `inf/inf` are `NaN`, `x/0` is the
infinity with the sign of `x`. -/
def Dbl.div : Dbl → Dbl → Dbl
  | .nan, _ => .nan
  | _, .nan => .nan
  | .fin a, .fin b =>
    if b = 0 then
      if a = 0 then .nan else if 0 < a then .pinf else .ninf
    else Dbl.round (xor (decide (a < 0)) (decide (b < 0))) (a.natAbs * 2 ^ 1074) b.natAbs
  | .fin _, .pinf => .fin 0
  | .fin _, .ninf => .fin 0
  | .pinf, .fin b => if 0 ≤ b then .pinf else .ninf
  | .ninf, .fin b => if 0 ≤ b then .ninf else .pinf
  | .pinf, .pinf => .nan
  | .ninf, .ninf => .nan
  | .pinf, .ninf => .nan
  | .ninf, .pinf => .nan

/-- The function `log` of the C library on `double`.  IEEE 754 does not fix its
value at a positive number, so that value is the parameter `lg` (argument and
result in units of `2^(-1074)`); `log(0) = -inf`, `log(+inf) = +inf`, and `log`
of a negative number, of `-inf` or of `NaN` is `NaN`. -/
def Dbl.log (lg : Int → Int) : Dbl → Dbl
  | .fin m => if m < 0 then .nan else if m = 0 then .ninf else .fin (lg m)
  | .pinf => .pinf
  | .ninf => .nan
  | .nan => .nan

instance : Zero Dbl := ⟨.fin 0⟩

instance : One Dbl := ⟨.fin (2 ^ 1074)⟩

instance : Add Dbl := ⟨Dbl.add⟩

instance : Mul Dbl := ⟨Dbl.mul⟩

instance : Div Dbl := ⟨Dbl.div⟩

/-- The double nearest to the fraction `p / q`: the value of a decimal literal
such as `0.3` (`p = 3`, `q = 10`). -/
def Dbl.nearest (p q : Nat) : Dbl :=
  Dbl.round false (p * 2 ^ 1074) q

/-- The rational number a finite double stands for (0 for the special values). -/
def Dbl.toRat : Dbl → ℚ
  | .fin m => (m : ℚ) / 2 ^ 1074
  | _ => 0

/-- The value is a finite double: a number that rounding leaves as it is. -/
def Dbl.isFinite : Dbl → Bool
  | .fin m => decide (Dbl.round (decide (m < 0)) m.natAbs 1 = Dbl.fin m)
  | _ => false

/-- Every entry of the vector is a finite double. -/
def Rowvec.IsFinite (v : Rowvec Dbl) : Prop :=
  ∀ j, j < v.n_elem → (v.elem j).isFinite = true

/-- Every entry of the matrix is a finite double. -/
def Mat.IsFinite (M : Mat Dbl) : Prop :=
  ∀ i, i < M.n_rows → ∀ j, j < M.n_cols → (M.elem i j).isFinite = true

/-- The locals of a run in `double` that has met an all-zero row of `allprobs`:
`phi` is not empty and its first entry is `NaN`. -/
def Locals.Lost (s : Locals Dbl) : Prop :=
  0 < s.phi.n_elem ∧ s.phi.elem 0 = .nan

/-! ### Example data in `double` -/

/-- The initial distribution `[0.5,0.5]`. -/
def dblDelta : Rowvec Dbl :=
  ⟨2, fun _ => Dbl.nearest 1 2⟩

/-- The transition matrix `[[0.75,0.25],[0.25,0.75]]`. -/
def dblGamma : Mat Dbl :=
  ⟨2, 2, fun i j => if i = j then Dbl.nearest 3 4 else Dbl.nearest 1 4⟩

/-- The observation likelihoods `[[0,0],[0.5,0.5],[0.3,0.7]]`: row 0 is all-zero. -/
def dblAllprobsZero : Mat Dbl :=
  ⟨3, 2, fun i j =>
    if i = 0 then 0
    else if i = 1 then Dbl.nearest 1 2
    else if j = 0 then Dbl.nearest 3 10
    else Dbl.nearest 7 10⟩

/-- The observation likelihoods `[[0.6,0.4],[0,0]]`: the last row is all-zero. -/
def dblAllprobsLastZero : Mat Dbl :=
  ⟨2, 2, fun i j =>
    if i = 0 then (if j = 0 then Dbl.nearest 3 5 else Dbl.nearest 2 5)
    else 0⟩

/-- The observation likelihoods `[[2^(-1074),2^(-1074)],[0,0]]`: positive
entries in row 0, the last row all-zero. -/
def dblAllprobsTinyZero : Mat Dbl :=
  ⟨2, 2, fun i _ => if i = 0 then Dbl.fin 1 else 0⟩

/-- A stack of `n` slices, each of them `dblGamma`. -/
def dblStack (n : Nat) : Cube Dbl :=
  ⟨2, 2, n, fun i j _ => dblGamma.elem i j⟩

/-! # Theorems -/

/-! ## Loops -/

theorem forLoop_congr {σ : Type} (b1 b2 : Nat → σ → Except ArmaError σ) :
    ∀ (k i0 : Nat) (s : σ),
      (∀ i t, i0 ≤ i → i < i0 + k → b1 i t = b2 i t) →
      forLoop b1 k i0 s = forLoop b2 k i0 s := by
  intro k
  induction k with
  | zero => intro i0 s _; rfl
  | succ k ih =>
    intro i0 s h
    have h0 : b1 i0 s = b2 i0 s := h i0 s (Nat.le_refl _) (by omega)
    simp only [forLoop, h0]
    cases b2 i0 s with
    | error e => rfl
    | ok s1 =>
      exact ih (i0 + 1) s1 (fun i t h1 h2 => h i t (by omega) (by omega))

theorem forLoop_add {σ : Type} (body : Nat → σ → Except ArmaError σ) :
    ∀ (k1 k2 i0 : Nat) (s : σ),
      forLoop body (k1 + k2) i0 s =
        match forLoop body k1 i0 s with
        | .ok s1 => forLoop body k2 (i0 + k1) s1
        | .error e => .error e := by
  intro k1
  induction k1 with
  | zero => intro k2 i0 s; simp [forLoop]
  | succ k1 ih =>
    intro k2 i0 s
    have e1 : k1 + 1 + k2 = (k1 + k2) + 1 := by omega
    rw [e1]
    simp only [forLoop]
    cases body i0 s with
    | error e => rfl
    | ok s1 =>
      have e2 : i0 + (k1 + 1) = i0 + 1 + k1 := by omega
      simp only [ih, e2]

theorem forLoop_seq {σ : Type} (body : Nat → σ → Except ArmaError σ) :
    ∀ (k i0 : Nat) (f : Nat → σ),
      (∀ j, j < k → body (i0 + j) (f j) = .ok (f (j + 1))) →
      forLoop body k i0 (f 0) = .ok (f k) := by
  intro k
  induction k with
  | zero => intro i0 f _; rfl
  | succ k ih =>
    intro i0 f h
    have h0 : body i0 (f 0) = .ok (f 1) := by simpa using h 0 (by omega)
    simp only [forLoop, h0]
    refine ih (i0 + 1) (fun j => f (j + 1)) ?_
    intro j hj
    have := h (j + 1) (by omega)
    have e : i0 + (j + 1) = i0 + 1 + j := by omega
    rw [e] at this
    exact this

theorem forLoop_error {σ : Type} (body : Nat → σ → Except ArmaError σ) (i : Nat)
    (hb : ∀ t, ∃ e, body i t = .error e) :
    ∀ (k i0 : Nat) (s : σ), i0 ≤ i → i < i0 + k →
      ∃ e, forLoop body k i0 s = .error e := by
  intro k
  induction k with
  | zero => intro i0 s h1 h2; omega
  | succ k ih =>
    intro i0 s h1 h2
    simp only [forLoop]
    by_cases hi : i = i0
    · subst hi
      obtain ⟨e, he⟩ := hb s
      exact ⟨e, by rw [he]⟩
    · cases hbs : body i0 s with
      | error e => exact ⟨e, rfl⟩
      | ok s1 => exact ih (i0 + 1) s1 (by omega) (by omega)

/-! ## The loop bodies as instances of `sel_body`, and the run without failing checks -/

theorem forward_cpp_h_body_eq [Zero α] [Add α] [Mul α] [Div α] (log : α → α)
    (allprobs : Mat α) (Gamma : Mat α) :
    forward_cpp_h_body log allprobs Gamma = sel_body log allprobs (fun _ => .ok Gamma) :=
  rfl

theorem forward_cpp_g_body_eq [Zero α] [Add α] [Mul α] [Div α] (log : α → α)
    (allprobs : Mat α) (Gamma : Cube α) :
    forward_cpp_g_body log allprobs Gamma =
      sel_body log allprobs (fun i => Gamma.slice (i - 1)) :=
  rfl

theorem forward_cpp_p_body_eq [Zero α] [Add α] [Mul α] [Div α] (log : α → α)
    (allprobs : Mat α) (Gamma : Cube α) (tod : StdVector) :
    forward_cpp_p_body log allprobs Gamma tod =
      sel_body log allprobs (fun i => Gamma.slice (toUword (tod.data i))) :=
  rfl

theorem forward_cpp_h_locals_eq_sel [Zero α] [Add α] [Mul α] [Div α] (log : α → α)
    (allprobs : Mat α) (delta : Rowvec α) (Gamma : Mat α) (k : Nat) :
    forward_cpp_h_locals log allprobs delta Gamma k =
      sel_locals log allprobs delta (fun _ => .ok Gamma) k := by
  unfold forward_cpp_h_locals sel_locals
  cases forward_init log allprobs delta <;> rfl

theorem forward_cpp_g_locals_eq_sel [Zero α] [Add α] [Mul α] [Div α] (log : α → α)
    (allprobs : Mat α) (delta : Rowvec α) (Gamma : Cube α) (k : Nat) :
    forward_cpp_g_locals log allprobs delta Gamma k =
      sel_locals log allprobs delta (fun i => Gamma.slice (i - 1)) k := by
  unfold forward_cpp_g_locals sel_locals
  cases forward_init log allprobs delta <;> rfl

theorem forward_cpp_p_locals_eq_sel [Zero α] [Add α] [Mul α] [Div α] (log : α → α)
    (allprobs : Mat α) (delta : Rowvec α) (Gamma : Cube α) (tod : StdVector) (k : Nat) :
    forward_cpp_p_locals log allprobs delta Gamma tod k =
      sel_locals log allprobs delta (fun i => Gamma.slice (toUword (tod.data i))) k := by
  unfold forward_cpp_p_locals sel_locals
  cases forward_init log allprobs delta <;> rfl

theorem Cube.slice_eq_sliceAt (C : Cube α) (k : Nat) (h : k < C.n_slices) :
    C.slice k = .ok (C.sliceAt k) := by
  simp [Cube.slice, Cube.sliceAt, h]

theorem Cube.slice_error (C : Cube α) (k : Nat) (h : C.n_slices ≤ k) :
    C.slice k = .error .index_out_of_bounds := by
  have : ¬ k < C.n_slices := by omega
  simp [Cube.slice, this]

theorem forward_init_eq_initPure [Zero α] [Add α] [Mul α] [Div α] (log : α → α)
    (allprobs : Mat α) (delta : Rowvec α) (h1 : 0 < allprobs.n_rows)
    (hd : delta.n_elem = allprobs.n_cols) :
    forward_init log allprobs delta = .ok (initPure log allprobs delta) := by
  simp [forward_init, Mat.row, h1, Rowvec.schur, hd, initPure]

theorem forward_step_eq_stepPure [Zero α] [Add α] [Mul α] [Div α] (log : α → α)
    (allprobs : Mat α) (G : Mat α) (i : Nat) (s : Locals α)
    (hphi : s.phi.n_elem = G.n_rows) (hi : i < allprobs.n_rows)
    (hG : G.n_cols = allprobs.n_cols) :
    forward_step log allprobs G i s = .ok (stepPure log allprobs G i s) := by
  simp [forward_step, Rowvec.mulMat, hphi, Mat.row, hi, Rowvec.schur, hG, stepPure]

theorem statePure_phi_n_elem [Zero α] [Add α] [Mul α] [Div α] (log : α → α)
    (allprobs : Mat α) (delta : Rowvec α) (Gs : Nat → Mat α)
    (hd : delta.n_elem = allprobs.n_cols)
    (hG : ∀ i, 1 ≤ i → (Gs i).n_cols = allprobs.n_cols) (t : Nat) :
    (statePure log allprobs delta Gs t).phi.n_elem = allprobs.n_cols := by
  cases t with
  | zero => simp [statePure, initPure, Rowvec.divScalar, hd]
  | succ t => simp [statePure, stepPure, Rowvec.divScalar, hG (t + 1) (by omega)]

/-- On inputs of matching dimensions, with a selector that yields the matrix
`Gs i` at the steps `i = 1, ..., k`, the loop run for `k <= nObs-1` iterations
from the initial locals ends without an exception in `statePure ... k`. -/
theorem forLoop_sel_body_eq [Zero α] [Add α] [Mul α] [Div α] (log : α → α)
    (allprobs : Mat α) (delta : Rowvec α) (Gs : Nat → Mat α)
    (sel : Nat → Except ArmaError (Mat α)) (k : Nat)
    (hk : k + 1 ≤ allprobs.n_rows) (hd : delta.n_elem = allprobs.n_cols)
    (hGr : ∀ i, 1 ≤ i → (Gs i).n_rows = allprobs.n_cols)
    (hGc : ∀ i, 1 ≤ i → (Gs i).n_cols = allprobs.n_cols)
    (hsel : ∀ i, 1 ≤ i → i ≤ k → sel i = .ok (Gs i)) :
    forLoop (sel_body log allprobs sel) k 1 (initPure log allprobs delta) =
      .ok (statePure log allprobs delta Gs k) := by
  refine forLoop_seq (sel_body log allprobs sel) k 1
    (statePure log allprobs delta Gs) ?_
  intro j hj
  have e : 1 + j = j + 1 := by omega
  rw [e]
  simp only [sel_body, hsel (j + 1) (by omega) (by omega)]
  rw [forward_step_eq_stepPure log allprobs (Gs (j + 1)) (j + 1) _ ?_ (by omega)
    (hGc (j + 1) (by omega))]
  · rfl
  · rw [statePure_phi_n_elem log allprobs delta Gs hd hGc j, hGr (j + 1) (by omega)]

theorem forward_cpp_h_locals_eq [Zero α] [Add α] [Mul α] [Div α] (log : α → α)
    (allprobs : Mat α) (delta : Rowvec α) (Gamma : Mat α) (k : Nat)
    (hk : k + 1 ≤ allprobs.n_rows) (hd : delta.n_elem = allprobs.n_cols)
    (hGr : Gamma.n_rows = allprobs.n_cols) (hGc : Gamma.n_cols = allprobs.n_cols) :
    forward_cpp_h_locals log allprobs delta Gamma k =
      .ok (statePure log allprobs delta (fun _ => Gamma) k) := by
  unfold forward_cpp_h_locals
  rw [forward_init_eq_initPure log allprobs delta (by omega) hd, forward_cpp_h_body_eq]
  exact forLoop_sel_body_eq log allprobs delta (fun _ => Gamma) _ k hk hd
    (fun _ _ => hGr) (fun _ _ => hGc) (fun _ _ _ => rfl)

theorem forward_cpp_g_locals_eq [Zero α] [Add α] [Mul α] [Div α] (log : α → α)
    (allprobs : Mat α) (delta : Rowvec α) (Gamma : Cube α) (k : Nat)
    (hk : k + 1 ≤ allprobs.n_rows) (hd : delta.n_elem = allprobs.n_cols)
    (hGr : Gamma.n_rows = allprobs.n_cols) (hGc : Gamma.n_cols = allprobs.n_cols)
    (hK : k ≤ Gamma.n_slices) :
    forward_cpp_g_locals log allprobs delta Gamma k =
      .ok (statePure log allprobs delta (fun i => Gamma.sliceAt (i - 1)) k) := by
  unfold forward_cpp_g_locals
  rw [forward_init_eq_initPure log allprobs delta (by omega) hd, forward_cpp_g_body_eq]
  exact forLoop_sel_body_eq log allprobs delta (fun i => Gamma.sliceAt (i - 1)) _ k hk hd
    (fun _ _ => hGr) (fun _ _ => hGc)
    (fun i h1 h2 => Cube.slice_eq_sliceAt Gamma (i - 1) (by omega))

theorem forward_cpp_p_locals_eq [Zero α] [Add α] [Mul α] [Div α] (log : α → α)
    (allprobs : Mat α) (delta : Rowvec α) (Gamma : Cube α) (tod : StdVector) (k : Nat)
    (hk : k + 1 ≤ allprobs.n_rows) (hd : delta.n_elem = allprobs.n_cols)
    (hGr : Gamma.n_rows = allprobs.n_cols) (hGc : Gamma.n_cols = allprobs.n_cols)
    (htod : ∀ i, 1 ≤ i → i ≤ k → toUword (tod.data i) < Gamma.n_slices) :
    forward_cpp_p_locals log allprobs delta Gamma tod k =
      .ok (statePure log allprobs delta
        (fun i => Gamma.sliceAt (toUword (tod.data i))) k) := by
  unfold forward_cpp_p_locals
  rw [forward_init_eq_initPure log allprobs delta (by omega) hd, forward_cpp_p_body_eq]
  exact forLoop_sel_body_eq log allprobs delta
    (fun i => Gamma.sliceAt (toUword (tod.data i))) _ k hk hd
    (fun _ _ => hGr) (fun _ _ => hGc)
    (fun i h1 h2 => Cube.slice_eq_sliceAt Gamma _ (htod i h1 h2))

theorem forward_cpp_h_eq [Zero α] [Add α] [Mul α] [Div α] (log : α → α)
    (allprobs : Mat α) (delta : Rowvec α) (Gamma : Mat α)
    (hn : 1 ≤ allprobs.n_rows) (hd : delta.n_elem = allprobs.n_cols)
    (hGr : Gamma.n_rows = allprobs.n_cols) (hGc : Gamma.n_cols = allprobs.n_cols) :
    forward_cpp_h log allprobs delta Gamma =
      .ok (statePure log allprobs delta (fun _ => Gamma) (allprobs.n_rows - 1)).l := by
  unfold forward_cpp_h
  simp only [forward_cpp_h_locals_eq log allprobs delta Gamma (allprobs.n_rows - 1)
    (by omega) hd hGr hGc]

theorem forward_cpp_g_eq [Zero α] [Add α] [Mul α] [Div α] (log : α → α)
    (allprobs : Mat α) (delta : Rowvec α) (Gamma : Cube α)
    (hn : 1 ≤ allprobs.n_rows) (hd : delta.n_elem = allprobs.n_cols)
    (hGr : Gamma.n_rows = allprobs.n_cols) (hGc : Gamma.n_cols = allprobs.n_cols)
    (hK : allprobs.n_rows - 1 ≤ Gamma.n_slices) :
    forward_cpp_g log allprobs delta Gamma =
      .ok (statePure log allprobs delta (fun i => Gamma.sliceAt (i - 1))
        (allprobs.n_rows - 1)).l := by
  unfold forward_cpp_g
  simp only [forward_cpp_g_locals_eq log allprobs delta Gamma (allprobs.n_rows - 1)
    (by omega) hd hGr hGc hK]

theorem forward_cpp_p_eq [Zero α] [Add α] [Mul α] [Div α] (log : α → α)
    (allprobs : Mat α) (delta : Rowvec α) (Gamma : Cube α) (tod : StdVector)
    (hn : 1 ≤ allprobs.n_rows) (hd : delta.n_elem = allprobs.n_cols)
    (hGr : Gamma.n_rows = allprobs.n_cols) (hGc : Gamma.n_cols = allprobs.n_cols)
    (htod : ∀ i, 1 ≤ i → i ≤ allprobs.n_rows - 1 →
      toUword (tod.data i) < Gamma.n_slices) :
    forward_cpp_p log allprobs delta Gamma tod =
      .ok (statePure log allprobs delta
        (fun i => Gamma.sliceAt (toUword (tod.data i))) (allprobs.n_rows - 1)).l := by
  unfold forward_cpp_p
  simp only [forward_cpp_p_locals_eq log allprobs delta Gamma tod (allprobs.n_rows - 1)
    (by omega) hd hGr hGc htod]

/-! ## Missing and surplus slices, labels out of range -/

theorem forward_cpp_g_too_few [Zero α] [Add α] [Mul α] [Div α] (log : α → α)
    (allprobs : Mat α) (delta : Rowvec α) (Gamma : Cube α)
    (h : Gamma.n_slices < allprobs.n_rows - 1) :
    ∃ e, forward_cpp_g log allprobs delta Gamma = .error e := by
  unfold forward_cpp_g forward_cpp_g_locals
  cases forward_init log allprobs delta with
  | error e => exact ⟨e, rfl⟩
  | ok s0 =>
    have hb : ∀ t, ∃ e, forward_cpp_g_body log allprobs Gamma (Gamma.n_slices + 1) t =
        .error e := by
      intro t
      refine ⟨.index_out_of_bounds, ?_⟩
      simp [forward_cpp_g_body, Cube.slice]
    obtain ⟨e, he⟩ := forLoop_error (forward_cpp_g_body log allprobs Gamma)
      (Gamma.n_slices + 1) hb (allprobs.n_rows - 1) 1 s0 (by omega) (by omega)
    exact ⟨e, by simp only [he]⟩

theorem forward_cpp_g_head_slices [Zero α] [Add α] [Mul α] [Div α] (log : α → α)
    (allprobs : Mat α) (delta : Rowvec α) (Gamma : Cube α)
    (_h : allprobs.n_rows - 1 ≤ Gamma.n_slices) :
    forward_cpp_g log allprobs delta Gamma =
      forward_cpp_g log allprobs delta (Gamma.head_slices (allprobs.n_rows - 1)) := by
  unfold forward_cpp_g forward_cpp_g_locals
  cases forward_init log allprobs delta with
  | error e => rfl
  | ok s0 =>
    have hc : forLoop (forward_cpp_g_body log allprobs Gamma) (allprobs.n_rows - 1) 1 s0 =
        forLoop (forward_cpp_g_body log allprobs
          (Gamma.head_slices (allprobs.n_rows - 1))) (allprobs.n_rows - 1) 1 s0 := by
      refine forLoop_congr _ _ _ 1 s0 ?_
      intro i t h1 h2
      have e1 : i - 1 < Gamma.n_slices := by omega
      have e2 : i - 1 < allprobs.n_rows - 1 := by omega
      simp [forward_cpp_g_body, Cube.slice, Cube.head_slices, e1, e2]
    simp only [hc]

theorem toUword_of_nonneg (t : Int) (h0 : 0 ≤ t) (h1 : t < 2 ^ 31) :
    (toUword t : Int) = t := by
  unfold toUword
  have h3 : t % 2 ^ 64 = t := Int.emod_eq_of_lt h0 (by omega)
  rw [h3]
  omega

theorem toUword_of_neg (t : Int) (h0 : t < 0) (h1 : -2 ^ 31 ≤ t) :
    2 ^ 64 - 2 ^ 31 ≤ toUword t := by
  unfold toUword
  have h3 : t % 2 ^ 64 = t + 2 ^ 64 := by
    rw [← Int.add_emod_self]
    exact Int.emod_eq_of_lt (by omega) (by omega)
  rw [h3]
  omega

/-- For a label that is a value of the type `int` and a pool of fewer than
`2^64 - 2^31` slices, the converted label is a valid slice index exactly when
the label lies in `[0, K)`. -/
theorem toUword_lt_iff (t : Int) (K : Nat) (ht : -2 ^ 31 ≤ t ∧ t < 2 ^ 31)
    (hK : K < 2 ^ 64 - 2 ^ 31) :
    toUword t < K ↔ 0 ≤ t ∧ t < (K : Int) := by
  by_cases h0 : 0 ≤ t
  · have := toUword_of_nonneg t h0 ht.2
    omega
  · have := toUword_of_neg t (by omega) ht.1
    omega

theorem forward_cpp_p_bad_label [Zero α] [Add α] [Mul α] [Div α] (log : α → α)
    (allprobs : Mat α) (delta : Rowvec α) (Gamma : Cube α) (tod : StdVector)
    (i : Nat) (h1 : 1 ≤ i) (h2 : i ≤ allprobs.n_rows - 1)
    (hbad : Gamma.n_slices ≤ toUword (tod.data i)) :
    ∃ e, forward_cpp_p log allprobs delta Gamma tod = .error e := by
  unfold forward_cpp_p forward_cpp_p_locals
  cases forward_init log allprobs delta with
  | error e => exact ⟨e, rfl⟩
  | ok s0 =>
    have hb : ∀ t, ∃ e, forward_cpp_p_body log allprobs Gamma tod i t = .error e := by
      intro t
      refine ⟨.index_out_of_bounds, ?_⟩
      simp [forward_cpp_p_body, Cube.slice_error Gamma _ hbad]
    obtain ⟨e, he⟩ := forLoop_error (forward_cpp_p_body log allprobs Gamma tod)
      i hb (allprobs.n_rows - 1) 1 s0 (by omega) (by omega)
    exact ⟨e, by simp only [he]⟩

theorem forward_cpp_p_ok_iff [Zero α] [Add α] [Mul α] [Div α] (log : α → α)
    (allprobs : Mat α) (delta : Rowvec α) (Gamma : Cube α) (tod : StdVector)
    (hn : 1 ≤ allprobs.n_rows) (hd : delta.n_elem = allprobs.n_cols)
    (hGr : Gamma.n_rows = allprobs.n_cols) (hGc : Gamma.n_cols = allprobs.n_cols) :
    (∃ v, forward_cpp_p log allprobs delta Gamma tod = .ok v) ↔
      ∀ i, 1 ≤ i → i ≤ allprobs.n_rows - 1 → toUword (tod.data i) < Gamma.n_slices := by
  constructor
  · rintro ⟨v, hv⟩ i h1 h2
    by_contra hlt
    obtain ⟨e, he⟩ := forward_cpp_p_bad_label log allprobs delta Gamma tod i h1 h2
      (by omega)
    rw [he] at hv
    cases hv
  · intro h
    exact ⟨_, forward_cpp_p_eq log allprobs delta Gamma tod hn hd hGr hGc h⟩

/-! ## What a step that does not fail has checked and computed -/

theorem forward_init_ok [Zero α] [Add α] [Mul α] [Div α] (log : α → α)
    (allprobs : Mat α) (delta : Rowvec α) (s : Locals α)
    (h : forward_init log allprobs delta = .ok s) :
    0 < allprobs.n_rows ∧ delta.n_elem = allprobs.n_cols ∧
      s = initPure log allprobs delta := by
  by_cases h1 : 0 < allprobs.n_rows
  · by_cases hd : delta.n_elem = allprobs.n_cols
    · rw [forward_init_eq_initPure log allprobs delta h1 hd] at h
      cases h
      exact ⟨h1, hd, rfl⟩
    · simp [forward_init, Mat.row, h1, Rowvec.schur, hd] at h
  · simp [forward_init, Mat.row, h1] at h

theorem forward_step_ok [Zero α] [Add α] [Mul α] [Div α] (log : α → α)
    (allprobs : Mat α) (G : Mat α) (i : Nat) (s s1 : Locals α)
    (h : forward_step log allprobs G i s = .ok s1) :
    s.phi.n_elem = G.n_rows ∧ i < allprobs.n_rows ∧ G.n_cols = allprobs.n_cols ∧
      s1 = stepPure log allprobs G i s := by
  by_cases hphi : s.phi.n_elem = G.n_rows
  · by_cases hi : i < allprobs.n_rows
    · by_cases hG : G.n_cols = allprobs.n_cols
      · rw [forward_step_eq_stepPure log allprobs G i s hphi hi hG] at h
        cases h
        exact ⟨hphi, hi, hG, rfl⟩
      · simp [forward_step, Rowvec.mulMat, hphi, Mat.row, hi, Rowvec.schur, hG] at h
    · simp [forward_step, Rowvec.mulMat, hphi, Mat.row, hi] at h
  · simp [forward_step, Rowvec.mulMat, hphi] at h

theorem sel_body_ok [Zero α] [Add α] [Mul α] [Div α] (log : α → α)
    (allprobs : Mat α) (sel : Nat → Except ArmaError (Mat α)) (i : Nat)
    (s s1 : Locals α) (h : sel_body log allprobs sel i s = .ok s1) :
    ∃ G, sel i = .ok G ∧ forward_step log allprobs G i s = .ok s1 := by
  unfold sel_body at h
  cases hsel : sel i with
  | error e => rw [hsel] at h; cases h
  | ok G => rw [hsel] at h; exact ⟨G, rfl, h⟩

theorem Cube.slice_ok (C : Cube α) (k : Nat) (G : Mat α) (h : C.slice k = .ok G) :
    k < C.n_slices ∧ G = C.sliceAt k := by
  by_cases hk : k < C.n_slices
  · rw [Cube.slice_eq_sliceAt C k hk] at h
    cases h
    exact ⟨hk, rfl⟩
  · rw [Cube.slice_error C k (by omega)] at h
    cases h

theorem forLoop_invariant {σ : Type} (body : Nat → σ → Except ArmaError σ)
    (P : σ → Prop) (hP : ∀ i s s1, P s → body i s = .ok s1 → P s1) :
    ∀ (k i0 : Nat) (s0 s : σ), P s0 → forLoop body k i0 s0 = .ok s → P s := by
  intro k
  induction k with
  | zero =>
    intro i0 s0 s h0 h
    simp only [forLoop] at h
    cases h
    exact h0
  | succ k ih =>
    intro i0 s0 s h0 h
    simp only [forLoop] at h
    cases hb : body i0 s0 with
    | error e => rw [hb] at h; cases h
    | ok s1 =>
      rw [hb] at h
      exact ih (i0 + 1) s1 s (hP i0 s0 s1 h0 hb) h

theorem initPure_normalised [Zero α] [Add α] [Mul α] [Div α] (log : α → α)
    (allprobs : Mat α) (delta : Rowvec α) : (initPure log allprobs delta).Normalised :=
  ⟨rfl, rfl⟩

theorem stepPure_normalised [Zero α] [Add α] [Mul α] [Div α] (log : α → α)
    (allprobs : Mat α) (G : Mat α) (i : Nat) (s : Locals α) :
    (stepPure log allprobs G i s).Normalised :=
  ⟨rfl, rfl⟩

/-- Every state of a loop over `sel_body` that started in the initial locals
satisfies an invariant that holds initially and is kept by the steps that pass
their checks. -/
theorem sel_run_induction [Zero α] [Add α] [Mul α] [Div α] (log : α → α)
    (allprobs : Mat α) (delta : Rowvec α) (sel : Nat → Except ArmaError (Mat α))
    (P : Locals α → Prop)
    (hinit : 0 < allprobs.n_rows → delta.n_elem = allprobs.n_cols →
      P (initPure log allprobs delta))
    (hstep : ∀ i G t, sel i = .ok G → t.phi.n_elem = G.n_rows → i < allprobs.n_rows →
      G.n_cols = allprobs.n_cols → P t → P (stepPure log allprobs G i t))
    (k : Nat) (s : Locals α) (hs : sel_locals log allprobs delta sel k = .ok s) :
    P s := by
  unfold sel_locals at hs
  cases h0 : forward_init log allprobs delta with
  | error e => rw [h0] at hs; cases hs
  | ok s0 =>
    rw [h0] at hs
    obtain ⟨h1, hd, rfl⟩ := forward_init_ok log allprobs delta s0 h0
    refine forLoop_invariant (sel_body log allprobs sel) P ?_ k 1 _ s (hinit h1 hd) hs
    intro i t t1 ht hb
    obtain ⟨G, hGsel, hG⟩ := sel_body_ok log allprobs sel i t t1 hb
    obtain ⟨e1, e2, e3, rfl⟩ := forward_step_ok log allprobs G i t t1 hG
    exact hstep i G t hGsel e1 e2 e3 ht

theorem sumTo_congr [Zero α] [Add α] (n : Nat) (f g : Nat → α)
    (h : ∀ j, j < n → f j = g j) : sumTo n f = sumTo n g := by
  unfold sumTo
  have : (List.range n).map f = (List.range n).map g :=
    List.map_congr_left (fun j hj => h j (List.mem_range.1 hj))
  rw [this]

/-! ## Sums in a field, and the normalisation of `phi` -/

section Field

variable {F : Type} [LinearOrderedField F]

theorem sumTo_eq_sum (n : Nat) (f : Nat → F) :
    sumTo n f = ∑ j in Finset.range n, f j := by
  unfold sumTo
  induction n with
  | zero => simp
  | succ n ih => rw [List.sum_range_succ, ih, Finset.sum_range_succ]

theorem sumTo_div (n : Nat) (f : Nat → F) (c : F) :
    sumTo n (fun j => f j / c) = sumTo n f / c := by
  rw [sumTo_eq_sum, sumTo_eq_sum, Finset.sum_div]

theorem sumTo_nonneg (n : Nat) (f : Nat → F) (h : ∀ j, j < n → 0 ≤ f j) :
    0 ≤ sumTo n f := by
  rw [sumTo_eq_sum]
  exact Finset.sum_nonneg (fun j hj => h j (Finset.mem_range.1 hj))

theorem le_sumTo (n : Nat) (f : Nat → F) (h : ∀ j, j < n → 0 ≤ f j) (j : Nat)
    (hj : j < n) : f j ≤ sumTo n f := by
  rw [sumTo_eq_sum]
  exact Finset.single_le_sum (fun i hi => h i (Finset.mem_range.1 hi))
    (Finset.mem_range.2 hj)

theorem Locals.Normalised.sum_phi {s : Locals F} (hN : s.Normalised)
    (hne : s.sumfoo ≠ 0) : s.phi.sum = 1 := by
  obtain ⟨h1, h2⟩ := hN
  rw [h2]
  show sumTo s.foo.n_elem (fun j => s.foo.elem j / s.sumfoo) = 1
  rw [sumTo_div]
  have : sumTo s.foo.n_elem s.foo.elem = s.sumfoo := h1.symm
  rw [this]
  exact div_self hne

theorem Locals.Normalised.phi_nonneg {s : Locals F} (hN : s.Normalised)
    (hfoo : s.foo.Nonneg) : s.phi.Nonneg := by
  obtain ⟨h1, h2⟩ := hN
  rw [h2]
  intro j hj
  show 0 ≤ s.foo.elem j / s.sumfoo
  have hs : 0 ≤ s.sumfoo := by
    rw [h1]
    exact sumTo_nonneg _ _ hfoo
  exact div_nonneg (hfoo j hj) hs

theorem initPure_foo_nonneg (log : F → F) (allprobs : Mat F) (delta : Rowvec F)
    (h1 : 0 < allprobs.n_rows) (hd : delta.n_elem = allprobs.n_cols)
    (hdelta : delta.Nonneg) (hA : allprobs.Nonneg) :
    (initPure log allprobs delta).foo.Nonneg := by
  intro j hj
  have hj1 : j < delta.n_elem := hj
  exact mul_nonneg (hdelta j hj1) (hA 0 j h1 (by omega))

theorem stepPure_foo_nonneg (log : F → F) (allprobs : Mat F) (G : Mat F) (i : Nat)
    (s : Locals F) (hphi : s.phi.n_elem = G.n_rows) (hi : i < allprobs.n_rows)
    (hG : G.n_cols = allprobs.n_cols) (hs : s.phi.Nonneg) (hGn : G.Nonneg)
    (hA : allprobs.Nonneg) : (stepPure log allprobs G i s).foo.Nonneg := by
  intro j hj
  have hj1 : j < G.n_cols := hj
  refine mul_nonneg (sumTo_nonneg _ _ ?_) (hA i j hi (by omega))
  intro k hk
  exact mul_nonneg (hs k hk) (hGn k j (by omega) hj1)

theorem Cube.Nonneg.sliceAt {C : Cube F} (hC : C.Nonneg) (k : Nat)
    (hk : k < C.n_slices) : (C.sliceAt k).Nonneg :=
  fun i j hi hj => hC i j k hi hj hk

end Field

/-! ## The scaled recursion computes the logarithm of the unscaled likelihood -/

section Likelihood

variable (allprobs : Mat ℝ) (delta : Rowvec ℝ) (Gs : Nat → Mat ℝ)

theorem sumTo_eq_sum_fin (n : Nat) (f : Nat → ℝ) :
    sumTo n f = ∑ j : Fin n, f j := by
  rw [sumTo_eq_sum, Finset.sum_range]

theorem likelihoodVec_zero (j : Fin allprobs.n_cols) :
    likelihoodVec allprobs delta Gs 0 j = delta.elem j * allprobs.elem 0 j := by
  simp [likelihoodVec, Matrix.vecMul_diagonal, Rowvec.toFun, Mat.rowFun]

theorem likelihoodVec_succ (t : Nat) (j : Fin allprobs.n_cols) :
    likelihoodVec allprobs delta Gs (t + 1) j =
      (∑ k : Fin allprobs.n_cols,
        likelihoodVec allprobs delta Gs t k * (Gs (t + 1)).elem k j) *
        allprobs.elem (t + 1) j := by
  show Matrix.vecMul (Matrix.vecMul (likelihoodVec allprobs delta Gs t)
    ((Gs (t + 1)).toMatrix allprobs.n_cols allprobs.n_cols))
    (Matrix.diagonal (allprobs.rowFun (t + 1))) j = _
  rw [Matrix.vecMul_diagonal]
  simp [Matrix.vecMul, Matrix.dotProduct, Mat.toMatrix, Mat.rowFun]

theorem likelihoodVec_nonneg (hd : delta.n_elem = allprobs.n_cols)
    (hdelta : delta.Nonneg) (hA : allprobs.Nonneg)
    (hG : ∀ i, 1 ≤ i → i < allprobs.n_rows → ∀ k j, k < allprobs.n_cols →
      j < allprobs.n_cols → 0 ≤ (Gs i).elem k j) :
    ∀ t, t < allprobs.n_rows → ∀ j, 0 ≤ likelihoodVec allprobs delta Gs t j := by
  intro t
  induction t with
  | zero =>
    intro ht j
    rw [likelihoodVec_zero]
    exact mul_nonneg (hdelta j (by rw [hd]; exact j.2)) (hA 0 j ht j.2)
  | succ t ih =>
    intro ht j
    rw [likelihoodVec_succ]
    refine mul_nonneg (Finset.sum_nonneg ?_) (hA (t + 1) j ht j.2)
    intro k _
    exact mul_nonneg (ih (by omega) k) (hG (t + 1) (by omega) ht k j k.2 j.2)

theorem likelihoodVec_sum_eq_zero_succ (t : Nat)
    (hnn : ∀ j, 0 ≤ likelihoodVec allprobs delta Gs t j)
    (h0 : ∑ j, likelihoodVec allprobs delta Gs t j = 0) :
    ∑ j, likelihoodVec allprobs delta Gs (t + 1) j = 0 := by
  have hz : ∀ j, likelihoodVec allprobs delta Gs t j = 0 := by
    intro j
    exact (Finset.sum_eq_zero_iff_of_nonneg (fun i _ => hnn i)).1 h0 j (Finset.mem_univ j)
  refine Finset.sum_eq_zero ?_
  intro j _
  rw [likelihoodVec_succ]
  simp [hz]

/-- With non-negative inputs and a non-zero likelihood, the total mass of the
unscaled forward vector is non-zero at every step. -/
theorem likelihoodVec_sum_ne_zero (hd : delta.n_elem = allprobs.n_cols)
    (hdelta : delta.Nonneg) (hA : allprobs.Nonneg)
    (hG : ∀ i, 1 ≤ i → i < allprobs.n_rows → ∀ k j, k < allprobs.n_cols →
      j < allprobs.n_cols → 0 ≤ (Gs i).elem k j)
    (hL : likelihood allprobs delta Gs ≠ 0) :
    ∀ t, t ≤ allprobs.n_rows - 1 → ∑ j, likelihoodVec allprobs delta Gs t j ≠ 0 := by
  intro t ht h0
  have hprop : ∀ d, t + d ≤ allprobs.n_rows - 1 →
      ∑ j, likelihoodVec allprobs delta Gs (t + d) j = 0 := by
    intro d
    induction d with
    | zero => intro _; exact h0
    | succ d ih =>
      intro hd1
      have hlt : t + d < allprobs.n_rows := by omega
      exact likelihoodVec_sum_eq_zero_succ allprobs delta Gs (t + d)
        (likelihoodVec_nonneg allprobs delta Gs hd hdelta hA hG (t + d) hlt)
        (ih (by omega))
  have hlast := hprop (allprobs.n_rows - 1 - t) (by omega)
  have e : t + (allprobs.n_rows - 1 - t) = allprobs.n_rows - 1 := by omega
  rw [e] at hlast
  apply hL
  unfold likelihood
  rw [Matrix.dotProduct_one]
  exact hlast

/-- The invariant of the scaled recursion: `phi` is the unscaled forward vector
divided by its total mass, and `l` is the logarithm of that mass. -/
theorem statePure_eq_likelihoodVec (hd : delta.n_elem = allprobs.n_cols)
    (hGc : ∀ i, 1 ≤ i → (Gs i).n_cols = allprobs.n_cols) :
    ∀ t, (∀ u, u ≤ t → ∑ j, likelihoodVec allprobs delta Gs u j ≠ 0) →
      (∀ j : Fin allprobs.n_cols,
        (statePure Real.log allprobs delta Gs t).phi.elem j =
          likelihoodVec allprobs delta Gs t j /
            ∑ i, likelihoodVec allprobs delta Gs t i) ∧
      (statePure Real.log allprobs delta Gs t).sumfoo ≠ 0 ∧
      (statePure Real.log allprobs delta Gs t).l =
        Real.log (∑ i, likelihoodVec allprobs delta Gs t i) := by
  intro t
  induction t with
  | zero =>
    intro hne
    have hS : sumTo delta.n_elem (fun j => delta.elem j * allprobs.elem 0 j) =
        ∑ i, likelihoodVec allprobs delta Gs 0 i := by
      rw [hd, sumTo_eq_sum_fin]
      exact Finset.sum_congr rfl (fun j _ => (likelihoodVec_zero allprobs delta Gs j).symm)
    refine ⟨?_, ?_, ?_⟩
    · intro j
      show delta.elem j * allprobs.elem 0 j /
        sumTo delta.n_elem (fun j => delta.elem j * allprobs.elem 0 j) = _
      rw [hS, likelihoodVec_zero]
    · show sumTo delta.n_elem (fun j => delta.elem j * allprobs.elem 0 j) ≠ 0
      rw [hS]
      exact hne 0 (Nat.le_refl 0)
    · show Real.log (sumTo delta.n_elem (fun j => delta.elem j * allprobs.elem 0 j)) = _
      rw [hS]
  | succ t ih =>
    intro hne
    obtain ⟨ihphi, _, ihl⟩ := ih (fun u hu => hne u (by omega))
    have hSt := hne t (by omega)
    have hSt1 := hne (t + 1) (Nat.le_refl _)
    have hn : (statePure Real.log allprobs delta Gs t).phi.n_elem = allprobs.n_cols :=
      statePure_phi_n_elem Real.log allprobs delta Gs hd hGc t
    have hfoo : ∀ j : Fin allprobs.n_cols,
        sumTo (statePure Real.log allprobs delta Gs t).phi.n_elem
          (fun k => (statePure Real.log allprobs delta Gs t).phi.elem k *
            (Gs (t + 1)).elem k j) * allprobs.elem (t + 1) j =
          likelihoodVec allprobs delta Gs (t + 1) j /
            ∑ i, likelihoodVec allprobs delta Gs t i := by
      intro j
      rw [hn, sumTo_eq_sum_fin, likelihoodVec_succ]
      have : ∀ k : Fin allprobs.n_cols,
          (statePure Real.log allprobs delta Gs t).phi.elem k * (Gs (t + 1)).elem k j =
            likelihoodVec allprobs delta Gs t k * (Gs (t + 1)).elem k j /
              ∑ i, likelihoodVec allprobs delta Gs t i := by
        intro k
        rw [ihphi k]
        ring
      rw [Finset.sum_congr rfl (fun k _ => this k), ← Finset.sum_div]
      ring
    have hS : sumTo (Gs (t + 1)).n_cols
        (fun j => sumTo (statePure Real.log allprobs delta Gs t).phi.n_elem
          (fun k => (statePure Real.log allprobs delta Gs t).phi.elem k *
            (Gs (t + 1)).elem k j) * allprobs.elem (t + 1) j) =
        (∑ i, likelihoodVec allprobs delta Gs (t + 1) i) /
          ∑ i, likelihoodVec allprobs delta Gs t i := by
      rw [hGc (t + 1) (by omega), sumTo_eq_sum_fin,
        Finset.sum_congr rfl (fun j _ => hfoo j), ← Finset.sum_div]
    refine ⟨?_, ?_, ?_⟩
    · intro j
      show sumTo (statePure Real.log allprobs delta Gs t).phi.n_elem
          (fun k => (statePure Real.log allprobs delta Gs t).phi.elem k *
            (Gs (t + 1)).elem k j) * allprobs.elem (t + 1) j /
        sumTo (Gs (t + 1)).n_cols
          (fun j => sumTo (statePure Real.log allprobs delta Gs t).phi.n_elem
            (fun k => (statePure Real.log allprobs delta Gs t).phi.elem k *
              (Gs (t + 1)).elem k j) * allprobs.elem (t + 1) j) = _
      rw [hS, hfoo j]
      field_simp
    · show sumTo (Gs (t + 1)).n_cols
          (fun j => sumTo (statePure Real.log allprobs delta Gs t).phi.n_elem
            (fun k => (statePure Real.log allprobs delta Gs t).phi.elem k *
              (Gs (t + 1)).elem k j) * allprobs.elem (t + 1) j) ≠ 0
      rw [hS]
      exact div_ne_zero hSt1 hSt
    · show (statePure Real.log allprobs delta Gs t).l +
        Real.log (sumTo (Gs (t + 1)).n_cols
          (fun j => sumTo (statePure Real.log allprobs delta Gs t).phi.n_elem
            (fun k => (statePure Real.log allprobs delta Gs t).phi.elem k *
              (Gs (t + 1)).elem k j) * allprobs.elem (t + 1) j)) = _
      rw [hS, ihl, Real.log_div hSt1 hSt]
      ring

/-- The value of `l` after the last step is `log L`. -/
theorem statePure_l_eq_log_likelihood (hd : delta.n_elem = allprobs.n_cols)
    (hGc : ∀ i, 1 ≤ i → (Gs i).n_cols = allprobs.n_cols)
    (hdelta : delta.Nonneg) (hA : allprobs.Nonneg)
    (hG : ∀ i, 1 ≤ i → i < allprobs.n_rows → ∀ k j, k < allprobs.n_cols →
      j < allprobs.n_cols → 0 ≤ (Gs i).elem k j)
    (hL : 0 < likelihood allprobs delta Gs) :
    (statePure Real.log allprobs delta Gs (allprobs.n_rows - 1)).l =
      Real.log (likelihood allprobs delta Gs) := by
  have hne := likelihoodVec_sum_ne_zero allprobs delta Gs hd hdelta hA hG (ne_of_gt hL)
  obtain ⟨_, _, hl⟩ := statePure_eq_likelihoodVec allprobs delta Gs hd hGc
    (allprobs.n_rows - 1) (fun u hu => hne u hu)
  rw [hl]
  unfold likelihood
  rw [Matrix.dotProduct_one]

/-! ### The matrix product is the sum over all state paths -/

theorem pathWeight_zero (s : Fin 1 → Fin allprobs.n_cols) :
    pathWeight allprobs delta Gs 0 s = delta.elem (s 0) * allprobs.elem 0 (s 0) := by
  simp [pathWeight]

theorem pathWeight_succ (n : Nat) (s : Fin (n + 2) → Fin allprobs.n_cols) :
    pathWeight allprobs delta Gs (n + 1) s =
      pathWeight allprobs delta Gs n (Fin.init s) *
        (Gs (n + 1)).elem (s (Fin.castSucc (Fin.last n))) (s (Fin.last (n + 1))) *
        allprobs.elem (n + 1) (s (Fin.last (n + 1))) := by
  unfold pathWeight
  rw [Fin.prod_univ_castSucc]
  simp only [Fin.init, Fin.coe_castSucc, Fin.succ_last, Fin.val_last, Fin.castSucc_zero,
    Fin.succ_castSucc]
  ring

theorem sum_paths_snoc {N n : Nat} (f : (Fin (n + 1) → Fin N) → ℝ) :
    ∑ s : Fin (n + 1) → Fin N, f s =
      ∑ k : Fin N, ∑ s : Fin n → Fin N, f (Fin.snoc s k) := by
  rw [← Fintype.sum_prod_type (f := fun p : Fin N × (Fin n → Fin N) => f (Fin.snoc p.2 p.1))]
  exact (Fintype.sum_equiv (Fin.snocEquiv (fun _ => Fin N)) _ _ (fun p => rfl)).symm

/-- Entry `j` of the unscaled forward vector of step `n` is the total weight of
the paths that end in state `j`. -/
theorem likelihoodVec_eq_sum_paths :
    ∀ (n : Nat) (j : Fin allprobs.n_cols),
      likelihoodVec allprobs delta Gs n j =
        ∑ s : Fin n → Fin allprobs.n_cols,
          pathWeight allprobs delta Gs n (Fin.snoc s j) := by
  intro n
  induction n with
  | zero =>
    intro j
    rw [likelihoodVec_zero]
    simp [pathWeight_zero, Fin.snoc]
  | succ n ih =>
    intro j
    rw [likelihoodVec_succ, sum_paths_snoc, Finset.sum_mul]
    refine Finset.sum_congr rfl ?_
    intro k _
    rw [ih k, Finset.sum_mul, Finset.sum_mul]
    refine Finset.sum_congr rfl ?_
    intro s _
    simp [pathWeight_succ, Fin.init_snoc, Fin.snoc_castSucc, Fin.snoc_last]

theorem likelihood_eq_pathLikelihood :
    likelihood allprobs delta Gs = pathLikelihood allprobs delta Gs := by
  unfold likelihood pathLikelihood
  rw [Matrix.dotProduct_one, sum_paths_snoc]
  exact Finset.sum_congr rfl (fun j _ => likelihoodVec_eq_sum_paths allprobs delta Gs _ j)

end Likelihood

theorem forward_cpp_p_eq_of_sel [Zero α] [Add α] [Mul α] [Div α] (log : α → α)
    (allprobs : Mat α) (delta : Rowvec α) (Gamma : Cube α) (tod : StdVector)
    (Gs : Nat → Mat α) (hn : 1 ≤ allprobs.n_rows) (hd : delta.n_elem = allprobs.n_cols)
    (hGr : ∀ i, 1 ≤ i → (Gs i).n_rows = allprobs.n_cols)
    (hGc : ∀ i, 1 ≤ i → (Gs i).n_cols = allprobs.n_cols)
    (hsel : ∀ i, 1 ≤ i → i ≤ allprobs.n_rows - 1 →
      Gamma.slice (toUword (tod.data i)) = .ok (Gs i)) :
    forward_cpp_p log allprobs delta Gamma tod =
      .ok (statePure log allprobs delta Gs (allprobs.n_rows - 1)).l := by
  unfold forward_cpp_p forward_cpp_p_locals
  rw [forward_init_eq_initPure log allprobs delta (by omega) hd, forward_cpp_p_body_eq]
  simp only [forLoop_sel_body_eq log allprobs delta Gs _ (allprobs.n_rows - 1) (by omega)
    hd hGr hGc hsel]

theorem toUword_eq_toNat (t : Int) (K : Nat) (hK : K ≤ 2 ^ 64) (h0 : 0 ≤ t)
    (h1 : t < (K : Int)) : toUword t = t.toNat := by
  unfold toUword
  have h3 : t % 2 ^ 64 = t := Int.emod_eq_of_lt h0 (by omega)
  rw [h3]

/-! ## The arithmetic of `double` with rounding: special values -/

theorem dbl_zero_eq : (0 : Dbl) = .fin 0 := rfl

theorem Dbl.roundNat_zero (q : Nat) : Dbl.roundNat 0 q = 0 := by
  simp [Dbl.roundNat, Dbl.spacing]

theorem Dbl.round_zero (neg : Bool) (q : Nat) : Dbl.round neg 0 q = .fin 0 := by
  have h : ¬ (2 ^ 2098 ≤ 0) := Nat.not_le.2 (pow_pos (by decide) _)
  unfold Dbl.round Dbl.ofMag
  rw [Dbl.roundNat_zero, if_neg h]
  cases neg <;> rfl

theorem dbl_nan_add (x : Dbl) : Dbl.nan + x = .nan := by
  cases x <;> rfl

theorem dbl_add_nan (x : Dbl) : x + Dbl.nan = .nan := by
  cases x <;> rfl

theorem dbl_nan_mul (x : Dbl) : Dbl.nan * x = .nan := by
  cases x <;> rfl

theorem dbl_nan_div (x : Dbl) : Dbl.nan / x = .nan := by
  cases x <;> rfl

theorem dbl_div_nan (x : Dbl) : x / Dbl.nan = .nan := by
  cases x <;> rfl

theorem dbl_log_nan (lg : Int → Int) : Dbl.log lg .nan = .nan := rfl

theorem Dbl.log_zero (lg : Int → Int) : Dbl.log lg 0 = .ninf := by
  show Dbl.log lg (.fin 0) = .ninf
  simp [Dbl.log]

theorem dbl_fin_mul (a b : Int) :
    Dbl.fin a * Dbl.fin b =
      Dbl.round (xor (decide (a < 0)) (decide (b < 0))) (a.natAbs * b.natAbs) (2 ^ 1074) := by
  show Dbl.mul (.fin a) (.fin b) = _
  rw [Dbl.mul]

theorem dbl_fin_add (a b : Int) :
    Dbl.fin a + Dbl.fin b = Dbl.round (decide (a + b < 0)) (a + b).natAbs 1 := by
  show Dbl.add (.fin a) (.fin b) = _
  rw [Dbl.add]

/-- A product with the double 0 is 0 or, for an infinite or `NaN` factor, `NaN`. -/
theorem Dbl.mul_zero_cases (x : Dbl) : x * 0 = 0 ∨ x * 0 = .nan := by
  cases x with
  | fin a =>
    left
    rw [dbl_zero_eq, dbl_fin_mul, Int.natAbs_zero, Nat.mul_zero]
    exact Dbl.round_zero _ _
  | pinf =>
    right
    show Dbl.mul .pinf (.fin 0) = .nan
    simp [Dbl.mul, Dbl.infTimes]
  | ninf =>
    right
    show Dbl.mul .ninf (.fin 0) = .nan
    simp [Dbl.mul, Dbl.infTimes]
  | nan => exact Or.inr rfl

theorem Dbl.zero_add_zero : (0 : Dbl) + 0 = 0 := by
  rw [dbl_zero_eq, dbl_fin_add]
  exact Dbl.round_zero _ _

theorem Dbl.zero_or_nan_add {a b : Dbl} (ha : a = 0 ∨ a = .nan) (hb : b = 0 ∨ b = .nan) :
    a + b = 0 ∨ a + b = .nan := by
  rcases ha with rfl | rfl
  · rcases hb with rfl | rfl
    · exact Or.inl Dbl.zero_add_zero
    · exact Or.inr (dbl_add_nan _)
  · exact Or.inr (dbl_nan_add _)

theorem Dbl.zero_or_nan_div {a b : Dbl} (ha : a = 0 ∨ a = .nan) (hb : b = 0 ∨ b = .nan) :
    a / b = .nan := by
  rcases ha with rfl | rfl
  · rcases hb with rfl | rfl
    · show Dbl.div (.fin 0) (.fin 0) = .nan
      simp [Dbl.div]
    · exact dbl_div_nan _
  · exact dbl_nan_div _

theorem Dbl.log_zero_or_nan (lg : Int → Int) {a : Dbl} (ha : a = 0 ∨ a = .nan) :
    Dbl.log lg a = .ninf ∨ Dbl.log lg a = .nan := by
  rcases ha with rfl | rfl
  · exact Or.inl (Dbl.log_zero lg)
  · exact Or.inr rfl

theorem Dbl.add_ninf_or_nan (x : Dbl) {y : Dbl} (hy : y = .ninf ∨ y = .nan) :
    x + y = .ninf ∨ x + y = .nan := by
  rcases hy with rfl | rfl
  · cases x
    · exact Or.inl rfl
    · exact Or.inr rfl
    · exact Or.inl rfl
    · exact Or.inr rfl
  · exact Or.inr (dbl_add_nan _)

theorem Dbl.list_sum_zero_or_nan (f : Nat → Dbl) (l : List Nat)
    (h : ∀ j, j ∈ l → f j = 0 ∨ f j = .nan) :
    (l.map f).sum = 0 ∨ (l.map f).sum = .nan := by
  induction l with
  | nil => exact Or.inl rfl
  | cons a l ih =>
    rw [List.map_cons, List.sum_cons]
    exact Dbl.zero_or_nan_add (h a (List.mem_cons_self a l))
      (ih (fun j hj => h j (List.mem_cons_of_mem a hj)))

theorem Dbl.sumTo_zero_or_nan (n : Nat) (f : Nat → Dbl)
    (h : ∀ j, j < n → f j = 0 ∨ f j = .nan) :
    sumTo n f = 0 ∨ sumTo n f = .nan :=
  Dbl.list_sum_zero_or_nan f (List.range n) (fun j hj => h j (List.mem_range.1 hj))

theorem dbl_sumTo_nan (n : Nat) (f : Nat → Dbl) (hn : 0 < n) (h0 : f 0 = .nan) :
    sumTo n f = .nan := by
  obtain ⟨m, rfl⟩ : ∃ m, n = m + 1 := ⟨n - 1, by omega⟩
  unfold sumTo
  rw [List.range_succ_eq_map, List.map_cons, List.sum_cons, h0, dbl_nan_add]

/-! ## An all-zero row of `allprobs` in `double` -/

/-- A step from locals whose `phi[0]` is `NaN`: `l` becomes `NaN` and `phi[0]`
stays `NaN`. -/
theorem stepPure_lost (lg : Int → Int) (allprobs G : Mat Dbl) (i : Nat) (s : Locals Dbl)
    (hL : s.Lost) (hN : 0 < G.n_cols) :
    (stepPure (Dbl.log lg) allprobs G i s).l = .nan ∧
      (stepPure (Dbl.log lg) allprobs G i s).Lost := by
  obtain ⟨hn, h0⟩ := hL
  have hfoo : ∀ j, (stepPure (Dbl.log lg) allprobs G i s).foo.elem j = .nan := by
    intro j
    show sumTo s.phi.n_elem (fun k => s.phi.elem k * G.elem k j) * allprobs.elem i j = _
    rw [dbl_sumTo_nan _ _ hn (by rw [h0, dbl_nan_mul]), dbl_nan_mul]
  have hsum : (stepPure (Dbl.log lg) allprobs G i s).sumfoo = .nan :=
    dbl_sumTo_nan _ _ hN (hfoo 0)
  refine ⟨?_, hN, ?_⟩
  · show s.l + Dbl.log lg (stepPure (Dbl.log lg) allprobs G i s).sumfoo = _
    rw [hsum, dbl_log_nan, dbl_add_nan]
  · show (stepPure (Dbl.log lg) allprobs G i s).foo.elem 0 /
      (stepPure (Dbl.log lg) allprobs G i s).sumfoo = _
    rw [hfoo 0, dbl_nan_div]

/-- A step into an all-zero row of `allprobs`, from any locals: `sumfoo` is 0
or `NaN`, so `l` becomes `-inf` or `NaN` and `phi[0]` becomes `NaN`. -/
theorem stepPure_zeroRow_dbl (lg : Int → Int) (allprobs G : Mat Dbl) (i : Nat)
    (s : Locals Dbl) (hN : 0 < G.n_cols)
    (hz : ∀ j, j < G.n_cols → allprobs.elem i j = 0) :
    ((stepPure (Dbl.log lg) allprobs G i s).l = .ninf ∨
        (stepPure (Dbl.log lg) allprobs G i s).l = .nan) ∧
      (stepPure (Dbl.log lg) allprobs G i s).Lost := by
  have hfoo : ∀ j, j < G.n_cols →
      (stepPure (Dbl.log lg) allprobs G i s).foo.elem j = 0 ∨
        (stepPure (Dbl.log lg) allprobs G i s).foo.elem j = .nan := by
    intro j hj
    show sumTo s.phi.n_elem (fun k => s.phi.elem k * G.elem k j) * allprobs.elem i j = 0 ∨
      sumTo s.phi.n_elem (fun k => s.phi.elem k * G.elem k j) * allprobs.elem i j = .nan
    rw [hz j hj]
    exact Dbl.mul_zero_cases _
  have hsum : (stepPure (Dbl.log lg) allprobs G i s).sumfoo = 0 ∨
      (stepPure (Dbl.log lg) allprobs G i s).sumfoo = .nan :=
    Dbl.sumTo_zero_or_nan _ _ hfoo
  refine ⟨?_, hN, ?_⟩
  · show s.l + Dbl.log lg (stepPure (Dbl.log lg) allprobs G i s).sumfoo = .ninf ∨
      s.l + Dbl.log lg (stepPure (Dbl.log lg) allprobs G i s).sumfoo = .nan
    exact Dbl.add_ninf_or_nan _ (Dbl.log_zero_or_nan lg hsum)
  · show (stepPure (Dbl.log lg) allprobs G i s).foo.elem 0 /
      (stepPure (Dbl.log lg) allprobs G i s).sumfoo = _
    exact Dbl.zero_or_nan_div (hfoo 0 hN) hsum

/-- The statements before the loop when row 0 of `allprobs` is all-zero: `l` is
`-inf` or `NaN` and `phi[0]` is `NaN`. -/
theorem initPure_zeroRow_dbl (lg : Int → Int) (allprobs : Mat Dbl) (delta : Rowvec Dbl)
    (hN : 0 < delta.n_elem) (hz : ∀ j, j < delta.n_elem → allprobs.elem 0 j = 0) :
    ((initPure (Dbl.log lg) allprobs delta).l = .ninf ∨
        (initPure (Dbl.log lg) allprobs delta).l = .nan) ∧
      (initPure (Dbl.log lg) allprobs delta).Lost := by
  have hfoo : ∀ j, j < delta.n_elem →
      (initPure (Dbl.log lg) allprobs delta).foo.elem j = 0 ∨
        (initPure (Dbl.log lg) allprobs delta).foo.elem j = .nan := by
    intro j hj
    show delta.elem j * allprobs.elem 0 j = 0 ∨ delta.elem j * allprobs.elem 0 j = .nan
    rw [hz j hj]
    exact Dbl.mul_zero_cases _
  have hsum : (initPure (Dbl.log lg) allprobs delta).sumfoo = 0 ∨
      (initPure (Dbl.log lg) allprobs delta).sumfoo = .nan :=
    Dbl.sumTo_zero_or_nan _ _ hfoo
  refine ⟨?_, hN, ?_⟩
  · show Dbl.log lg (initPure (Dbl.log lg) allprobs delta).sumfoo = .ninf ∨
      Dbl.log lg (initPure (Dbl.log lg) allprobs delta).sumfoo = .nan
    exact Dbl.log_zero_or_nan lg hsum
  · show (initPure (Dbl.log lg) allprobs delta).foo.elem 0 /
      (initPure (Dbl.log lg) allprobs delta).sumfoo = _
    exact Dbl.zero_or_nan_div (hfoo 0 hN) hsum

/-- The run in `double` when row `t` of `allprobs` is all-zero, whatever the
other entries of the input are: after step `t` the accumulated `l` is `-inf`
or `NaN`, and after every later step it is `NaN`. -/
theorem statePure_zeroRow_dbl (lg : Int → Int) (allprobs : Mat Dbl) (delta : Rowvec Dbl)
    (Gs : Nat → Mat Dbl) (hN : 0 < allprobs.n_cols) (hd : delta.n_elem = allprobs.n_cols)
    (hGc : ∀ i, 1 ≤ i → (Gs i).n_cols = allprobs.n_cols)
    (t : Nat) (hz : allprobs.ZeroRow t) :
    ((statePure (Dbl.log lg) allprobs delta Gs t).l = .ninf ∨
        (statePure (Dbl.log lg) allprobs delta Gs t).l = .nan) ∧
      ∀ k, (statePure (Dbl.log lg) allprobs delta Gs (t + k + 1)).l = .nan := by
  have h0 : ((statePure (Dbl.log lg) allprobs delta Gs t).l = .ninf ∨
        (statePure (Dbl.log lg) allprobs delta Gs t).l = .nan) ∧
      (statePure (Dbl.log lg) allprobs delta Gs t).Lost := by
    cases t with
    | zero =>
      exact initPure_zeroRow_dbl lg allprobs delta (by omega)
        (fun j hj => hz j (by omega))
    | succ t =>
      exact stepPure_zeroRow_dbl lg allprobs (Gs (t + 1)) (t + 1) _
        (by rw [hGc _ (by omega)]; exact hN)
        (fun j hj => hz j (by rw [hGc _ (by omega)] at hj; exact hj))
  refine ⟨h0.1, ?_⟩
  have hlater : ∀ k, (statePure (Dbl.log lg) allprobs delta Gs (t + k + 1)).l = .nan ∧
      (statePure (Dbl.log lg) allprobs delta Gs (t + k + 1)).Lost := by
    intro k
    induction k with
    | zero =>
      exact stepPure_lost lg allprobs (Gs (t + 1)) (t + 1) _ h0.2
        (by rw [hGc _ (by omega)]; exact hN)
    | succ k ih =>
      exact stepPure_lost lg allprobs (Gs (t + k + 1 + 1)) (t + k + 1 + 1) _ ih.2
        (by rw [hGc _ (by omega)]; exact hN)
  exact fun k => (hlater k).1

/-- The final `l` of the run in `double` when row `t` of `allprobs` is all-zero:
`NaN` if `t` is not the last row, `-inf` or `NaN` if it is. -/
theorem statePure_zeroRow_final (lg : Int → Int) (allprobs : Mat Dbl) (delta : Rowvec Dbl)
    (Gs : Nat → Mat Dbl) (hN : 0 < allprobs.n_cols) (hd : delta.n_elem = allprobs.n_cols)
    (hGc : ∀ i, 1 ≤ i → (Gs i).n_cols = allprobs.n_cols)
    (t : Nat) (hz : allprobs.ZeroRow t) :
    (t + 1 < allprobs.n_rows →
        (statePure (Dbl.log lg) allprobs delta Gs (allprobs.n_rows - 1)).l = .nan) ∧
      (t + 1 = allprobs.n_rows →
        (statePure (Dbl.log lg) allprobs delta Gs (allprobs.n_rows - 1)).l = .ninf ∨
          (statePure (Dbl.log lg) allprobs delta Gs (allprobs.n_rows - 1)).l = .nan) := by
  obtain ⟨h1, h2⟩ := statePure_zeroRow_dbl lg allprobs delta Gs hN hd hGc t hz
  constructor
  · intro hlt
    have e : t + (allprobs.n_rows - 1 - t - 1) + 1 = allprobs.n_rows - 1 := by omega
    have := h2 (allprobs.n_rows - 1 - t - 1)
    rw [e] at this
    exact this
  · intro hlast
    have e : allprobs.n_rows - 1 = t := by omega
    rw [e]
    exact h1

theorem Except.ok_or {ε β : Type} {x a b : β} (h : x = a ∨ x = b) :
    (Except.ok x : Except ε β) = .ok a ∨ (Except.ok x : Except ε β) = .ok b :=
  h.elim (fun e => Or.inl (congrArg Except.ok e)) (fun e => Or.inr (congrArg Except.ok e))

theorem forward_cpp_h_zeroRow_dbl (lg : Int → Int) (allprobs : Mat Dbl) (delta : Rowvec Dbl)
    (Gamma : Mat Dbl)
    (hN : 0 < allprobs.n_cols) (hd : delta.n_elem = allprobs.n_cols)
    (hGr : Gamma.n_rows = allprobs.n_cols) (hGc : Gamma.n_cols = allprobs.n_cols)
    (t : Nat) (ht : t < allprobs.n_rows) (hz : allprobs.ZeroRow t) :
    (t + 1 < allprobs.n_rows →
        forward_cpp_h (Dbl.log lg) allprobs delta Gamma = .ok .nan) ∧
      (t + 1 = allprobs.n_rows →
        forward_cpp_h (Dbl.log lg) allprobs delta Gamma = .ok .ninf ∨
          forward_cpp_h (Dbl.log lg) allprobs delta Gamma = .ok .nan) := by
  have hrun := forward_cpp_h_eq (Dbl.log lg) allprobs delta Gamma (by omega) hd hGr hGc
  obtain ⟨h1, h2⟩ := statePure_zeroRow_final lg allprobs delta (fun _ => Gamma) hN hd
    (fun _ _ => hGc) t hz
  rw [hrun]
  exact ⟨fun hlt => congrArg Except.ok (h1 hlt), fun hlast => Except.ok_or (h2 hlast)⟩

theorem forward_cpp_g_zeroRow_dbl (lg : Int → Int) (allprobs : Mat Dbl) (delta : Rowvec Dbl)
    (Gamma : Cube Dbl)
    (hN : 0 < allprobs.n_cols) (hd : delta.n_elem = allprobs.n_cols)
    (hGr : Gamma.n_rows = allprobs.n_cols) (hGc : Gamma.n_cols = allprobs.n_cols)
    (hK : allprobs.n_rows - 1 ≤ Gamma.n_slices)
    (t : Nat) (ht : t < allprobs.n_rows) (hz : allprobs.ZeroRow t) :
    (t + 1 < allprobs.n_rows →
        forward_cpp_g (Dbl.log lg) allprobs delta Gamma = .ok .nan) ∧
      (t + 1 = allprobs.n_rows →
        forward_cpp_g (Dbl.log lg) allprobs delta Gamma = .ok .ninf ∨
          forward_cpp_g (Dbl.log lg) allprobs delta Gamma = .ok .nan) := by
  have hrun := forward_cpp_g_eq (Dbl.log lg) allprobs delta Gamma (by omega) hd hGr hGc hK
  obtain ⟨h1, h2⟩ := statePure_zeroRow_final lg allprobs delta
    (fun i => Gamma.sliceAt (i - 1)) hN hd (fun _ _ => hGc) t hz
  rw [hrun]
  exact ⟨fun hlt => congrArg Except.ok (h1 hlt), fun hlast => Except.ok_or (h2 hlast)⟩

theorem forward_cpp_p_zeroRow_dbl (lg : Int → Int) (allprobs : Mat Dbl) (delta : Rowvec Dbl)
    (Gamma : Cube Dbl) (tod : StdVector)
    (hN : 0 < allprobs.n_cols) (hd : delta.n_elem = allprobs.n_cols)
    (hGr : Gamma.n_rows = allprobs.n_cols) (hGc : Gamma.n_cols = allprobs.n_cols)
    (htod : ∀ i, 1 ≤ i → i ≤ allprobs.n_rows - 1 → toUword (tod.data i) < Gamma.n_slices)
    (t : Nat) (ht : t < allprobs.n_rows) (hz : allprobs.ZeroRow t) :
    (t + 1 < allprobs.n_rows →
        forward_cpp_p (Dbl.log lg) allprobs delta Gamma tod = .ok .nan) ∧
      (t + 1 = allprobs.n_rows →
        forward_cpp_p (Dbl.log lg) allprobs delta Gamma tod = .ok .ninf ∨
          forward_cpp_p (Dbl.log lg) allprobs delta Gamma tod = .ok .nan) := by
  have hrun := forward_cpp_p_eq (Dbl.log lg) allprobs delta Gamma tod (by omega) hd hGr hGc
    htod
  obtain ⟨h1, h2⟩ := statePure_zeroRow_final lg allprobs delta
    (fun i => Gamma.sliceAt (toUword (tod.data i))) hN hd (fun _ _ => hGc) t hz
  rw [hrun]
  exact ⟨fun hlt => congrArg Except.ok (h1 hlt), fun hlast => Except.ok_or (h2 hlast)⟩

/-! ## Values of the example data in `double` -/

theorem Dbl.log_pos (lg : Int → Int) (m : Int) (h : 0 < m) :
    Dbl.log lg (.fin m) = .fin (lg m) := by
  simp [Dbl.log, not_lt.2 (le_of_lt h), ne_of_gt h]

theorem Dbl.toRat_fin (m : Int) : Dbl.toRat (.fin m) = (m : ℚ) / 2 ^ 1074 := rfl

theorem Dbl.nearest_1_2 : Dbl.nearest 1 2 = .fin (2 ^ 1073) := by decide!

theorem Dbl.nearest_1_4 : Dbl.nearest 1 4 = .fin (2 ^ 1072) := by decide!

theorem Dbl.nearest_3_4 : Dbl.nearest 3 4 = .fin (3 * 2 ^ 1072) := by decide!

theorem Dbl.nearest_1_8 : Dbl.nearest 1 8 = .fin (2 ^ 1071) := by decide!

theorem Dbl.nearest_1_10 : Dbl.nearest 1 10 = .fin (3602879701896397 * 2 ^ 1019) := by decide!

theorem Dbl.nearest_3_10 : Dbl.nearest 3 10 = .fin (5404319552844595 * 2 ^ 1020) := by decide!

theorem Dbl.nearest_7_10 : Dbl.nearest 7 10 = .fin (3152519739159347 * 2 ^ 1022) := by decide!

theorem Dbl.nearest_3_5 : Dbl.nearest 3 5 = .fin (5404319552844595 * 2 ^ 1021) := by decide!

theorem Dbl.nearest_2_5 : Dbl.nearest 2 5 = .fin (3602879701896397 * 2 ^ 1021) := by decide!

theorem Dbl.toRat_1_2 : Dbl.toRat (Dbl.nearest 1 2) = 1 / 2 := by
  rw [Dbl.nearest_1_2, Dbl.toRat_fin]
  norm_num

theorem Dbl.toRat_1_4 : Dbl.toRat (Dbl.nearest 1 4) = 1 / 4 := by
  rw [Dbl.nearest_1_4, Dbl.toRat_fin]
  norm_num

theorem Dbl.toRat_3_4 : Dbl.toRat (Dbl.nearest 3 4) = 3 / 4 := by
  rw [Dbl.nearest_3_4, Dbl.toRat_fin]
  norm_num

theorem Dbl.toRat_3_5 : Dbl.toRat (Dbl.nearest 3 5) = 5404319552844595 / 2 ^ 53 := by
  rw [Dbl.nearest_3_5, Dbl.toRat_fin]
  norm_num

theorem Dbl.toRat_2_5 : Dbl.toRat (Dbl.nearest 2 5) = 3602879701896397 / 2 ^ 53 := by
  rw [Dbl.nearest_2_5, Dbl.toRat_fin]
  norm_num

theorem dbl_fin_add_ninf (a : Int) : Dbl.fin a + Dbl.ninf = .ninf := rfl

/-! ## The normalisers and `phi` do not depend on the logarithm -/

theorem statePure_zero_l [Zero α] [Add α] [Mul α] [Div α] (log : α → α)
    (allprobs : Mat α) (delta : Rowvec α) (Gs : Nat → Mat α) :
    (statePure log allprobs delta Gs 0).l = log (statePure log allprobs delta Gs 0).sumfoo :=
  rfl

theorem statePure_succ_l [Zero α] [Add α] [Mul α] [Div α] (log : α → α)
    (allprobs : Mat α) (delta : Rowvec α) (Gs : Nat → Mat α) (t : Nat) :
    (statePure log allprobs delta Gs (t + 1)).l =
      (statePure log allprobs delta Gs t).l +
        log (statePure log allprobs delta Gs (t + 1)).sumfoo :=
  rfl

/-- The function passed as `log` only enters `l`: `foo`, `sumfoo` and `phi` are
the same for any two such functions. -/
theorem statePure_congr_log [Zero α] [Add α] [Mul α] [Div α] (log1 log2 : α → α)
    (allprobs : Mat α) (delta : Rowvec α) (Gs : Nat → Mat α) (t : Nat) :
    (statePure log1 allprobs delta Gs t).foo = (statePure log2 allprobs delta Gs t).foo ∧
      (statePure log1 allprobs delta Gs t).sumfoo =
        (statePure log2 allprobs delta Gs t).sumfoo ∧
      (statePure log1 allprobs delta Gs t).phi = (statePure log2 allprobs delta Gs t).phi := by
  induction t with
  | zero => exact ⟨rfl, rfl, rfl⟩
  | succ t ih =>
    have h : (statePure log1 allprobs delta Gs (t + 1)).foo =
        (statePure log2 allprobs delta Gs (t + 1)).foo := by
      show Rowvec.mk _ _ = Rowvec.mk _ _
      rw [ih.2.2]
    refine ⟨h, ?_, ?_⟩
    · show (statePure log1 allprobs delta Gs (t + 1)).foo.sum =
        (statePure log2 allprobs delta Gs (t + 1)).foo.sum
      rw [h]
    · show (statePure log1 allprobs delta Gs (t + 1)).foo.divScalar
          (statePure log1 allprobs delta Gs (t + 1)).foo.sum =
        (statePure log2 allprobs delta Gs (t + 1)).foo.divScalar
          (statePure log2 allprobs delta Gs (t + 1)).foo.sum
      rw [h]

/-! ## The example data in `double` -/

theorem sumTo_two [Zero α] [Add α] (f : Nat → α) : sumTo 2 f = f 0 + (f 1 + 0) := rfl

theorem dblData_props :
    dblDelta.IsFinite ∧ (dblDelta.map Dbl.toRat).IsDistribution ∧
      dblGamma.IsFinite ∧ (dblGamma.map Dbl.toRat).RowStochastic := by
  refine ⟨?_, ⟨?_, ?_⟩, ?_, ?_, ?_⟩
  · unfold Rowvec.IsFinite
    decide!
  · intro j _
    simp only [Rowvec.map, dblDelta, Dbl.toRat_1_2]
    norm_num
  · simp only [Rowvec.sum, Rowvec.map, dblDelta, sumTo_two, Dbl.toRat_1_2]
    norm_num
  · unfold Mat.IsFinite
    decide!
  · intro i j _ _
    simp only [Mat.map, dblGamma]
    split_ifs
    · rw [Dbl.toRat_3_4]
      norm_num
    · rw [Dbl.toRat_1_4]
      norm_num
  · intro i hi
    have hi2 : i < 2 := hi
    interval_cases i <;>
      simp only [Mat.map, dblGamma, sumTo_two, if_true, zero_ne_one,
        one_ne_zero, if_false, Dbl.toRat_3_4, Dbl.toRat_1_4] <;>
      norm_num

theorem Dbl.toRat_zero : Dbl.toRat 0 = 0 := by
  rw [dbl_zero_eq, Dbl.toRat_fin]
  simp

theorem Dbl.toRat_3_10 : Dbl.toRat (Dbl.nearest 3 10) = 5404319552844595 / 2 ^ 54 := by
  rw [Dbl.nearest_3_10, Dbl.toRat_fin]
  norm_num

theorem Dbl.toRat_7_10 : Dbl.toRat (Dbl.nearest 7 10) = 3152519739159347 / 2 ^ 52 := by
  rw [Dbl.nearest_7_10, Dbl.toRat_fin]
  norm_num

theorem dblAllprobsZero_props :
    dblAllprobsZero.IsFinite ∧ (dblAllprobsZero.map Dbl.toRat).Nonneg ∧
      dblAllprobsZero.ZeroRow 0 := by
  refine ⟨?_, ?_, ?_⟩
  · unfold Mat.IsFinite
    decide!
  · intro i j hi hj
    have hi3 : i < 3 := hi
    have hj2 : j < 2 := hj
    interval_cases i <;> interval_cases j <;>
      simp only [Mat.map, dblAllprobsZero, if_true, if_false, one_ne_zero, OfNat.ofNat_ne_zero,
        OfNat.ofNat_ne_one, Dbl.toRat_zero, Dbl.toRat_1_2, Dbl.toRat_3_10, Dbl.toRat_7_10] <;>
      norm_num
  · intro j _
    rfl

theorem dblAllprobsLastZero_props :
    dblAllprobsLastZero.IsFinite ∧ (dblAllprobsLastZero.map Dbl.toRat).Nonneg ∧
      dblAllprobsLastZero.ZeroRow 1 := by
  refine ⟨?_, ?_, ?_⟩
  · unfold Mat.IsFinite
    decide!
  · intro i j hi hj
    have hi2 : i < 2 := hi
    have hj2 : j < 2 := hj
    interval_cases i <;> interval_cases j <;>
      simp only [Mat.map, dblAllprobsLastZero, if_true, if_false, one_ne_zero,
        Dbl.toRat_zero, Dbl.toRat_3_5, Dbl.toRat_2_5] <;>
      norm_num
  · intro j _
    rfl

/-! ## The arithmetic with special values -/

section Special

variable {β : Type} [LinearOrderedField β]

theorem FVal.zero_eq : (0 : FVal β) = .fin 0 := rfl

theorem FVal.fin_add (a b : β) : (FVal.fin a + FVal.fin b : FVal β) = .fin (a + b) := rfl

theorem FVal.fin_mul (a b : β) : (FVal.fin a * FVal.fin b : FVal β) = .fin (a * b) := rfl

theorem FVal.nan_add (x : FVal β) : FVal.nan + x = .nan := by
  cases x <;> rfl

theorem FVal.add_nan (x : FVal β) : x + FVal.nan = .nan := by
  cases x <;> rfl

theorem FVal.nan_mul (x : FVal β) : FVal.nan * x = .nan := by
  cases x <;> rfl

theorem FVal.nan_div (x : FVal β) : FVal.nan / x = .nan := by
  cases x <;> rfl

theorem FVal.fin_add_ninf (a : β) : (FVal.fin a + FVal.ninf : FVal β) = .ninf := rfl

theorem FVal.fin_div_fin (a b : β) (hb : b ≠ 0) :
    (FVal.fin a / FVal.fin b : FVal β) = .fin (a / b) := by
  show FVal.div (.fin a) (.fin b) = _
  simp [FVal.div, hb]

theorem FVal.zero_div_zero : (FVal.fin 0 / FVal.fin 0 : FVal β) = .nan := by
  show FVal.div (.fin 0) (.fin 0) = _
  simp [FVal.div]

theorem FVal.log_fin_pos (log : β → β) (x : β) (hx : 0 < x) :
    FVal.log log (.fin x) = .fin (log x) := by
  simp [FVal.log, not_lt.2 (le_of_lt hx), ne_of_gt hx]

theorem FVal.log_fin_zero (log : β → β) : FVal.log log (.fin 0) = .ninf := by
  simp [FVal.log]

theorem FVal.log_nan (log : β → β) : FVal.log log (.nan : FVal β) = .nan := rfl

theorem list_sum_fin (f : Nat → β) (l : List Nat) :
    (l.map (fun j => FVal.fin (f j))).sum = FVal.fin (l.map f).sum := by
  induction l with
  | nil => rfl
  | cons a l ih =>
    simp only [List.map_cons, List.sum_cons, ih, FVal.fin_add]

theorem sumTo_fin (n : Nat) (f : Nat → β) :
    sumTo n (fun j => FVal.fin (f j)) = FVal.fin (sumTo n f) :=
  list_sum_fin f (List.range n)

theorem sumTo_nan (n : Nat) (f : Nat → FVal β) (hn : 0 < n) (h0 : f 0 = .nan) :
    sumTo n f = .nan := by
  obtain ⟨m, rfl⟩ : ∃ m, n = m + 1 := ⟨n - 1, by omega⟩
  unfold sumTo
  rw [List.range_succ_eq_map, List.map_cons, List.sum_cons, h0, FVal.nan_add]

variable (log : β → β)

theorem initPure_foo_map_fin (allprobs : Mat β) (delta : Rowvec β) :
    (initPure (FVal.log log) (allprobs.map .fin) (delta.map .fin)).foo =
      (initPure log allprobs delta).foo.map .fin :=
  rfl

theorem initPure_sumfoo_map_fin (allprobs : Mat β) (delta : Rowvec β) :
    (initPure (FVal.log log) (allprobs.map .fin) (delta.map .fin)).sumfoo =
      .fin (initPure log allprobs delta).sumfoo := by
  show sumTo delta.n_elem (fun j => FVal.fin (delta.elem j) * FVal.fin (allprobs.elem 0 j)) = _
  simp only [FVal.fin_mul]
  exact sumTo_fin _ _

theorem stepPure_foo_map_fin (allprobs : Mat β) (G : Mat β) (i : Nat) (s : Locals β) :
    (stepPure (FVal.log log) (allprobs.map .fin) (G.map .fin) i (s.map .fin)).foo =
      (stepPure log allprobs G i s).foo.map .fin := by
  show (⟨G.n_cols, fun j => sumTo s.phi.n_elem
      (fun k => FVal.fin (s.phi.elem k) * FVal.fin (G.elem k j)) *
        FVal.fin (allprobs.elem i j)⟩ : Rowvec (FVal β)) = _
  simp only [FVal.fin_mul, sumTo_fin]
  rfl

theorem stepPure_sumfoo_map_fin (allprobs : Mat β) (G : Mat β) (i : Nat) (s : Locals β) :
    (stepPure (FVal.log log) (allprobs.map .fin) (G.map .fin) i (s.map .fin)).sumfoo =
      .fin (stepPure log allprobs G i s).sumfoo := by
  show Rowvec.sum (stepPure (FVal.log log) (allprobs.map .fin) (G.map .fin) i
    (s.map .fin)).foo = _
  rw [stepPure_foo_map_fin]
  exact sumTo_fin _ _

theorem Rowvec.map_fin_divScalar (v : Rowvec β) (c : β) (hc : c ≠ 0) :
    (v.map FVal.fin).divScalar (FVal.fin c) = (v.divScalar c).map FVal.fin := by
  show (⟨v.n_elem, fun j => FVal.fin (v.elem j) / FVal.fin c⟩ : Rowvec (FVal β)) =
    ⟨v.n_elem, fun j => FVal.fin (v.elem j / c)⟩
  congr
  funext j
  exact FVal.fin_div_fin _ _ hc

/-- A step from finite locals whose normaliser is positive stays finite: it is
the step in the field. -/
theorem stepPure_map_fin (allprobs : Mat β) (G : Mat β) (i : Nat) (s : Locals β)
    (hc : 0 < (stepPure log allprobs G i s).sumfoo) :
    stepPure (FVal.log log) (allprobs.map .fin) (G.map .fin) i (s.map .fin) =
      (stepPure log allprobs G i s).map .fin := by
  have hfoo := stepPure_foo_map_fin log allprobs G i s
  have hsum := stepPure_sumfoo_map_fin log allprobs G i s
  have e : stepPure (FVal.log log) (allprobs.map .fin) (G.map .fin) i (s.map .fin) =
      ⟨(stepPure log allprobs G i s).foo.map .fin,
        .fin (stepPure log allprobs G i s).sumfoo,
        .fin s.l + FVal.log log (.fin (stepPure log allprobs G i s).sumfoo),
        ((stepPure log allprobs G i s).foo.map .fin).divScalar
          (.fin (stepPure log allprobs G i s).sumfoo)⟩ := by
    rw [← hfoo, ← hsum]
    rfl
  rw [e, FVal.log_fin_pos log _ hc, FVal.fin_add,
    Rowvec.map_fin_divScalar _ _ (ne_of_gt hc)]
  rfl

theorem initPure_map_fin (allprobs : Mat β) (delta : Rowvec β)
    (hc : 0 < (initPure log allprobs delta).sumfoo) :
    initPure (FVal.log log) (allprobs.map .fin) (delta.map .fin) =
      (initPure log allprobs delta).map .fin := by
  have hfoo := initPure_foo_map_fin log allprobs delta
  have hsum := initPure_sumfoo_map_fin log allprobs delta
  have e : initPure (FVal.log log) (allprobs.map .fin) (delta.map .fin) =
      ⟨(initPure log allprobs delta).foo.map .fin,
        .fin (initPure log allprobs delta).sumfoo,
        FVal.log log (.fin (initPure log allprobs delta).sumfoo),
        ((initPure log allprobs delta).foo.map .fin).divScalar
          (.fin (initPure log allprobs delta).sumfoo)⟩ := by
    rw [← hfoo, ← hsum]
    rfl
  rw [e, FVal.log_fin_pos log _ hc, Rowvec.map_fin_divScalar _ _ (ne_of_gt hc)]
  rfl

/-- A step from finite locals whose normaliser is zero: `l` becomes `-inf` and
`phi[0] = 0/0` is `NaN`. -/
theorem stepPure_dying (allprobs : Mat β) (G : Mat β) (i : Nat) (s : Locals β)
    (hN : 0 < G.n_cols) (hc : (stepPure log allprobs G i s).sumfoo = 0)
    (h0 : (stepPure log allprobs G i s).foo.elem 0 = 0) :
    (stepPure (FVal.log log) (allprobs.map .fin) (G.map .fin) i (s.map .fin)).l = .ninf ∧
      (stepPure (FVal.log log) (allprobs.map .fin) (G.map .fin) i (s.map .fin)).Dead := by
  have hfoo := stepPure_foo_map_fin log allprobs G i s
  have hsum := stepPure_sumfoo_map_fin log allprobs G i s
  rw [hc] at hsum
  refine ⟨?_, hN, ?_⟩
  · show FVal.fin s.l + FVal.log log
      (stepPure (FVal.log log) (allprobs.map .fin) (G.map .fin) i (s.map .fin)).sumfoo = _
    rw [hsum, FVal.log_fin_zero]
    rfl
  · show (stepPure (FVal.log log) (allprobs.map .fin) (G.map .fin) i (s.map .fin)).foo.elem 0 /
      (stepPure (FVal.log log) (allprobs.map .fin) (G.map .fin) i (s.map .fin)).sumfoo = _
    rw [hsum, hfoo]
    show FVal.fin ((stepPure log allprobs G i s).foo.elem 0) / FVal.fin 0 = _
    rw [h0]
    exact FVal.zero_div_zero

theorem initPure_dying (allprobs : Mat β) (delta : Rowvec β) (hN : 0 < delta.n_elem)
    (hc : (initPure log allprobs delta).sumfoo = 0)
    (h0 : (initPure log allprobs delta).foo.elem 0 = 0) :
    (initPure (FVal.log log) (allprobs.map .fin) (delta.map .fin)).l = .ninf ∧
      (initPure (FVal.log log) (allprobs.map .fin) (delta.map .fin)).Dead := by
  have hfoo := initPure_foo_map_fin log allprobs delta
  have hsum := initPure_sumfoo_map_fin log allprobs delta
  rw [hc] at hsum
  refine ⟨?_, hN, ?_⟩
  · show FVal.log log
      (initPure (FVal.log log) (allprobs.map .fin) (delta.map .fin)).sumfoo = _
    rw [hsum, FVal.log_fin_zero]
  · show (initPure (FVal.log log) (allprobs.map .fin) (delta.map .fin)).foo.elem 0 /
      (initPure (FVal.log log) (allprobs.map .fin) (delta.map .fin)).sumfoo = _
    rw [hsum, hfoo]
    show FVal.fin ((initPure log allprobs delta).foo.elem 0) / FVal.fin 0 = _
    rw [h0]
    exact FVal.zero_div_zero

/-- A step from locals whose `phi[0]` is `NaN`: `l` becomes `NaN` and `phi[0]`
stays `NaN`. -/
theorem stepPure_dead (allprobs G : Mat (FVal β)) (i : Nat) (s : Locals (FVal β))
    (hD : s.Dead) (hN : 0 < G.n_cols) :
    (stepPure (FVal.log log) allprobs G i s).l = .nan ∧
      (stepPure (FVal.log log) allprobs G i s).Dead := by
  obtain ⟨hn, h0⟩ := hD
  have hfoo : ∀ j, (stepPure (FVal.log log) allprobs G i s).foo.elem j = .nan := by
    intro j
    show sumTo s.phi.n_elem (fun k => s.phi.elem k * G.elem k j) * allprobs.elem i j = _
    rw [sumTo_nan _ _ hn (by rw [h0, FVal.nan_mul]), FVal.nan_mul]
  have hsum : (stepPure (FVal.log log) allprobs G i s).sumfoo = .nan :=
    sumTo_nan _ _ hN (hfoo 0)
  refine ⟨?_, hN, ?_⟩
  · show s.l + FVal.log log (stepPure (FVal.log log) allprobs G i s).sumfoo = _
    rw [hsum, FVal.log_nan, FVal.add_nan]
  · show (stepPure (FVal.log log) allprobs G i s).foo.elem 0 /
      (stepPure (FVal.log log) allprobs G i s).sumfoo = _
    rw [hfoo 0, FVal.nan_div]

/-! ### The run with special values against the run in the field -/

theorem statePure_invariant (allprobs : Mat β) (delta : Rowvec β) (Gs : Nat → Mat β)
    (hd : delta.n_elem = allprobs.n_cols)
    (hGr : ∀ i, 1 ≤ i → (Gs i).n_rows = allprobs.n_cols)
    (hGc : ∀ i, 1 ≤ i → (Gs i).n_cols = allprobs.n_cols)
    (hdelta : delta.Nonneg) (hA : allprobs.Nonneg)
    (hG : ∀ i, 1 ≤ i → i < allprobs.n_rows → (Gs i).Nonneg) :
    ∀ t, t < allprobs.n_rows →
      (statePure log allprobs delta Gs t).Normalised ∧
        (statePure log allprobs delta Gs t).foo.Nonneg := by
  intro t
  induction t with
  | zero =>
    intro ht
    exact ⟨initPure_normalised log allprobs delta,
      initPure_foo_nonneg log allprobs delta ht hd hdelta hA⟩
  | succ t ih =>
    intro ht
    obtain ⟨hN, hf⟩ := ih (by omega)
    refine ⟨stepPure_normalised log allprobs _ _ _, ?_⟩
    refine stepPure_foo_nonneg log allprobs (Gs (t + 1)) (t + 1) _ ?_ ht
      (hGc (t + 1) (by omega)) (hN.phi_nonneg hf) (hG (t + 1) (by omega) ht) hA
    rw [statePure_phi_n_elem log allprobs delta Gs hd hGc t, hGr (t + 1) (by omega)]

theorem statePure_sumfoo_nonneg (allprobs : Mat β) (delta : Rowvec β) (Gs : Nat → Mat β)
    (hd : delta.n_elem = allprobs.n_cols)
    (hGr : ∀ i, 1 ≤ i → (Gs i).n_rows = allprobs.n_cols)
    (hGc : ∀ i, 1 ≤ i → (Gs i).n_cols = allprobs.n_cols)
    (hdelta : delta.Nonneg) (hA : allprobs.Nonneg)
    (hG : ∀ i, 1 ≤ i → i < allprobs.n_rows → (Gs i).Nonneg)
    (t : Nat) (ht : t < allprobs.n_rows) :
    0 ≤ (statePure log allprobs delta Gs t).sumfoo := by
  obtain ⟨hN, hf⟩ := statePure_invariant log allprobs delta Gs hd hGr hGc hdelta hA hG t ht
  rw [hN.1]
  exact sumTo_nonneg _ _ hf

theorem statePure_foo_zero (allprobs : Mat β) (delta : Rowvec β) (Gs : Nat → Mat β)
    (hd : delta.n_elem = allprobs.n_cols)
    (hGr : ∀ i, 1 ≤ i → (Gs i).n_rows = allprobs.n_cols)
    (hGc : ∀ i, 1 ≤ i → (Gs i).n_cols = allprobs.n_cols)
    (hdelta : delta.Nonneg) (hA : allprobs.Nonneg)
    (hG : ∀ i, 1 ≤ i → i < allprobs.n_rows → (Gs i).Nonneg)
    (t : Nat) (ht : t < allprobs.n_rows)
    (hc : (statePure log allprobs delta Gs t).sumfoo = 0) (j : Nat)
    (hj : j < (statePure log allprobs delta Gs t).foo.n_elem) :
    (statePure log allprobs delta Gs t).foo.elem j = 0 := by
  obtain ⟨hN, hf⟩ := statePure_invariant log allprobs delta Gs hd hGr hGc hdelta hA hG t ht
  have hle := le_sumTo _ _ hf j hj
  have hs : sumTo (statePure log allprobs delta Gs t).foo.n_elem
      (statePure log allprobs delta Gs t).foo.elem = 0 := by
    rw [← hc, hN.1]
    rfl
  rw [hs] at hle
  exact le_antisymm hle (hf j hj)

theorem statePure_foo_n_elem (allprobs : Mat β) (delta : Rowvec β) (Gs : Nat → Mat β)
    (hd : delta.n_elem = allprobs.n_cols)
    (hGc : ∀ i, 1 ≤ i → (Gs i).n_cols = allprobs.n_cols) (t : Nat) :
    (statePure log allprobs delta Gs t).foo.n_elem = allprobs.n_cols := by
  cases t with
  | zero => exact hd
  | succ t => exact hGc (t + 1) (by omega)

/-- While every normaliser is positive, the locals of the run with special
values are the locals of the run in the field. -/
theorem statePure_alive (allprobs : Mat β) (delta : Rowvec β) (Gs : Nat → Mat β) :
    ∀ t, (∀ u, u ≤ t → 0 < (statePure log allprobs delta Gs u).sumfoo) →
      statePure (FVal.log log) (allprobs.map .fin) (delta.map .fin)
          (fun i => (Gs i).map .fin) t =
        (statePure log allprobs delta Gs t).map .fin := by
  intro t
  induction t with
  | zero =>
    intro h
    exact initPure_map_fin log allprobs delta (h 0 (Nat.le_refl 0))
  | succ t ih =>
    intro h
    show stepPure (FVal.log log) (allprobs.map .fin) ((Gs (t + 1)).map .fin) (t + 1)
      (statePure (FVal.log log) (allprobs.map .fin) (delta.map .fin)
        (fun i => (Gs i).map .fin) t) = _
    rw [ih (fun u hu => h u (by omega))]
    exact stepPure_map_fin log allprobs (Gs (t + 1)) (t + 1) _ (h (t + 1) (Nat.le_refl _))

/-- The first step whose normaliser is zero leaves `l = -inf` and `phi[0] = NaN`. -/
theorem statePure_dying (allprobs : Mat β) (delta : Rowvec β) (Gs : Nat → Mat β)
    (hN : 0 < allprobs.n_cols) (hd : delta.n_elem = allprobs.n_cols)
    (hGr : ∀ i, 1 ≤ i → (Gs i).n_rows = allprobs.n_cols)
    (hGc : ∀ i, 1 ≤ i → (Gs i).n_cols = allprobs.n_cols)
    (hdelta : delta.Nonneg) (hA : allprobs.Nonneg)
    (hG : ∀ i, 1 ≤ i → i < allprobs.n_rows → (Gs i).Nonneg)
    (t : Nat) (ht : t < allprobs.n_rows)
    (hpos : ∀ u, u < t → 0 < (statePure log allprobs delta Gs u).sumfoo)
    (hc : (statePure log allprobs delta Gs t).sumfoo = 0) :
    (statePure (FVal.log log) (allprobs.map .fin) (delta.map .fin)
        (fun i => (Gs i).map .fin) t).l = .ninf ∧
      (statePure (FVal.log log) (allprobs.map .fin) (delta.map .fin)
        (fun i => (Gs i).map .fin) t).Dead := by
  have h0 := statePure_foo_zero log allprobs delta Gs hd hGr hGc hdelta hA hG t ht hc 0
    (by rw [statePure_foo_n_elem log allprobs delta Gs hd hGc t]; exact hN)
  cases t with
  | zero => exact initPure_dying log allprobs delta (by omega) hc h0
  | succ t =>
    show (stepPure (FVal.log log) (allprobs.map .fin) ((Gs (t + 1)).map .fin) (t + 1)
        (statePure (FVal.log log) (allprobs.map .fin) (delta.map .fin)
          (fun i => (Gs i).map .fin) t)).l = .ninf ∧
      (stepPure (FVal.log log) (allprobs.map .fin) ((Gs (t + 1)).map .fin) (t + 1)
        (statePure (FVal.log log) (allprobs.map .fin) (delta.map .fin)
          (fun i => (Gs i).map .fin) t)).Dead
    rw [statePure_alive log allprobs delta Gs t (fun u hu => hpos u (by omega))]
    exact stepPure_dying log allprobs (Gs (t + 1)) (t + 1) _
      (by rw [hGc (t + 1) (by omega)]; exact hN) hc h0

/-- After the step that left `phi[0] = NaN`, every later step leaves `l = NaN`. -/
theorem statePure_dead (allprobs : Mat (FVal β)) (delta : Rowvec (FVal β))
    (Gs : Nat → Mat (FVal β)) (hG : ∀ i, 1 ≤ i → 0 < (Gs i).n_cols) (t : Nat)
    (hD : (statePure (FVal.log log) allprobs delta Gs t).Dead) :
    ∀ d, (statePure (FVal.log log) allprobs delta Gs (t + d + 1)).l = .nan ∧
      (statePure (FVal.log log) allprobs delta Gs (t + d + 1)).Dead := by
  intro d
  induction d with
  | zero => exact stepPure_dead log allprobs (Gs (t + 1)) (t + 1) _ hD (hG _ (by omega))
  | succ d ih =>
    exact stepPure_dead log allprobs (Gs (t + d + 1 + 1)) (t + d + 1 + 1) _ ih.2
      (hG _ (by omega))

/-- At every step, either all normalisers so far were positive or `phi[0]` is
`NaN`. -/
theorem statePure_alive_or_dead (allprobs : Mat β) (delta : Rowvec β) (Gs : Nat → Mat β)
    (hN : 0 < allprobs.n_cols) (hd : delta.n_elem = allprobs.n_cols)
    (hGr : ∀ i, 1 ≤ i → (Gs i).n_rows = allprobs.n_cols)
    (hGc : ∀ i, 1 ≤ i → (Gs i).n_cols = allprobs.n_cols)
    (hdelta : delta.Nonneg) (hA : allprobs.Nonneg)
    (hG : ∀ i, 1 ≤ i → i < allprobs.n_rows → (Gs i).Nonneg) :
    ∀ t, t < allprobs.n_rows →
      (∀ u, u ≤ t → 0 < (statePure log allprobs delta Gs u).sumfoo) ∨
        (statePure (FVal.log log) (allprobs.map .fin) (delta.map .fin)
          (fun i => (Gs i).map .fin) t).Dead := by
  have hstep : ∀ t, t < allprobs.n_rows →
      (∀ u, u < t → 0 < (statePure log allprobs delta Gs u).sumfoo) →
      (∀ u, u ≤ t → 0 < (statePure log allprobs delta Gs u).sumfoo) ∨
        (statePure (FVal.log log) (allprobs.map .fin) (delta.map .fin)
          (fun i => (Gs i).map .fin) t).Dead := by
    intro t ht hpos
    have hnn := statePure_sumfoo_nonneg log allprobs delta Gs hd hGr hGc hdelta hA hG t ht
    rcases lt_or_eq_of_le hnn with hlt | heq
    · left
      intro u hu
      rcases Nat.lt_or_eq_of_le hu with h1 | h1
      · exact hpos u h1
      · rw [h1]; exact hlt
    · right
      exact (statePure_dying log allprobs delta Gs hN hd hGr hGc hdelta hA hG t ht hpos
        heq.symm).2
  intro t
  induction t with
  | zero => intro ht; exact hstep 0 ht (fun u hu => absurd hu (Nat.not_lt_zero u))
  | succ t ih =>
    intro ht
    rcases ih (by omega) with hpos | hD
    · exact hstep (t + 1) ht (fun u hu => hpos u (by omega))
    · right
      have := statePure_dead log (allprobs.map .fin) (delta.map .fin)
        (fun i => (Gs i).map .fin) (fun i hi => by
          show 0 < (Gs i).n_cols
          rw [hGc i hi]; exact hN) t hD 0
      exact this.2

/-- A zero normaliser at a step before the last one makes the final `l` `NaN`. -/
theorem statePure_l_nan (allprobs : Mat β) (delta : Rowvec β) (Gs : Nat → Mat β)
    (hN : 0 < allprobs.n_cols) (hd : delta.n_elem = allprobs.n_cols)
    (hGr : ∀ i, 1 ≤ i → (Gs i).n_rows = allprobs.n_cols)
    (hGc : ∀ i, 1 ≤ i → (Gs i).n_cols = allprobs.n_cols)
    (hdelta : delta.Nonneg) (hA : allprobs.Nonneg)
    (hG : ∀ i, 1 ≤ i → i < allprobs.n_rows → (Gs i).Nonneg)
    (t0 t : Nat) (h0 : t0 < t) (ht : t < allprobs.n_rows)
    (hc : (statePure log allprobs delta Gs t0).sumfoo = 0) :
    (statePure (FVal.log log) (allprobs.map .fin) (delta.map .fin)
      (fun i => (Gs i).map .fin) t).l = .nan := by
  have hD : (statePure (FVal.log log) (allprobs.map .fin) (delta.map .fin)
      (fun i => (Gs i).map .fin) t0).Dead := by
    rcases statePure_alive_or_dead log allprobs delta Gs hN hd hGr hGc hdelta hA hG t0
      (by omega) with hpos | hD
    · have := hpos t0 (Nat.le_refl _)
      rw [hc] at this
      exact absurd this (lt_irrefl 0)
    · exact hD
  have := statePure_dead log (allprobs.map .fin) (delta.map .fin)
    (fun i => (Gs i).map .fin) (fun i hi => by
      show 0 < (Gs i).n_cols
      rw [hGc i hi]; exact hN) t0 hD (t - t0 - 1)
  have e : t0 + (t - t0 - 1) + 1 = t := by omega
  rw [e] at this
  exact this.1

theorem statePure_zeroRow_sumfoo (allprobs : Mat β) (delta : Rowvec β) (Gs : Nat → Mat β)
    (hd : delta.n_elem = allprobs.n_cols)
    (hGc : ∀ i, 1 ≤ i → (Gs i).n_cols = allprobs.n_cols) (t : Nat)
    (hz : allprobs.ZeroRow t) :
    (statePure log allprobs delta Gs t).sumfoo = 0 := by
  have hfoo : ∀ j, j < allprobs.n_cols →
      (statePure log allprobs delta Gs t).foo.elem j = 0 := by
    intro j hj
    cases t with
    | zero =>
      show delta.elem j * allprobs.elem 0 j = 0
      rw [hz j hj, mul_zero]
    | succ t =>
      show _ * allprobs.elem (t + 1) j = 0
      rw [hz j hj, mul_zero]
  have hsum : (statePure log allprobs delta Gs t).sumfoo =
      sumTo (statePure log allprobs delta Gs t).foo.n_elem
        (statePure log allprobs delta Gs t).foo.elem := by
    cases t <;> rfl
  rw [hsum, statePure_foo_n_elem log allprobs delta Gs hd hGc t, sumTo_eq_sum]
  exact Finset.sum_eq_zero (fun j hj => hfoo j (Finset.mem_range.1 hj))

/-! ### Normalisation with special values -/

theorem FVal.div_nan (x : FVal β) : x / FVal.nan = .nan := by
  cases x <;> rfl

theorem FVal.add_eq_fin (a b : FVal β) (c : β) (h : a + b = .fin c) :
    ∃ x y, a = .fin x ∧ b = .fin y ∧ x + y = c := by
  cases a <;> cases b <;> first
    | (rename_i x y; exact ⟨x, y, rfl, rfl, FVal.fin.inj h⟩)
    | cases h

theorem list_sum_eq_fin (f : Nat → FVal β) :
    ∀ (l : List Nat) (c : β), (l.map f).sum = .fin c →
      (∀ a, a ∈ l → f a = .fin (f a).toField) ∧
        (l.map (fun j => (f j).toField)).sum = c := by
  intro l
  induction l with
  | nil =>
    intro c h
    refine ⟨fun a ha => absurd ha (List.not_mem_nil a), ?_⟩
    exact FVal.fin.inj h
  | cons a l ih =>
    intro c h
    rw [List.map_cons, List.sum_cons] at h
    obtain ⟨x, y, hx, hy, hxy⟩ := FVal.add_eq_fin _ _ c h
    obtain ⟨h1, h2⟩ := ih y hy
    constructor
    · intro b hb
      rcases List.mem_cons.1 hb with rfl | hb
      · rw [hx]; rfl
      · exact h1 b hb
    · rw [List.map_cons, List.sum_cons, h2, hx]
      exact hxy

theorem sumTo_eq_fin (n : Nat) (f : Nat → FVal β) (c : β) (h : sumTo n f = .fin c) :
    (∀ j, j < n → f j = .fin (f j).toField) ∧ sumTo n (fun j => (f j).toField) = c := by
  obtain ⟨h1, h2⟩ := list_sum_eq_fin f (List.range n) c h
  exact ⟨fun j hj => h1 j (List.mem_range.2 hj), h2⟩


theorem Locals.Normalised.phi_special {s : Locals (FVal β)} (hN : s.Normalised) (c : β)
    (hc : s.sumfoo = .fin c) (hne : c ≠ 0) :
    (∀ j, j < s.foo.n_elem → s.foo.elem j = .fin (s.foo.elem j).toField) ∧
      sumTo s.foo.n_elem (fun j => (s.foo.elem j).toField) = c ∧
      s.phi.n_elem = s.foo.n_elem ∧
      (∀ j, j < s.foo.n_elem → s.phi.elem j = .fin ((s.foo.elem j).toField / c)) ∧
      s.phi.sum = .fin 1 := by
  obtain ⟨h1, h2⟩ := hN
  have hsum : sumTo s.foo.n_elem s.foo.elem = .fin c := by
    rw [← hc, h1]
    rfl
  obtain ⟨hfin, htot⟩ := sumTo_eq_fin _ _ c hsum
  have hphi : ∀ j, j < s.foo.n_elem →
      s.phi.elem j = .fin ((s.foo.elem j).toField / c) := by
    intro j hj
    rw [h2]
    show s.foo.elem j / s.sumfoo = _
    rw [hc, hfin j hj]
    exact FVal.fin_div_fin _ _ hne
  refine ⟨hfin, htot, by rw [h2]; rfl, hphi, ?_⟩
  have hn : s.phi.n_elem = s.foo.n_elem := by rw [h2]; rfl
  show sumTo s.phi.n_elem s.phi.elem = _
  rw [hn, sumTo_congr _ _ _ hphi, sumTo_fin, sumTo_div, htot, div_self hne]

theorem FVal.NonnegOrNan.add {a b : FVal β} (ha : a.NonnegOrNan) (hb : b.NonnegOrNan) :
    (a + b).NonnegOrNan := by
  rcases ha with rfl | ⟨x, hx, rfl⟩
  · left; exact FVal.nan_add _
  · rcases hb with rfl | ⟨y, hy, rfl⟩
    · left; exact FVal.add_nan _
    · right; exact ⟨x + y, add_nonneg hx hy, rfl⟩

theorem FVal.mul_nan (x : FVal β) : x * FVal.nan = .nan := by
  cases x <;> rfl

theorem FVal.NonnegOrNan.mul {a b : FVal β} (ha : a.NonnegOrNan) (hb : b.NonnegOrNan) :
    (a * b).NonnegOrNan := by
  rcases ha with rfl | ⟨x, hx, rfl⟩
  · left; exact FVal.nan_mul _
  · rcases hb with rfl | ⟨y, hy, rfl⟩
    · left; exact FVal.mul_nan _
    · right; exact ⟨x * y, mul_nonneg hx hy, rfl⟩

theorem list_sum_nonnegOrNan (f : Nat → FVal β) (l : List Nat)
    (h : ∀ a, a ∈ l → (f a).NonnegOrNan) : ((l.map f).sum).NonnegOrNan := by
  induction l with
  | nil => right; exact ⟨0, le_refl 0, rfl⟩
  | cons a l ih =>
    rw [List.map_cons, List.sum_cons]
    exact (h a (List.mem_cons_self a l)).add
      (ih (fun b hb => h b (List.mem_cons_of_mem a hb)))

theorem sumTo_nonnegOrNan (n : Nat) (f : Nat → FVal β)
    (h : ∀ j, j < n → (f j).NonnegOrNan) : (sumTo n f).NonnegOrNan :=
  list_sum_nonnegOrNan f (List.range n) (fun a ha => h a (List.mem_range.1 ha))

theorem FVal.NonnegOrNan.toField_nonneg {a : FVal β} (ha : a.NonnegOrNan) :
    0 ≤ a.toField := by
  rcases ha with rfl | ⟨x, hx, rfl⟩
  · exact le_refl 0
  · exact hx

/-- With `foo` made of `NaN` and non-negative numbers, so is `phi = foo/sum(foo)`. -/
theorem Locals.Normalised.phi_nonnegOrNan {s : Locals (FVal β)} (hN : s.Normalised)
    (hfoo : ∀ j, j < s.foo.n_elem → (s.foo.elem j).NonnegOrNan) :
    ∀ j, j < s.phi.n_elem → (s.phi.elem j).NonnegOrNan := by
  have hn : s.phi.n_elem = s.foo.n_elem := by rw [hN.2]; rfl
  intro j hj
  rw [hn] at hj
  have hS : (s.sumfoo).NonnegOrNan := by
    rw [hN.1]
    exact sumTo_nonnegOrNan _ _ hfoo
  have hphi : s.phi.elem j = s.foo.elem j / s.sumfoo := by rw [hN.2]; rfl
  rcases hS with hnan | ⟨c, hc0, hc⟩
  · left
    rw [hphi, hnan, FVal.div_nan]
  · by_cases hne : c = 0
    · subst hne
      have hsum : sumTo s.foo.n_elem s.foo.elem = .fin 0 := by
        rw [← hc, hN.1]
        rfl
      obtain ⟨hfin, htot⟩ := sumTo_eq_fin _ _ 0 hsum
      have hle := le_sumTo s.foo.n_elem (fun j => (s.foo.elem j).toField)
        (fun i hi => (hfoo i hi).toField_nonneg) j hj
      rw [htot] at hle
      have hz : (s.foo.elem j).toField = 0 :=
        le_antisymm hle (hfoo j hj).toField_nonneg
      left
      rw [hphi, hc, hfin j hj, hz]
      exact FVal.zero_div_zero
    · obtain ⟨_, _, _, hval, _⟩ := hN.phi_special c hc hne
      right
      exact ⟨_, div_nonneg (hfoo j hj).toField_nonneg hc0, hval j hj⟩

theorem stepPure_foo_nonnegOrNan (log : β → β) (allprobs : Mat β) (G : Mat β) (i : Nat)
    (s : Locals (FVal β)) (hphi : s.phi.n_elem = G.n_rows) (hi : i < allprobs.n_rows)
    (hG : G.n_cols = allprobs.n_cols)
    (hs : ∀ j, j < s.phi.n_elem → (s.phi.elem j).NonnegOrNan) (hGn : G.Nonneg)
    (hA : allprobs.Nonneg) :
    ∀ j, j < (stepPure (FVal.log log) (allprobs.map .fin) (G.map .fin) i s).foo.n_elem →
      ((stepPure (FVal.log log) (allprobs.map .fin) (G.map .fin) i s).foo.elem j).NonnegOrNan := by
  intro j hj
  have hj1 : j < G.n_cols := hj
  show (sumTo s.phi.n_elem (fun k => s.phi.elem k * FVal.fin (G.elem k j)) *
    FVal.fin (allprobs.elem i j)).NonnegOrNan
  refine FVal.NonnegOrNan.mul (sumTo_nonnegOrNan _ _ ?_)
    (Or.inr ⟨_, hA i j hi (by omega), rfl⟩)
  intro k hk
  exact (hs k hk).mul (Or.inr ⟨_, hGn k j (by omega) hj1, rfl⟩)


theorem sel_run_distribution_special (log : β → β) (allprobs : Mat β) (delta : Rowvec β)
    (sel : Nat → Except ArmaError (Mat (FVal β))) (k : Nat) (s : Locals (FVal β))
    (hs : sel_locals (FVal.log log) (allprobs.map .fin) (delta.map .fin) sel k = .ok s)
    (c : β) (hc : s.sumfoo = .fin c) (hne : c ≠ 0) :
    s.phi.sum = .fin 1 ∧
      (delta.Nonneg → allprobs.Nonneg →
        (∀ i G1, sel i = .ok G1 → ∃ G : Mat β, G.Nonneg ∧ G1 = G.map .fin) →
        ∀ j, j < s.phi.n_elem → ∃ x, s.phi.elem j = .fin x ∧ 0 ≤ x ∧ x ≤ 1) := by
  have hN : s.Normalised :=
    sel_run_induction (FVal.log log) (allprobs.map .fin) (delta.map .fin) sel
      Locals.Normalised (fun _ _ => initPure_normalised _ _ _)
      (fun i G t _ _ _ _ _ => stepPure_normalised _ _ G i t) k s hs
  obtain ⟨hfin, htot, hn, hval, hsum⟩ := hN.phi_special c hc hne
  refine ⟨hsum, ?_⟩
  intro hdelta hA hsel j hj
  have hP := sel_run_induction (FVal.log log) (allprobs.map .fin) (delta.map .fin) sel
    (fun t => t.Normalised ∧ ∀ j, j < t.foo.n_elem → (t.foo.elem j).NonnegOrNan)
    (fun h1 hd => ⟨initPure_normalised _ _ _, fun j hj =>
      Or.inr ⟨_, mul_nonneg (hdelta j hj) (hA 0 j h1 (by
        have : delta.n_elem = allprobs.n_cols := hd
        have : j < delta.n_elem := hj
        omega)), rfl⟩⟩)
    (fun i G1 t hG1 e1 e2 e3 ht => by
      obtain ⟨G, hGn, rfl⟩ := hsel i G1 hG1
      exact ⟨stepPure_normalised _ _ _ i t,
        stepPure_foo_nonnegOrNan log allprobs G i t e1 e2 e3
          (ht.1.phi_nonnegOrNan ht.2) hGn hA⟩) k s hs
  rw [hn] at hj
  have hr : ∀ i, i < s.foo.n_elem → 0 ≤ (s.foo.elem i).toField :=
    fun i hi => (hP.2 i hi).toField_nonneg
  have hle := le_sumTo s.foo.n_elem (fun j => (s.foo.elem j).toField) hr j hj
  rw [htot] at hle
  have hc0 : 0 ≤ c := le_trans (hr j hj) hle
  exact ⟨_, hval j hj, div_nonneg (hr j hj) hc0, div_le_one_of_le₀ hle hc0⟩

/-- The normalisation of `phi` in the arithmetic with special values: after
every number `k` of loop iterations of each of the three functions on finite
inputs, if the normaliser `sumfoo` is a non-zero number (not `NaN`, not an
infinity), the entries of `phi` are numbers of sum 1; with non-negative inputs
they lie in `[0,1]`. -/
theorem phi_is_distribution_special (log : β → β) (allprobs : Mat β) (delta : Rowvec β) :
    (∀ (Gamma : Mat β) (k : Nat) (s : Locals (FVal β)) (c : β),
        forward_cpp_h_locals (FVal.log log) (allprobs.map .fin) (delta.map .fin)
          (Gamma.map .fin) k = .ok s → s.sumfoo = .fin c → c ≠ 0 →
        s.phi.sum = .fin 1 ∧
          (delta.Nonneg → allprobs.Nonneg → Gamma.Nonneg →
            ∀ j, j < s.phi.n_elem → ∃ x, s.phi.elem j = .fin x ∧ 0 ≤ x ∧ x ≤ 1)) ∧
      (∀ (Gamma : Cube β) (k : Nat) (s : Locals (FVal β)) (c : β),
        forward_cpp_g_locals (FVal.log log) (allprobs.map .fin) (delta.map .fin)
          (Gamma.map .fin) k = .ok s → s.sumfoo = .fin c → c ≠ 0 →
        s.phi.sum = .fin 1 ∧
          (delta.Nonneg → allprobs.Nonneg → Gamma.Nonneg →
            ∀ j, j < s.phi.n_elem → ∃ x, s.phi.elem j = .fin x ∧ 0 ≤ x ∧ x ≤ 1)) ∧
      (∀ (Gamma : Cube β) (tod : StdVector) (k : Nat) (s : Locals (FVal β)) (c : β),
        forward_cpp_p_locals (FVal.log log) (allprobs.map .fin) (delta.map .fin)
          (Gamma.map .fin) tod k = .ok s → s.sumfoo = .fin c → c ≠ 0 →
        s.phi.sum = .fin 1 ∧
          (delta.Nonneg → allprobs.Nonneg → Gamma.Nonneg →
            ∀ j, j < s.phi.n_elem → ∃ x, s.phi.elem j = .fin x ∧ 0 ≤ x ∧ x ≤ 1)) := by
  refine ⟨?_, ?_, ?_⟩
  · intro Gamma k s c hs hc hne
    rw [forward_cpp_h_locals_eq_sel] at hs
    obtain ⟨h1, h2⟩ := sel_run_distribution_special log allprobs delta
      (fun _ => .ok (Gamma.map .fin)) k s hs c hc hne
    refine ⟨h1, fun hdelta hA hG => h2 hdelta hA ?_⟩
    intro i G1 hsel
    cases hsel
    exact ⟨Gamma, hG, rfl⟩
  · intro Gamma k s c hs hc hne
    rw [forward_cpp_g_locals_eq_sel] at hs
    obtain ⟨h1, h2⟩ := sel_run_distribution_special log allprobs delta
      (fun i => (Gamma.map FVal.fin).slice (i - 1)) k s hs c hc hne
    refine ⟨h1, fun hdelta hA hG => h2 hdelta hA ?_⟩
    intro i G1 hsel
    obtain ⟨hk, rfl⟩ := Cube.slice_ok (Gamma.map FVal.fin) _ G1 hsel
    exact ⟨Gamma.sliceAt (i - 1), hG.sliceAt _ hk, rfl⟩
  · intro Gamma tod k s c hs hc hne
    rw [forward_cpp_p_locals_eq_sel] at hs
    obtain ⟨h1, h2⟩ := sel_run_distribution_special log allprobs delta
      (fun i => (Gamma.map FVal.fin).slice (toUword (tod.data i))) k s hs c hc hne
    refine ⟨h1, fun hdelta hA hG => h2 hdelta hA ?_⟩
    intro i G1 hsel
    obtain ⟨hk, rfl⟩ := Cube.slice_ok (Gamma.map FVal.fin) _ G1 hsel
    exact ⟨Gamma.sliceAt (toUword (tod.data i)), hG.sliceAt _ hk, rfl⟩

end Special

/-! ## Positive normalisers -/

section Positive

variable {F : Type} [LinearOrderedField F]

/-- A weighted sum with non-negative weights of sum 1 and positive values is
positive. -/
theorem sumTo_weighted_pos (n : Nat) (w a : Nat → F) (hw : ∀ j, j < n → 0 ≤ w j)
    (hsum : sumTo n w = 1) (ha : ∀ j, j < n → 0 < a j) :
    0 < sumTo n (fun j => w j * a j) := by
  rw [sumTo_eq_sum]
  rw [sumTo_eq_sum] at hsum
  have hex : ∃ j ∈ Finset.range n, 0 < w j := by
    by_contra hno
    have hz : ∀ j ∈ Finset.range n, w j = 0 := by
      intro j hj
      have h1 : ¬ 0 < w j := fun h => hno ⟨j, hj, h⟩
      exact le_antisymm (not_lt.1 h1) (hw j (Finset.mem_range.1 hj))
    rw [Finset.sum_eq_zero hz] at hsum
    exact zero_ne_one hsum
  obtain ⟨j, hj, hjpos⟩ := hex
  refine Finset.sum_pos' ?_ ⟨j, hj, mul_pos hjpos (ha j (Finset.mem_range.1 hj))⟩
  intro i hi
  exact mul_nonneg (hw i (Finset.mem_range.1 hi)) (le_of_lt (ha i (Finset.mem_range.1 hi)))

/-- The product of a distribution with a row-stochastic matrix sums to 1. -/
theorem sumTo_mulMat_stochastic (n m : Nat) (phi : Nat → F) (G : Nat → Nat → F)
    (hphi : sumTo n phi = 1) (hG : ∀ k, k < n → sumTo m (fun j => G k j) = 1) :
    sumTo m (fun j => sumTo n (fun k => phi k * G k j)) = 1 := by
  rw [sumTo_eq_sum]
  simp only [sumTo_eq_sum] at hphi hG ⊢
  rw [Finset.sum_comm]
  rw [← hphi]
  refine Finset.sum_congr rfl ?_
  intro k hk
  rw [← Finset.mul_sum, hG k (Finset.mem_range.1 hk), mul_one]

/-- With `delta` a distribution, row-stochastic transition matrices and
entrywise positive rows `0, ..., t` of `allprobs`, the normaliser of step `t`
is positive. -/
theorem statePure_sumfoo_pos (log : F → F) (allprobs : Mat F) (delta : Rowvec F)
    (Gs : Nat → Mat F) (hd : delta.n_elem = allprobs.n_cols)
    (hGr : ∀ i, 1 ≤ i → (Gs i).n_rows = allprobs.n_cols)
    (hGc : ∀ i, 1 ≤ i → (Gs i).n_cols = allprobs.n_cols)
    (hdelta : delta.IsDistribution) (hA : allprobs.Nonneg)
    (hG : ∀ i, 1 ≤ i → i < allprobs.n_rows → (Gs i).RowStochastic) :
    ∀ t, t < allprobs.n_rows → (∀ u, u ≤ t → allprobs.PositiveRow u) →
      0 < (statePure log allprobs delta Gs t).sumfoo := by
  intro t
  induction t with
  | zero =>
    intro _ hpos
    show 0 < sumTo delta.n_elem (fun j => delta.elem j * allprobs.elem 0 j)
    exact sumTo_weighted_pos _ _ _ hdelta.1 hdelta.2
      (fun j hj => hpos 0 (Nat.le_refl 0) j (by omega))
  | succ t ih =>
    intro ht hpos
    have hc := ih (by omega) (fun u hu => hpos u (by omega))
    obtain ⟨hN, hf⟩ := statePure_invariant log allprobs delta Gs hd hGr hGc hdelta.1 hA
      (fun i h1 h2 => (hG i h1 h2).1) t (by omega)
    have hn := statePure_phi_n_elem log allprobs delta Gs hd hGc t
    have hsum : sumTo (statePure log allprobs delta Gs t).phi.n_elem
        (statePure log allprobs delta Gs t).phi.elem = 1 := hN.sum_phi (ne_of_gt hc)
    have hnn := hN.phi_nonneg hf
    have hGt := hG (t + 1) (by omega) ht
    show 0 < sumTo (Gs (t + 1)).n_cols
      (fun j => sumTo (statePure log allprobs delta Gs t).phi.n_elem
        (fun k => (statePure log allprobs delta Gs t).phi.elem k * (Gs (t + 1)).elem k j) *
          allprobs.elem (t + 1) j)
    refine sumTo_weighted_pos _ _ _ ?_ ?_ ?_
    · intro j hj
      refine sumTo_nonneg _ _ ?_
      intro k hk
      exact mul_nonneg (hnn k hk)
        (hGt.1 k j (by rw [hGr (t + 1) (by omega), ← hn]; exact hk) hj)
    · refine sumTo_mulMat_stochastic _ _ _ _ hsum ?_
      intro k hk
      exact hGt.2 k (by rw [hGr (t + 1) (by omega), ← hn]; exact hk)
    · intro j hj
      exact hpos (t + 1) (Nat.le_refl _) j (by rw [← hGc (t + 1) (by omega)]; exact hj)

end Positive

/-! ## An all-zero row of `allprobs` in exact arithmetic with special values -/

section ZeroRow

variable {F : Type} [LinearOrderedField F] (log : F → F)

/-- The final `l` of the run with special values when row `t` of `allprobs` is
all-zero: `NaN` if `t` is not the last row; `-inf` if it is the last row and
the earlier normalisers are kept positive by a distribution `delta`,
row-stochastic matrices and positive earlier rows. -/
theorem statePure_zeroRow (allprobs : Mat F) (delta : Rowvec F) (Gs : Nat → Mat F)
    (hN : 0 < allprobs.n_cols) (hd : delta.n_elem = allprobs.n_cols)
    (hGr : ∀ i, 1 ≤ i → (Gs i).n_rows = allprobs.n_cols)
    (hGc : ∀ i, 1 ≤ i → (Gs i).n_cols = allprobs.n_cols)
    (hdelta : delta.Nonneg) (hA : allprobs.Nonneg)
    (hG : ∀ i, 1 ≤ i → i < allprobs.n_rows → (Gs i).Nonneg)
    (t : Nat) (ht : t < allprobs.n_rows) (hz : allprobs.ZeroRow t) :
    (t + 1 < allprobs.n_rows →
        (statePure (FVal.log log) (allprobs.map .fin) (delta.map .fin)
          (fun i => (Gs i).map .fin) (allprobs.n_rows - 1)).l = .nan) ∧
      (t + 1 = allprobs.n_rows → delta.IsDistribution →
        (∀ i, 1 ≤ i → i < allprobs.n_rows → (Gs i).RowStochastic) →
        (∀ u, u < t → allprobs.PositiveRow u) →
        (statePure (FVal.log log) (allprobs.map .fin) (delta.map .fin)
          (fun i => (Gs i).map .fin) (allprobs.n_rows - 1)).l = .ninf) := by
  have hc := statePure_zeroRow_sumfoo log allprobs delta Gs hd hGc t hz
  constructor
  · intro hlt
    exact statePure_l_nan log allprobs delta Gs hN hd hGr hGc hdelta hA hG t
      (allprobs.n_rows - 1) (by omega) (by omega) hc
  · intro hlast hdist hstoch hpos
    have e : allprobs.n_rows - 1 = t := by omega
    rw [e]
    refine (statePure_dying log allprobs delta Gs hN hd hGr hGc hdelta hA hG t ht ?_ hc).1
    intro u hu
    exact statePure_sumfoo_pos log allprobs delta Gs hd hGr hGc hdist hA hstoch u
      (by omega) (fun v hv => hpos v (by omega))

theorem forward_cpp_h_zeroRow (allprobs : Mat F) (delta : Rowvec F) (Gamma : Mat F)
    (hN : 0 < allprobs.n_cols) (hd : delta.n_elem = allprobs.n_cols)
    (hGr : Gamma.n_rows = allprobs.n_cols) (hGc : Gamma.n_cols = allprobs.n_cols)
    (hdelta : delta.Nonneg) (hA : allprobs.Nonneg) (hG : Gamma.Nonneg)
    (t : Nat) (ht : t < allprobs.n_rows) (hz : allprobs.ZeroRow t) :
    (t + 1 < allprobs.n_rows →
        forward_cpp_h (FVal.log log) (allprobs.map .fin) (delta.map .fin)
          (Gamma.map .fin) = .ok .nan) ∧
      (t + 1 = allprobs.n_rows → delta.IsDistribution → Gamma.RowStochastic →
        (∀ u, u < t → allprobs.PositiveRow u) →
        forward_cpp_h (FVal.log log) (allprobs.map .fin) (delta.map .fin)
          (Gamma.map .fin) = .ok .ninf) := by
  have hrun := forward_cpp_h_eq (FVal.log log) (allprobs.map .fin) (delta.map .fin)
    (Gamma.map .fin) (by show 1 ≤ allprobs.n_rows; omega) hd hGr hGc
  obtain ⟨h1, h2⟩ := statePure_zeroRow log allprobs delta (fun _ => Gamma) hN hd
    (fun _ _ => hGr) (fun _ _ => hGc) hdelta hA (fun _ _ _ => hG) t ht hz
  constructor
  · intro hlt
    rw [hrun]
    exact congrArg Except.ok (h1 hlt)
  · intro hlast hdist hst hpos
    rw [hrun]
    exact congrArg Except.ok (h2 hlast hdist (fun _ _ _ => hst) hpos)

theorem forward_cpp_g_zeroRow (allprobs : Mat F) (delta : Rowvec F) (Gamma : Cube F)
    (hN : 0 < allprobs.n_cols) (hd : delta.n_elem = allprobs.n_cols)
    (hGr : Gamma.n_rows = allprobs.n_cols) (hGc : Gamma.n_cols = allprobs.n_cols)
    (hK : allprobs.n_rows - 1 ≤ Gamma.n_slices)
    (hdelta : delta.Nonneg) (hA : allprobs.Nonneg) (hG : Gamma.Nonneg)
    (t : Nat) (ht : t < allprobs.n_rows) (hz : allprobs.ZeroRow t) :
    (t + 1 < allprobs.n_rows →
        forward_cpp_g (FVal.log log) (allprobs.map .fin) (delta.map .fin)
          (Gamma.map .fin) = .ok .nan) ∧
      (t + 1 = allprobs.n_rows → delta.IsDistribution → Gamma.RowStochastic →
        (∀ u, u < t → allprobs.PositiveRow u) →
        forward_cpp_g (FVal.log log) (allprobs.map .fin) (delta.map .fin)
          (Gamma.map .fin) = .ok .ninf) := by
  have hrun := forward_cpp_g_eq (FVal.log log) (allprobs.map .fin) (delta.map .fin)
    (Gamma.map .fin) (by show 1 ≤ allprobs.n_rows; omega) hd hGr hGc hK
  obtain ⟨h1, h2⟩ := statePure_zeroRow log allprobs delta (fun i => Gamma.sliceAt (i - 1))
    hN hd (fun _ _ => hGr) (fun _ _ => hGc) hdelta hA
    (fun i hi1 hi2 => hG.sliceAt (i - 1) (by omega)) t ht hz
  constructor
  · intro hlt
    rw [hrun]
    exact congrArg Except.ok (h1 hlt)
  · intro hlast hdist hst hpos
    rw [hrun]
    exact congrArg Except.ok
      (h2 hlast hdist (fun i hi1 hi2 => hst (i - 1) (by omega)) hpos)

theorem forward_cpp_p_zeroRow (allprobs : Mat F) (delta : Rowvec F) (Gamma : Cube F)
    (tod : StdVector)
    (hN : 0 < allprobs.n_cols) (hd : delta.n_elem = allprobs.n_cols)
    (hGr : Gamma.n_rows = allprobs.n_cols) (hGc : Gamma.n_cols = allprobs.n_cols)
    (hK : Gamma.n_slices ≤ 2 ^ 64)
    (htod : ∀ i, 1 ≤ i → i ≤ allprobs.n_rows - 1 →
      0 ≤ tod.data i ∧ tod.data i < (Gamma.n_slices : Int))
    (hdelta : delta.Nonneg) (hA : allprobs.Nonneg) (hG : Gamma.Nonneg)
    (t : Nat) (ht : t < allprobs.n_rows) (hz : allprobs.ZeroRow t) :
    (t + 1 < allprobs.n_rows →
        forward_cpp_p (FVal.log log) (allprobs.map .fin) (delta.map .fin)
          (Gamma.map .fin) tod = .ok .nan) ∧
      (t + 1 = allprobs.n_rows → delta.IsDistribution → Gamma.RowStochastic →
        (∀ u, u < t → allprobs.PositiveRow u) →
        forward_cpp_p (FVal.log log) (allprobs.map .fin) (delta.map .fin)
          (Gamma.map .fin) tod = .ok .ninf) := by
  have hlab : ∀ i, 1 ≤ i → i ≤ allprobs.n_rows - 1 →
      toUword (tod.data i) < Gamma.n_slices := by
    intro i h1 h2
    obtain ⟨a, b⟩ := htod i h1 h2
    rw [toUword_eq_toNat (tod.data i) Gamma.n_slices hK a b]
    omega
  have hrun := forward_cpp_p_eq (FVal.log log) (allprobs.map .fin)
    (delta.map .fin) (Gamma.map .fin) tod
    (by show 1 ≤ allprobs.n_rows; omega) hd hGr hGc hlab
  obtain ⟨h1, h2⟩ := statePure_zeroRow log allprobs delta
    (fun i => Gamma.sliceAt (toUword (tod.data i)))
    hN hd (fun _ _ => hGr) (fun _ _ => hGc) hdelta hA
    (fun i hi1 hi2 => hG.sliceAt _ (hlab i hi1 (by omega))) t ht hz
  constructor
  · intro hlt
    rw [hrun]
    exact congrArg Except.ok (h1 hlt)
  · intro hlast hdist hst hpos
    rw [hrun]
    exact congrArg Except.ok
      (h2 hlast hdist (fun i hi1 hi2 => hst _ (hlab i hi1 (by omega))) hpos)

end ZeroRow

/-! ## The single-observation case and the agreement of the variants -/

theorem forward_init_eq [Zero α] [Add α] [Mul α] [Div α] (log : α → α)
    (allprobs : Mat α) (delta : Rowvec α) (h1 : 0 < allprobs.n_rows)
    (hd : delta.n_elem = allprobs.n_cols) :
    forward_init log allprobs delta =
      .ok ⟨⟨delta.n_elem, fun j => delta.elem j * allprobs.elem 0 j⟩,
        sumTo delta.n_elem (fun j => delta.elem j * allprobs.elem 0 j),
        log (sumTo delta.n_elem (fun j => delta.elem j * allprobs.elem 0 j)),
        ⟨delta.n_elem, fun j => delta.elem j * allprobs.elem 0 j /
          sumTo delta.n_elem (fun j => delta.elem j * allprobs.elem 0 j)⟩⟩ := by
  simp [forward_init, Mat.row, h1, Rowvec.schur, hd, Rowvec.sum, Rowvec.divScalar]

/-- C3. With a single observation (`nObs = 1`) and `delta` of the length `N` of
the row, each of the three functions returns
`log(sum_j delta[j]*allprobs[0,j])`, whatever `Gamma` and `tod` are (any
dimensions, any contents, an empty stack included): the loop body is not
executed. -/
theorem single_observation [Zero α] [Add α] [Mul α] [Div α] (log : α → α)
    (allprobs : Mat α) (delta : Rowvec α) (Gm : Mat α) (Gc : Cube α)
    (tod : StdVector) (hn : allprobs.n_rows = 1)
    (hd : delta.n_elem = allprobs.n_cols) :
    forward_cpp_h log allprobs delta Gm =
        .ok (log (sumTo allprobs.n_cols (fun j => delta.elem j * allprobs.elem 0 j))) ∧
      forward_cpp_g log allprobs delta Gc =
        .ok (log (sumTo allprobs.n_cols (fun j => delta.elem j * allprobs.elem 0 j))) ∧
      forward_cpp_p log allprobs delta Gc tod =
        .ok (log (sumTo allprobs.n_cols (fun j => delta.elem j * allprobs.elem 0 j))) := by
  have h1 : 0 < allprobs.n_rows := by omega
  have hi := forward_init_eq log allprobs delta h1 hd
  refine ⟨?_, ?_, ?_⟩
  · simp [forward_cpp_h, forward_cpp_h_locals, hn, hi, forLoop, hd]
  · simp [forward_cpp_g, forward_cpp_g_locals, hn, hi, forLoop, hd]
  · simp [forward_cpp_p, forward_cpp_p_locals, hn, hi, forLoop, hd]

theorem toUword_pred (i : Nat) (h1 : 1 ≤ i) (h2 : i ≤ 2 ^ 31) :
    toUword ((i : Int) - 1) = i - 1 := by
  unfold toUword
  have h3 : ((i : Int) - 1) % 2 ^ 64 = (i : Int) - 1 :=
    Int.emod_eq_of_lt (by omega) (by omega)
  rw [h3]
  omega

/-- C4. If every slice of the stack `Gamma` of `nObs-1` slices is the matrix
`G`, then `forward_cpp_g` on the stack and `forward_cpp_h` on `G` have the same
local variables `foo`, `sumfoo`, `l`, `phi` after every number `k <= nObs-1`
of loop iterations, and the same result (a value or an exception); nothing is
assumed on the entries. -/
theorem forward_cpp_g_eq_forward_cpp_h [Zero α] [Add α] [Mul α] [Div α]
    (log : α → α) (allprobs : Mat α) (delta : Rowvec α) (G : Mat α)
    (Gamma : Cube α) (hK : Gamma.n_slices = allprobs.n_rows - 1)
    (hG : ∀ k, k < Gamma.n_slices → Gamma.slice k = .ok G) :
    (∀ k, k ≤ allprobs.n_rows - 1 →
        forward_cpp_g_locals log allprobs delta Gamma k =
          forward_cpp_h_locals log allprobs delta G k) ∧
      forward_cpp_g log allprobs delta Gamma = forward_cpp_h log allprobs delta G := by
  have key : ∀ k, k ≤ allprobs.n_rows - 1 →
      forward_cpp_g_locals log allprobs delta Gamma k =
        forward_cpp_h_locals log allprobs delta G k := by
    intro k hk
    unfold forward_cpp_g_locals forward_cpp_h_locals
    cases forward_init log allprobs delta with
    | error e => rfl
    | ok s0 =>
      refine forLoop_congr _ _ k 1 s0 ?_
      intro i t h1 h2
      simp only [forward_cpp_g_body, forward_cpp_h_body, hG (i - 1) (by omega)]
  refine ⟨key, ?_⟩
  unfold forward_cpp_g forward_cpp_h
  simp only [key _ (Nat.le_refl _)]

/-- C5. If the stack `Gamma` has `K = nObs-1` slices and `tod` (a vector of
`int`) has length `nObs` with `tod[i] = i-1` for `i = 1, ..., nObs-1` (`tod[0]`
is arbitrary), then `forward_cpp_p` and `forward_cpp_g` return the same
result. -/
theorem forward_cpp_p_eq_forward_cpp_g [Zero α] [Add α] [Mul α] [Div α]
    (log : α → α) (allprobs : Mat α) (delta : Rowvec α) (Gamma : Cube α)
    (tod : StdVector) (hint : tod.IntValued)
    (_hK : Gamma.n_slices = allprobs.n_rows - 1)
    (_hsize : tod.size = allprobs.n_rows)
    (htod : ∀ i, 1 ≤ i → i ≤ allprobs.n_rows - 1 → tod.data i = (i : Int) - 1) :
    forward_cpp_p log allprobs delta Gamma tod = forward_cpp_g log allprobs delta Gamma := by
  have key : forward_cpp_p_locals log allprobs delta Gamma tod (allprobs.n_rows - 1) =
      forward_cpp_g_locals log allprobs delta Gamma (allprobs.n_rows - 1) := by
    unfold forward_cpp_p_locals forward_cpp_g_locals
    cases forward_init log allprobs delta with
    | error e => rfl
    | ok s0 =>
      refine forLoop_congr _ _ _ 1 s0 ?_
      intro i t h1 h2
      have hi := (hint i).2
      rw [htod i h1 (by omega)] at hi
      simp only [forward_cpp_p_body, forward_cpp_g_body, htod i h1 (by omega),
        toUword_pred i h1 (by omega)]
  unfold forward_cpp_p forward_cpp_g
  simp only [key]

/-- C6. If `Gamma` is the pool of one slice (`K = 1`), that slice being the
matrix `G`, and `tod` is the all-zero sequence of length `nObs`, then
`forward_cpp_p` on the pool and `forward_cpp_h` on `G` return the same
result. -/
theorem forward_cpp_p_eq_forward_cpp_h [Zero α] [Add α] [Mul α] [Div α]
    (log : α → α) (allprobs : Mat α) (delta : Rowvec α) (G : Mat α)
    (Gamma : Cube α) (tod : StdVector) (_hK : Gamma.n_slices = 1)
    (hG : Gamma.slice 0 = .ok G) (hsize : tod.size = allprobs.n_rows)
    (htod : ∀ i, i < tod.size → tod.data i = 0) :
    forward_cpp_p log allprobs delta Gamma tod = forward_cpp_h log allprobs delta G := by
  have key : forward_cpp_p_locals log allprobs delta Gamma tod (allprobs.n_rows - 1) =
      forward_cpp_h_locals log allprobs delta G (allprobs.n_rows - 1) := by
    unfold forward_cpp_p_locals forward_cpp_h_locals
    cases forward_init log allprobs delta with
    | error e => rfl
    | ok s0 =>
      refine forLoop_congr _ _ _ 1 s0 ?_
      intro i t h1 h2
      have h0 : toUword 0 = 0 := by decide
      simp only [forward_cpp_p_body, forward_cpp_h_body, htod i (by omega), h0, hG]
  unfold forward_cpp_p forward_cpp_h
  simp only [key]

/-! ## Validation of the stack length and of the labels -/

theorem exStack_slice [DivisionRing α] (n k : Nat) (h : k < n) :
    (exStack n : Cube α).slice k = .ok exGamma := by
  simp [Cube.slice, exStack, h, exGamma]

theorem single_observation_witness :
    ((exAllprobs1 : Mat ℝ).n_rows = 1 ∧
        (exDelta : Rowvec ℝ).n_elem = (exAllprobs1 : Mat ℝ).n_cols) ∧
      forward_cpp_h Real.log exAllprobs1 exDelta exGamma =
          .ok (Real.log (sumTo 2 (fun j => exDelta.elem j * exAllprobs1.elem 0 j))) ∧
        forward_cpp_g Real.log exAllprobs1 exDelta (exStack 0) =
          .ok (Real.log (sumTo 2 (fun j => exDelta.elem j * exAllprobs1.elem 0 j))) ∧
        forward_cpp_p Real.log exAllprobs1 exDelta (exStack 0) exTodShort =
          .ok (Real.log (sumTo 2 (fun j => exDelta.elem j * exAllprobs1.elem 0 j))) :=
  ⟨⟨rfl, rfl⟩,
    single_observation Real.log exAllprobs1 exDelta exGamma (exStack 0) exTodShort rfl rfl⟩

theorem forward_cpp_g_eq_forward_cpp_h_witness :
    ((exStack 2 : Cube ℝ).n_slices = (exAllprobs : Mat ℝ).n_rows - 1 ∧
        ∀ k, k < (exStack 2 : Cube ℝ).n_slices →
          (exStack 2 : Cube ℝ).slice k = .ok exGamma) ∧
      (∀ k, k ≤ (exAllprobs : Mat ℝ).n_rows - 1 →
          forward_cpp_g_locals Real.log exAllprobs exDelta (exStack 2) k =
            forward_cpp_h_locals Real.log exAllprobs exDelta exGamma k) ∧
        forward_cpp_g Real.log exAllprobs exDelta (exStack 2) =
          forward_cpp_h Real.log exAllprobs exDelta exGamma :=
  ⟨⟨rfl, fun k hk => exStack_slice 2 k hk⟩,
    forward_cpp_g_eq_forward_cpp_h Real.log exAllprobs exDelta exGamma (exStack 2) rfl
      (fun k hk => exStack_slice 2 k hk)⟩

theorem exTod_intValued :
    exTodPred.IntValued ∧ exTodZero.IntValued ∧ exTodPeriodic.IntValued := by
  refine ⟨?_, ?_, ?_⟩
  · intro i
    show (-2 ^ 31 : Int) ≤ (if i < 3 then (i : Int) - 1 else 0) ∧
      (if i < 3 then (i : Int) - 1 else 0) < 2 ^ 31
    by_cases h : i < 3
    · simp only [h, if_true]
      omega
    · simp only [h, if_false]
      omega
  · intro i
    show (-2 ^ 31 : Int) ≤ 0 ∧ (0 : Int) < 2 ^ 31
    omega
  · intro i
    show (-2 ^ 31 : Int) ≤ (if i = 1 then 0 else 1) ∧
      ((if i = 1 then 0 else 1) : Int) < 2 ^ 31
    by_cases h : i = 1
    · simp only [h, if_true]
      omega
    · simp only [h, if_false]
      omega

theorem exTodPred_data (i : Nat) (_h1 : 1 ≤ i) (h2 : i ≤ 2) :
    exTodPred.data i = (i : Int) - 1 := by
  show (if i < 3 then (i : Int) - 1 else 0) = (i : Int) - 1
  have h : i < 3 := by omega
  simp only [h, if_true]

theorem forward_cpp_p_eq_forward_cpp_g_witness :
    (exTodPred.IntValued ∧
        (exStack 2 : Cube ℝ).n_slices = (exAllprobs : Mat ℝ).n_rows - 1 ∧
        exTodPred.size = (exAllprobs : Mat ℝ).n_rows ∧
        ∀ i, 1 ≤ i → i ≤ (exAllprobs : Mat ℝ).n_rows - 1 →
          exTodPred.data i = (i : Int) - 1) ∧
      forward_cpp_p Real.log exAllprobs exDelta (exStack 2) exTodPred =
        forward_cpp_g Real.log exAllprobs exDelta (exStack 2) :=
  ⟨⟨exTod_intValued.1, rfl, rfl, exTodPred_data⟩,
    forward_cpp_p_eq_forward_cpp_g Real.log exAllprobs exDelta (exStack 2) exTodPred
      exTod_intValued.1 rfl rfl exTodPred_data⟩

theorem forward_cpp_p_eq_forward_cpp_h_witness :
    ((exStack 1 : Cube ℝ).n_slices = 1 ∧
        (exStack 1 : Cube ℝ).slice 0 = .ok exGamma ∧
        exTodZero.size = (exAllprobs : Mat ℝ).n_rows ∧
        ∀ i, i < exTodZero.size → exTodZero.data i = 0) ∧
      forward_cpp_p Real.log exAllprobs exDelta (exStack 1) exTodZero =
        forward_cpp_h Real.log exAllprobs exDelta exGamma :=
  ⟨⟨rfl, exStack_slice 1 0 (by decide), rfl, fun _ _ => rfl⟩,
    forward_cpp_p_eq_forward_cpp_h Real.log exAllprobs exDelta exGamma (exStack 1)
      exTodZero rfl (exStack_slice 1 0 (by decide)) rfl (fun _ _ => rfl)⟩

/-- C8, counterexample. With `nObs = 3` and a stack of 5 slices (not `nObs-1 = 2`)
`forward_cpp_g` raises no error: it returns a value, the one it returns for the
stack of the first 2 slices. -/
theorem forward_cpp_g_surplus_counterexample :
    (exStack 5 : Cube ℝ).n_slices ≠ (exAllprobs : Mat ℝ).n_rows - 1 ∧
      ∃ v, forward_cpp_g Real.log exAllprobs exDelta (exStack 5) = .ok v ∧
        forward_cpp_g Real.log exAllprobs exDelta (exStack 2) = .ok v := by
  have h5 := forward_cpp_g_eq Real.log exAllprobs exDelta (exStack 5) (by decide) rfl rfl
    rfl (by decide)
  have h2 := forward_cpp_g_eq Real.log exAllprobs exDelta (exStack 2) (by decide) rfl rfl
    rfl (by decide)
  exact ⟨by decide, _, h5, h2⟩

/-- C8, amended. `forward_cpp_g` does not compare the number of slices with
`nObs-1`.  With fewer than `nObs-1` slices the call ends with an exception
(the bounds check of `Gamma.slice` at the first missing slice, if no other
check fails before).  With `nObs-1` slices or more the slices beyond the first
`nObs-1` are never read: the result is that of the call on the first `nObs-1`
slices, and it is a value when the dimensions of `delta`, `allprobs` and the
slices match. -/
theorem forward_cpp_g_stack_length [Zero α] [Add α] [Mul α] [Div α] (log : α → α)
    (allprobs : Mat α) (delta : Rowvec α) (Gamma : Cube α) :
    (Gamma.n_slices < allprobs.n_rows - 1 →
        ∃ e, forward_cpp_g log allprobs delta Gamma = .error e) ∧
      (allprobs.n_rows - 1 ≤ Gamma.n_slices →
        forward_cpp_g log allprobs delta Gamma =
          forward_cpp_g log allprobs delta (Gamma.head_slices (allprobs.n_rows - 1))) ∧
      (allprobs.n_rows - 1 ≤ Gamma.n_slices → 1 ≤ allprobs.n_rows →
        delta.n_elem = allprobs.n_cols → Gamma.n_rows = allprobs.n_cols →
        Gamma.n_cols = allprobs.n_cols →
        ∃ v, forward_cpp_g log allprobs delta Gamma = .ok v) :=
  ⟨forward_cpp_g_too_few log allprobs delta Gamma,
    forward_cpp_g_head_slices log allprobs delta Gamma,
    fun hK hn hd hGr hGc => ⟨_, forward_cpp_g_eq log allprobs delta Gamma hn hd hGr hGc hK⟩⟩

theorem forward_cpp_g_stack_length_witness :
    (∃ e, forward_cpp_g Real.log exAllprobs exDelta (exStack 1) = .error e) ∧
      forward_cpp_g Real.log exAllprobs exDelta (exStack 5) =
        forward_cpp_g Real.log exAllprobs exDelta
          ((exStack 5 : Cube ℝ).head_slices ((exAllprobs : Mat ℝ).n_rows - 1)) ∧
      ∃ v, forward_cpp_g Real.log exAllprobs exDelta (exStack 5) = .ok v :=
  ⟨(forward_cpp_g_stack_length Real.log exAllprobs exDelta (exStack 1)).1 (by decide),
    (forward_cpp_g_stack_length Real.log exAllprobs exDelta (exStack 5)).2.1 (by decide),
    (forward_cpp_g_stack_length Real.log exAllprobs exDelta (exStack 5)).2.2 (by decide)
      (by decide) rfl rfl rfl⟩

/-- C9, counterexample. With `nObs = 3`, a pool of one slice and a `tod` of
length 1 (shorter than `nObs`) whose buffer is followed by zero words,
`forward_cpp_p` raises no error and returns a value: the length of `tod` is not
checked. -/
theorem forward_cpp_p_short_tod_counterexample :
    exTodShort.size < (exAllprobs : Mat ℝ).n_rows ∧
      ∃ v, forward_cpp_p Real.log exAllprobs exDelta (exStack 1) exTodShort = .ok v := by
  have h := forward_cpp_p_eq Real.log exAllprobs exDelta (exStack 1) exTodShort
    (by decide) rfl rfl rfl
    (fun i _ _ => by show toUword (0 : Int) < 1; decide)
  exact ⟨by decide, _, h⟩

/-- C9, amended. `forward_cpp_p` reads `tod[i]` for `i = 1, ..., nObs-1`
without looking at the length of `tod`.  For labels that are values of the type
`int` and a pool of `K < 2^64 - 2^31` slices: if one of the labels read is
outside `[0, K)` the call ends with an exception, and on inputs of matching
dimensions the call returns a value if and only if every label read lies in
`[0, K)`. -/
theorem forward_cpp_p_label_validation [Zero α] [Add α] [Mul α] [Div α] (log : α → α)
    (allprobs : Mat α) (delta : Rowvec α) (Gamma : Cube α) (tod : StdVector)
    (hint : tod.IntValued) (hK : Gamma.n_slices < 2 ^ 64 - 2 ^ 31) :
    (∀ i, 1 ≤ i → i ≤ allprobs.n_rows - 1 →
        ¬ (0 ≤ tod.data i ∧ tod.data i < (Gamma.n_slices : Int)) →
        ∃ e, forward_cpp_p log allprobs delta Gamma tod = .error e) ∧
      (1 ≤ allprobs.n_rows → delta.n_elem = allprobs.n_cols →
        Gamma.n_rows = allprobs.n_cols → Gamma.n_cols = allprobs.n_cols →
        ((∃ v, forward_cpp_p log allprobs delta Gamma tod = .ok v) ↔
          ∀ i, 1 ≤ i → i ≤ allprobs.n_rows - 1 →
            0 ≤ tod.data i ∧ tod.data i < (Gamma.n_slices : Int))) := by
  constructor
  · intro i h1 h2 hbad
    refine forward_cpp_p_bad_label log allprobs delta Gamma tod i h1 h2 ?_
    have := toUword_lt_iff (tod.data i) Gamma.n_slices (hint i) hK
    by_contra hlt
    exact hbad (this.1 (by omega))
  · intro hn hd hGr hGc
    rw [forward_cpp_p_ok_iff log allprobs delta Gamma tod hn hd hGr hGc]
    constructor
    · intro h i h1 h2
      exact (toUword_lt_iff (tod.data i) Gamma.n_slices (hint i) hK).1 (h i h1 h2)
    · intro h i h1 h2
      exact (toUword_lt_iff (tod.data i) Gamma.n_slices (hint i) hK).2 (h i h1 h2)

theorem forward_cpp_p_label_validation_witness :
    ((exTodZero.IntValued ∧ (exStack 1 : Cube ℝ).n_slices < 2 ^ 64 - 2 ^ 31) ∧
      ((∃ v, forward_cpp_p Real.log exAllprobs exDelta (exStack 1) exTodZero = .ok v) ↔
        ∀ i, 1 ≤ i → i ≤ (exAllprobs : Mat ℝ).n_rows - 1 →
          0 ≤ exTodZero.data i ∧
            exTodZero.data i < ((exStack 1 : Cube ℝ).n_slices : Int))) ∧
    ((exTodPred.IntValued ∧
        ¬ (0 ≤ exTodPred.data 2 ∧ exTodPred.data 2 < ((exStack 1 : Cube ℝ).n_slices : Int))) ∧
      ∃ e, forward_cpp_p Real.log exAllprobs exDelta (exStack 1) exTodPred = .error e) :=
  ⟨⟨⟨exTod_intValued.2.1, by decide⟩,
    (forward_cpp_p_label_validation Real.log exAllprobs exDelta (exStack 1) exTodZero
      exTod_intValued.2.1 (by decide)).2 (by decide) rfl rfl rfl⟩,
   ⟨⟨exTod_intValued.1, by decide⟩,
    (forward_cpp_p_label_validation Real.log exAllprobs exDelta (exStack 1) exTodPred
      exTod_intValued.1 (by decide)).1 2 (by decide) (by decide) (by decide)⟩⟩

/-! ## Normalisation -/

theorem exData_nonneg :
    (exDelta : Rowvec ℝ).Nonneg ∧ (exAllprobs : Mat ℝ).Nonneg ∧ (exGamma : Mat ℝ).Nonneg := by
  refine ⟨?_, ?_, ?_⟩
  · intro j _
    simp [exDelta]
  · intro i j hi hj
    have hi3 : i < 3 := hi
    have hj2 : j < 2 := hj
    interval_cases i <;> interval_cases j <;> simp [exAllprobs] <;> norm_num
  · intro i j hi hj
    have hi2 : i < 2 := hi
    have hj2 : j < 2 := hj
    interval_cases i <;> interval_cases j <;> simp [exGamma] <;> norm_num

/-- C1. For `nObs >= 1`, `delta` of length `N`, `allprobs` of shape `nObs × N`
and `Gamma` of shape `N × N`, all with non-negative real entries, such that the
unscaled likelihood `L = delta * diag(allprobs[0]) * Gamma * diag(allprobs[1]) *
... * Gamma * diag(allprobs[nObs-1]) * 1` is positive, `forward_cpp_h` returns
`log L` in exact real arithmetic (`N >= 1` follows from `L > 0`); and `L` is the
sum over all state paths `s_0, ..., s_(nObs-1)` of `delta[s_0] *
allprobs[0,s_0] * prod_(t>=1) Gamma[s_(t-1),s_t] * allprobs[t,s_t]`. -/
theorem forward_cpp_h_log_likelihood (allprobs : Mat ℝ) (delta : Rowvec ℝ)
    (Gamma : Mat ℝ) (hn : 1 ≤ allprobs.n_rows) (hd : delta.n_elem = allprobs.n_cols)
    (hGr : Gamma.n_rows = allprobs.n_cols) (hGc : Gamma.n_cols = allprobs.n_cols)
    (hdelta : delta.Nonneg) (hA : allprobs.Nonneg) (hG : Gamma.Nonneg)
    (hL : 0 < likelihood allprobs delta (fun _ => Gamma)) :
    forward_cpp_h Real.log allprobs delta Gamma =
        .ok (Real.log (likelihood allprobs delta (fun _ => Gamma))) ∧
      likelihood allprobs delta (fun _ => Gamma) =
        pathLikelihood allprobs delta (fun _ => Gamma) := by
  refine ⟨?_, likelihood_eq_pathLikelihood allprobs delta (fun _ => Gamma)⟩
  rw [forward_cpp_h_eq Real.log allprobs delta Gamma hn hd hGr hGc]
  rw [statePure_l_eq_log_likelihood allprobs delta (fun _ => Gamma) hd (fun _ _ => hGc)
    hdelta hA (fun _ _ _ k j hk hj => hG k j (by omega) (by omega)) hL]

theorem exLikelihood :
    likelihood (exAllprobs : Mat ℝ) exDelta (fun _ => exGamma) = 279 / 2500 := by
  unfold likelihood
  rw [Matrix.dotProduct_one]
  show ∑ j : Fin 2, likelihoodVec (exAllprobs : Mat ℝ) exDelta (fun _ => exGamma) 2 j = _
  simp only [likelihoodVec_succ, likelihoodVec_zero]
  show ∑ j : Fin 2, (∑ k : Fin 2, (∑ i : Fin 2, _) * _ * _) * _ = _
  simp [Fin.sum_univ_two, exAllprobs, exDelta, exGamma]
  norm_num

theorem forward_cpp_h_log_likelihood_witness :
    (1 ≤ (exAllprobs : Mat ℝ).n_rows ∧
        (exDelta : Rowvec ℝ).n_elem = (exAllprobs : Mat ℝ).n_cols ∧
        (exGamma : Mat ℝ).n_rows = (exAllprobs : Mat ℝ).n_cols ∧
        (exGamma : Mat ℝ).n_cols = (exAllprobs : Mat ℝ).n_cols ∧
        (exDelta : Rowvec ℝ).Nonneg ∧ (exAllprobs : Mat ℝ).Nonneg ∧
        (exGamma : Mat ℝ).Nonneg ∧
        0 < likelihood (exAllprobs : Mat ℝ) exDelta (fun _ => exGamma)) ∧
      forward_cpp_h Real.log exAllprobs exDelta exGamma =
        .ok (Real.log (likelihood exAllprobs exDelta (fun _ => exGamma))) ∧
      likelihood (exAllprobs : Mat ℝ) exDelta (fun _ => exGamma) =
        pathLikelihood exAllprobs exDelta (fun _ => exGamma) := by
  have hL : 0 < likelihood (exAllprobs : Mat ℝ) exDelta (fun _ => exGamma) := by
    rw [exLikelihood]
    norm_num
  exact ⟨⟨by decide, rfl, rfl, rfl, exData_nonneg.1, exData_nonneg.2.1,
      exData_nonneg.2.2, hL⟩,
    forward_cpp_h_log_likelihood exAllprobs exDelta exGamma (by decide) rfl rfl rfl
      exData_nonneg.1 exData_nonneg.2.1 exData_nonneg.2.2 hL⟩

/-- C2. For `nObs >= 1`, a pool `Gamma` of `K` matrices of shape `N × N`, labels
`tod[i]` in `[0, K)` for `i = 1, ..., nObs-1`, and non-negative real inputs
whose unscaled likelihood `L = delta * diag(allprobs[0]) * prod_(i=1..nObs-1)
(Gamma[tod[i]] * diag(allprobs[i])) * 1` is positive, `forward_cpp_p` returns
`log L` in exact real arithmetic; the matrix applied when moving into
observation `i` is the slice labelled `tod[i]`, and `L` is the sum over all
state paths of `delta[s_0] * allprobs[0,s_0] * prod_(i>=1)
Gamma[tod[i]][s_(i-1),s_i] * allprobs[i,s_i]`.  (`K <= 2^64` holds of every
cube: `n_slices` is a 64-bit unsigned field.) -/
theorem forward_cpp_p_log_likelihood (allprobs : Mat ℝ) (delta : Rowvec ℝ)
    (Gamma : Cube ℝ) (tod : StdVector) (hn : 1 ≤ allprobs.n_rows)
    (hd : delta.n_elem = allprobs.n_cols) (hGr : Gamma.n_rows = allprobs.n_cols)
    (hGc : Gamma.n_cols = allprobs.n_cols) (hK : Gamma.n_slices ≤ 2 ^ 64)
    (htod : ∀ i, 1 ≤ i → i ≤ allprobs.n_rows - 1 →
      0 ≤ tod.data i ∧ tod.data i < (Gamma.n_slices : Int))
    (hdelta : delta.Nonneg) (hA : allprobs.Nonneg) (hG : Gamma.Nonneg)
    (hL : 0 < likelihood allprobs delta (fun i => Gamma.sliceAt (tod.data i).toNat)) :
    forward_cpp_p Real.log allprobs delta Gamma tod =
        .ok (Real.log (likelihood allprobs delta
          (fun i => Gamma.sliceAt (tod.data i).toNat))) ∧
      likelihood allprobs delta (fun i => Gamma.sliceAt (tod.data i).toNat) =
        pathLikelihood allprobs delta (fun i => Gamma.sliceAt (tod.data i).toNat) := by
  refine ⟨?_, likelihood_eq_pathLikelihood allprobs delta _⟩
  have hsel : ∀ i, 1 ≤ i → i ≤ allprobs.n_rows - 1 →
      Gamma.slice (toUword (tod.data i)) = .ok (Gamma.sliceAt (tod.data i).toNat) := by
    intro i h1 h2
    obtain ⟨a, b⟩ := htod i h1 h2
    rw [toUword_eq_toNat (tod.data i) Gamma.n_slices hK a b]
    exact Cube.slice_eq_sliceAt Gamma _ (by omega)
  rw [forward_cpp_p_eq_of_sel Real.log allprobs delta Gamma tod
    (fun i => Gamma.sliceAt (tod.data i).toNat) hn hd (fun _ _ => hGr) (fun _ _ => hGc)
    hsel]
  rw [statePure_l_eq_log_likelihood allprobs delta
    (fun i => Gamma.sliceAt (tod.data i).toNat) hd (fun _ _ => hGc) hdelta hA ?_ hL]
  intro i h1 h2 k j hk hj
  obtain ⟨a, b⟩ := htod i h1 (by omega)
  exact hG k j (tod.data i).toNat (by omega) (by omega) (by omega)

theorem exPool_nonneg : (exPool : Cube ℝ).Nonneg := by
  intro i j k hi hj hk
  have hi2 : i < 2 := hi
  have hj2 : j < 2 := hj
  have hk2 : k < 2 := hk
  interval_cases k <;> interval_cases i <;> interval_cases j <;>
    simp [exPool, exGamma] <;> norm_num

theorem exLikelihoodPeriodic :
    likelihood (exAllprobs : Mat ℝ) exDelta
      (fun i => (exPool : Cube ℝ).sliceAt (exTodPeriodic.data i).toNat) = 113 / 1000 := by
  unfold likelihood
  rw [Matrix.dotProduct_one]
  show ∑ j : Fin 2, likelihoodVec (exAllprobs : Mat ℝ) exDelta _ 2 j = _
  simp only [likelihoodVec_succ, likelihoodVec_zero]
  show ∑ j : Fin 2, (∑ k : Fin 2, (∑ i : Fin 2, _) * _ * _) * _ = _
  simp [Fin.sum_univ_two, exAllprobs, exDelta, exGamma, exPool, exTodPeriodic,
    Cube.sliceAt]
  norm_num

theorem exTodPeriodic_valid :
    ∀ i, 1 ≤ i → i ≤ (exAllprobs : Mat ℝ).n_rows - 1 →
      0 ≤ exTodPeriodic.data i ∧ exTodPeriodic.data i < ((exPool : Cube ℝ).n_slices : Int) := by
  intro i h1 h2
  have h3 : i ≤ 2 := h2
  interval_cases i <;> simp [exTodPeriodic, exPool]

theorem forward_cpp_p_log_likelihood_witness :
    (1 ≤ (exAllprobs : Mat ℝ).n_rows ∧
        (exPool : Cube ℝ).n_slices ≤ 2 ^ 64 ∧
        (∀ i, 1 ≤ i → i ≤ (exAllprobs : Mat ℝ).n_rows - 1 →
          0 ≤ exTodPeriodic.data i ∧
            exTodPeriodic.data i < ((exPool : Cube ℝ).n_slices : Int)) ∧
        (exDelta : Rowvec ℝ).Nonneg ∧ (exAllprobs : Mat ℝ).Nonneg ∧
        (exPool : Cube ℝ).Nonneg ∧
        0 < likelihood (exAllprobs : Mat ℝ) exDelta
          (fun i => (exPool : Cube ℝ).sliceAt (exTodPeriodic.data i).toNat)) ∧
      forward_cpp_p Real.log exAllprobs exDelta exPool exTodPeriodic =
        .ok (Real.log (likelihood exAllprobs exDelta
          (fun i => (exPool : Cube ℝ).sliceAt (exTodPeriodic.data i).toNat))) ∧
      likelihood (exAllprobs : Mat ℝ) exDelta
          (fun i => (exPool : Cube ℝ).sliceAt (exTodPeriodic.data i).toNat) =
        pathLikelihood exAllprobs exDelta
          (fun i => (exPool : Cube ℝ).sliceAt (exTodPeriodic.data i).toNat) := by
  have hL : 0 < likelihood (exAllprobs : Mat ℝ) exDelta
      (fun i => (exPool : Cube ℝ).sliceAt (exTodPeriodic.data i).toNat) := by
    rw [exLikelihoodPeriodic]
    norm_num
  exact ⟨⟨by decide, by decide, exTodPeriodic_valid, exData_nonneg.1, exData_nonneg.2.1,
      exPool_nonneg, hL⟩,
    forward_cpp_p_log_likelihood exAllprobs exDelta exPool exTodPeriodic (by decide) rfl
      rfl rfl (by decide) exTodPeriodic_valid exData_nonneg.1 exData_nonneg.2.1
      exPool_nonneg hL⟩

/-! ## Degeneracy: an all-zero row of `allprobs` -/

/-- C7, counterexample. In `double`, with `delta = [0.5,0.5]` a distribution,
`Gamma = [[0.75,0.25],[0.25,0.75]]` row-stochastic and
`allprobs = [[0,0],[0.5,0.5],[0.3,0.7]]`, all entries finite and non-negative
and row 0 all-zero, `forward_cpp_h` returns `NaN`, not `-inf`, whatever the
logarithm of the C library is on positive numbers. -/
theorem forward_cpp_h_zero_row_counterexample :
    (dblDelta.IsFinite ∧ (dblDelta.map Dbl.toRat).IsDistribution ∧
        dblGamma.IsFinite ∧ (dblGamma.map Dbl.toRat).RowStochastic ∧
        dblAllprobsZero.IsFinite ∧ (dblAllprobsZero.map Dbl.toRat).Nonneg ∧
        dblAllprobsZero.ZeroRow 0) ∧
      ∀ lg : Int → Int,
        forward_cpp_h (Dbl.log lg) dblAllprobsZero dblDelta dblGamma = .ok .nan ∧
        forward_cpp_h (Dbl.log lg) dblAllprobsZero dblDelta dblGamma ≠ .ok .ninf := by
  refine ⟨⟨dblData_props.1, dblData_props.2.1, dblData_props.2.2.1, dblData_props.2.2.2,
    dblAllprobsZero_props⟩, fun lg => ?_⟩
  have h := (forward_cpp_h_zeroRow_dbl lg dblAllprobsZero dblDelta dblGamma (by decide)
    rfl rfl rfl 0 (by decide) dblAllprobsZero_props.2.2).1 (by decide)
  refine ⟨h, ?_⟩
  rw [h]
  intro h2
  cases h2

/-- C7, amended. In `double` (round to nearest, with underflow, overflow and
the special values), for an input of matching dimensions with `N >= 1` in
which row `t` of `allprobs` is all-zero, whatever the other entries are and
whatever the logarithm of the C library is on positive numbers: if `t` is not
the last row, each of the three functions returns `NaN`; if `t` is the last
row, each of them returns `-inf` or `NaN`, never a number. -/
theorem zero_row_degeneracy (lg : Int → Int) (allprobs : Mat Dbl) (delta : Rowvec Dbl)
    (t : Nat) (hN : 1 ≤ allprobs.n_cols) (ht : t < allprobs.n_rows)
    (hd : delta.n_elem = allprobs.n_cols) (hz : allprobs.ZeroRow t) :
    (∀ Gamma : Mat Dbl, Gamma.n_rows = allprobs.n_cols → Gamma.n_cols = allprobs.n_cols →
        (t + 1 < allprobs.n_rows →
          forward_cpp_h (Dbl.log lg) allprobs delta Gamma = .ok .nan) ∧
        (t + 1 = allprobs.n_rows →
          forward_cpp_h (Dbl.log lg) allprobs delta Gamma = .ok .ninf ∨
            forward_cpp_h (Dbl.log lg) allprobs delta Gamma = .ok .nan)) ∧
      (∀ Gamma : Cube Dbl, Gamma.n_rows = allprobs.n_cols →
        Gamma.n_cols = allprobs.n_cols → allprobs.n_rows - 1 ≤ Gamma.n_slices →
        (t + 1 < allprobs.n_rows →
          forward_cpp_g (Dbl.log lg) allprobs delta Gamma = .ok .nan) ∧
        (t + 1 = allprobs.n_rows →
          forward_cpp_g (Dbl.log lg) allprobs delta Gamma = .ok .ninf ∨
            forward_cpp_g (Dbl.log lg) allprobs delta Gamma = .ok .nan)) ∧
      (∀ (Gamma : Cube Dbl) (tod : StdVector), Gamma.n_rows = allprobs.n_cols →
        Gamma.n_cols = allprobs.n_cols → Gamma.n_slices ≤ 2 ^ 64 →
        (∀ i, 1 ≤ i → i ≤ allprobs.n_rows - 1 →
          0 ≤ tod.data i ∧ tod.data i < (Gamma.n_slices : Int)) →
        (t + 1 < allprobs.n_rows →
          forward_cpp_p (Dbl.log lg) allprobs delta Gamma tod = .ok .nan) ∧
        (t + 1 = allprobs.n_rows →
          forward_cpp_p (Dbl.log lg) allprobs delta Gamma tod = .ok .ninf ∨
            forward_cpp_p (Dbl.log lg) allprobs delta Gamma tod = .ok .nan)) := by
  refine ⟨fun Gamma hGr hGc => ?_, fun Gamma hGr hGc hK => ?_,
    fun Gamma tod hGr hGc hK htod => ?_⟩
  · exact forward_cpp_h_zeroRow_dbl lg allprobs delta Gamma hN hd hGr hGc t ht hz
  · exact forward_cpp_g_zeroRow_dbl lg allprobs delta Gamma hN hd hGr hGc hK t ht hz
  · refine forward_cpp_p_zeroRow_dbl lg allprobs delta Gamma tod hN hd hGr hGc ?_ t ht hz
    intro i h1 h2
    obtain ⟨a, b⟩ := htod i h1 h2
    rw [toUword_eq_toNat (tod.data i) Gamma.n_slices hK a b]
    omega

theorem zero_row_degeneracy_witness :
    ((1 ≤ dblAllprobsLastZero.n_cols ∧ 1 < dblAllprobsLastZero.n_rows ∧
        dblDelta.n_elem = dblAllprobsLastZero.n_cols ∧ dblAllprobsLastZero.ZeroRow 1) ∧
      ∀ lg : Int → Int,
        forward_cpp_h (Dbl.log lg) dblAllprobsLastZero dblDelta dblGamma = .ok .ninf ∨
          forward_cpp_h (Dbl.log lg) dblAllprobsLastZero dblDelta dblGamma = .ok .nan) ∧
    ((1 ≤ dblAllprobsZero.n_cols ∧ 0 < dblAllprobsZero.n_rows ∧
        dblDelta.n_elem = dblAllprobsZero.n_cols ∧ dblAllprobsZero.ZeroRow 0) ∧
      ∀ lg : Int → Int,
        forward_cpp_g (Dbl.log lg) dblAllprobsZero dblDelta (dblStack 2) = .ok .nan) :=
  ⟨⟨⟨by decide, by decide, rfl, dblAllprobsLastZero_props.2.2⟩,
    fun lg => ((zero_row_degeneracy lg dblAllprobsLastZero dblDelta 1 (by decide) (by decide)
      rfl dblAllprobsLastZero_props.2.2).1 dblGamma rfl rfl).2 (by decide)⟩,
   ⟨⟨by decide, by decide, rfl, dblAllprobsZero_props.2.2⟩,
    fun lg => ((zero_row_degeneracy lg dblAllprobsZero dblDelta 0 (by decide) (by decide)
      rfl dblAllprobsZero_props.2.2).2.1 (dblStack 2) rfl rfl (by decide)).1 (by decide)⟩⟩

theorem dblLastZero_sumfoo :
    (statePure (Dbl.log (fun _ => 0)) dblAllprobsLastZero dblDelta (fun _ => dblGamma) 0).sumfoo =
        Dbl.fin (2 ^ 1073) ∧
      (statePure (Dbl.log (fun _ => 0)) dblAllprobsLastZero dblDelta
        (fun _ => dblGamma) 1).sumfoo = Dbl.fin 0 :=
  ⟨by decide!, by decide!⟩

/-- With `allprobs = [[0.6,0.4],[0,0]]`, whose last row is all-zero,
`forward_cpp_h` returns `-inf` in `double`. -/
theorem forward_cpp_h_last_row_ninf (lg : Int → Int) :
    forward_cpp_h (Dbl.log lg) dblAllprobsLastZero dblDelta dblGamma = .ok .ninf := by
  rw [forward_cpp_h_eq (Dbl.log lg) dblAllprobsLastZero dblDelta dblGamma (by decide) rfl rfl
    rfl]
  refine congrArg Except.ok ?_
  have h0 := (statePure_congr_log (Dbl.log lg) (Dbl.log (fun _ => 0)) dblAllprobsLastZero
    dblDelta (fun _ => dblGamma) 0).2.1
  have h1 := (statePure_congr_log (Dbl.log lg) (Dbl.log (fun _ => 0)) dblAllprobsLastZero
    dblDelta (fun _ => dblGamma) 1).2.1
  rw [dblLastZero_sumfoo.1] at h0
  rw [dblLastZero_sumfoo.2] at h1
  have e : dblAllprobsLastZero.n_rows - 1 = 0 + 1 := rfl
  rw [e, statePure_succ_l, statePure_zero_l, h0, h1,
    Dbl.log_pos lg _ (pow_pos (by decide) _), ← dbl_zero_eq, Dbl.log_zero]
  rfl

theorem dblAllprobsTinyZero_props :
    dblAllprobsTinyZero.IsFinite ∧ dblAllprobsTinyZero.ZeroRow 1 ∧
      (dblAllprobsTinyZero.map Dbl.toRat).PositiveRow 0 := by
  refine ⟨?_, ?_, ?_⟩
  · unfold Mat.IsFinite
    decide!
  · intro j _
    rfl
  · intro j _
    simp only [Mat.map, dblAllprobsTinyZero, if_true, Dbl.toRat_fin]
    positivity

/-- With `allprobs = [[2^(-1074),2^(-1074)],[0,0]]`, whose row 0 is entrywise
positive and whose last row is all-zero, the products `0.5 * 2^(-1074)`
underflow to 0 and `forward_cpp_h` returns `NaN` in `double`. -/
theorem forward_cpp_h_last_row_nan (lg : Int → Int) :
    forward_cpp_h (Dbl.log lg) dblAllprobsTinyZero dblDelta dblGamma = .ok .nan := by
  rw [forward_cpp_h_eq (Dbl.log lg) dblAllprobsTinyZero dblDelta dblGamma (by decide) rfl rfl
    rfl]
  refine congrArg Except.ok ?_
  have hfoo : (statePure (Dbl.log (fun _ => 0)) dblAllprobsTinyZero dblDelta
      (fun _ => dblGamma) 0).phi.elem 0 = Dbl.nan := by decide!
  have h0 := (statePure_congr_log (Dbl.log lg) (Dbl.log (fun _ => 0)) dblAllprobsTinyZero
    dblDelta (fun _ => dblGamma) 0).2.2
  have hL : (statePure (Dbl.log lg) dblAllprobsTinyZero dblDelta (fun _ => dblGamma) 0).Lost := by
    refine ⟨?_, ?_⟩
    · rw [statePure_phi_n_elem (Dbl.log lg) dblAllprobsTinyZero dblDelta (fun _ => dblGamma)
        rfl (fun _ _ => rfl)]
      decide
    · rw [h0]
      exact hfoo
  exact (stepPure_lost lg dblAllprobsTinyZero dblGamma 1 _ hL (by decide)).1

/-! ## The label `tod[0]` -/

/-- C14. For every `allprobs`, `delta`, `Gamma` and every two label sequences
`tod`, `tod1` of length `nObs` that agree at every index `i = 1, ..., nObs-1`
(and may differ at index 0, `tod[0]` out of range included),
`forward_cpp_p` returns the same result: `tod[0]` is never read. -/
theorem forward_cpp_p_ignores_tod_zero [Zero α] [Add α] [Mul α] [Div α] (log : α → α)
    (allprobs : Mat α) (delta : Rowvec α) (Gamma : Cube α) (tod tod1 : StdVector)
    (_hsize : tod.size = allprobs.n_rows) (_hsize1 : tod1.size = allprobs.n_rows)
    (h : ∀ i, 1 ≤ i → i ≤ allprobs.n_rows - 1 → tod.data i = tod1.data i) :
    forward_cpp_p log allprobs delta Gamma tod =
      forward_cpp_p log allprobs delta Gamma tod1 := by
  have key : forward_cpp_p_locals log allprobs delta Gamma tod (allprobs.n_rows - 1) =
      forward_cpp_p_locals log allprobs delta Gamma tod1 (allprobs.n_rows - 1) := by
    unfold forward_cpp_p_locals
    cases forward_init log allprobs delta with
    | error e => rfl
    | ok s0 =>
      refine forLoop_congr _ _ _ 1 s0 ?_
      intro i t h1 h2
      simp only [forward_cpp_p_body, h i h1 (by omega)]
  unfold forward_cpp_p
  simp only [key]

theorem exTodOther_data (i : Nat) (h1 : 1 ≤ i) :
    exTodZero.data i = exTodOther.data i := by
  show (0 : Int) = if i = 0 then 99 else 0
  have h : ¬ i = 0 := by omega
  simp only [h, if_false]

theorem forward_cpp_p_ignores_tod_zero_witness :
    (exTodZero.size = (exAllprobs : Mat ℝ).n_rows ∧
        exTodOther.size = (exAllprobs : Mat ℝ).n_rows ∧
        (∀ i, 1 ≤ i → i ≤ (exAllprobs : Mat ℝ).n_rows - 1 →
          exTodZero.data i = exTodOther.data i) ∧
        exTodZero.data 0 ≠ exTodOther.data 0) ∧
      forward_cpp_p Real.log exAllprobs exDelta (exStack 1) exTodZero =
        forward_cpp_p Real.log exAllprobs exDelta (exStack 1) exTodOther :=
  ⟨⟨rfl, rfl, fun i h1 _ => exTodOther_data i h1, by decide⟩,
    forward_cpp_p_ignores_tod_zero Real.log exAllprobs exDelta (exStack 1) exTodZero
      exTodOther rfl rfl (fun i h1 _ => exTodOther_data i h1)⟩

/-! ## The fixed example -/

section Weighted

variable {F : Type} [LinearOrderedField F]

end Weighted

/-! ## Runs on which no normaliser is zero -/

section Safe

variable {F : Type} [LinearOrderedField F] (log : F → F)

end Safe

section SafeVariants

variable {F : Type} [LinearOrderedField F] (log : F → F)

end SafeVariants

/-! ## No division by zero under the preconditions of the model -/

section Probabilities

variable (allprobs : Mat ℝ) (delta : Rowvec ℝ) (Gs : Nat → Mat ℝ)

end Probabilities

section Scaling

end Scaling

section Signal

variable {β : Type} [LinearOrderedField β] (log : β → β)

end Signal

end Lcpp
